import Mathlib

/-!
Verification development for the storage core of joujoudb: a shallow
embedding in Lean 4 of the B+ tree pages and tree operations
(src/pages/btree.rs, src/indexes/btree.rs), the slotted heap page
(src/pages/heappage.rs), the table layer (src/table.rs), tuple/value
serialization (src/tuple.rs, src/sql/types/value.rs), and the buffer
pool / page cache (src/cache/memcache.rs, src/cache/pagecache.rs).

Machine integers are modelled as Nat/Int; byte stores as functions
Nat → Nat whose writes truncate mod 256; fallible code returns
Option/Except, with `none` standing for a Rust panic
(unwrap/unreachable!/unimplemented!).
-/

set_option linter.unusedVariables false
set_option maxRecDepth 8192

namespace JoujouDB

/-! ## Keys, record ids, page ids (src/pages/btree.rs, src/pages/page.rs) -/

/-! Keys are `u32` in the source (`pub type Key = u32`) and page ids are
`u32` newtypes; both are only compared and copied, never subject to
arithmetic, so plain `Nat` is a faithful model for both and is used
directly below. `0` is `PAGE_INVALID` and `PAGE_RESERVED` (superblock). -/

def PAGE_INVALID : Nat := 0

def PAGE_RESERVED : Nat := 0

/-- RecordId = (page_id: u32, slot_id: u16); stored and copied, never inspected
by the B+ tree. -/
structure RecordId where
  page_id : Nat
  slot_id : Nat
deriving DecidableEq, Repr

def BTREE_BRANCHING_FACTOR : Nat := 341

def BTREE_NUM_KEYS : Nat := BTREE_BRANCHING_FACTOR - 1

/-- Model of Rust `slice::binary_search` restricted to its documented
contract on sorted slices: `.inl pos` is `Ok(pos)` (key found at `pos`),
`.inr pos` is `Err(pos)` (insertion position). Implemented by linear
recursion; on the strictly sorted lists maintained by every page this
agrees with the stdlib binary search. -/
def binarySearch : List Nat → Nat → Nat ⊕ Nat
  | [], _ => .inr 0
  | k :: ks, key =>
    if key < k then .inr 0
    else if key = k then .inl 0
    else
      match binarySearch ks key with
      | .inl i => .inl (i + 1)
      | .inr i => .inr (i + 1)

/-! ## B+ tree leaf page (src/pages/btree.rs, BTreeLeafPage)

The on-page arrays `keys[BTREE_NUM_KEYS]` / `values[BTREE_NUM_KEYS]` hold
`header.num_keys` valid entries; the model keeps exactly the valid prefix
as lists, so `keys.length` plays the role of `num_keys`. -/

structure BTreeLeafPage where
  keys : List Nat
  values : List RecordId
  next : Nat
deriving DecidableEq, Repr

/-- Result of `BTreeLeafPage::insert`: `None` (inserted in place) is
`inserted`, `Some(SplitLeaf)` is `split` (the page is not mutated), and
the `unimplemented!("duplicate keys")` panic is `duplicatePanic`. -/
inductive LeafInsertResult where
  | inserted (page : BTreeLeafPage)
  | split
  | duplicatePanic
deriving DecidableEq, Repr

/-- BTreeLeafPage::init: num_keys = 0, next = PAGE_INVALID. -/
def BTreeLeafPage.init : BTreeLeafPage :=
  { keys := [], values := [], next := PAGE_INVALID }

/-- BTreeLeafPage::search: binary search on the sorted keys, returning the
parallel value. The source indexes `values[pos]` (in range whenever
`keys.len() == values.len()`); the model totalizes with `getD`. -/
def BTreeLeafPage.search (p : BTreeLeafPage) (key : Nat) : Option RecordId :=
  match binarySearch p.keys key with
  | .inl pos => some (p.values.getD pos ⟨0, 0⟩)
  | .inr _ => none

/-- BTreeLeafPage::insert: on `Err(pos)` from the binary search, if the page
has room the key/value are shifted in at `pos` (`copy_within` + store =
`insertIdx`); if full, a `SplitLeaf` handle is returned and nothing is
mutated. `Ok(_)` hits `unimplemented!("duplicate keys")`. -/
def BTreeLeafPage.insert (p : BTreeLeafPage) (key : Nat) (value : RecordId) :
    LeafInsertResult :=
  match binarySearch p.keys key with
  | .inl _ => .duplicatePanic
  | .inr pos =>
    if p.keys.length < BTREE_NUM_KEYS then
      .inserted
        { keys := p.keys.insertIdx pos key
          values := p.values.insertIdx pos value
          next := p.next }
    else
      .split

/-- Effect on the page of a Rust `page.insert(key, value)` statement whose
returned `Option<SplitLeaf>` is discarded (as both arms of
`SplitLeaf::split` do): an in-place insert updates the page, a returned
split handle leaves it unchanged, and the duplicate-key panic cannot occur
at those call sites. -/
def BTreeLeafPage.insertWrite (p : BTreeLeafPage) (key : Nat) (value : RecordId) :
    BTreeLeafPage :=
  match p.insert key value with
  | .inserted q => q
  | _ => p

inductive BTreePageError where
  | keyNotFound
deriving DecidableEq, Repr

/-- BTreeLeafPage::delete: `copy_within(pos+1..num_keys, pos)` on both arrays
and `num_keys -= 1` is `eraseIdx pos`; a missed binary search is
`Err(KeyNotFound)`. -/
def BTreeLeafPage.delete (p : BTreeLeafPage) (key : Nat) :
    Except BTreePageError BTreeLeafPage :=
  match binarySearch p.keys key with
  | .inl pos =>
    .ok { keys := p.keys.eraseIdx pos, values := p.values.eraseIdx pos, next := p.next }
  | .inr _ => .error .keyNotFound

/-- SplitLeaf::split (src/pages/btree.rs lines 71-92). `rhs` is the freshly
initialized right sibling. Returns `none` exactly on the `unreachable!()`
branch (`key == median_key`); otherwise `some (lhs', rhs', separator)`.
`lhs.keys[split_at]` is read from the fixed-size on-page array, modelled
with `getD` (in range whenever `split_at < keys.length`). -/
def SplitLeaf.split (lhs rhs : BTreeLeafPage) (key : Nat) (value : RecordId) :
    Option (BTreeLeafPage × BTreeLeafPage × Nat) :=
  let lhs_num_keys := lhs.keys.length
  let split_at := (lhs_num_keys + 1) / 2
  let median_key := lhs.keys.getD split_at 0
  let rhs1 : BTreeLeafPage :=
    { keys := lhs.keys.drop split_at, values := lhs.values.drop split_at, next := rhs.next }
  let lhs1 : BTreeLeafPage :=
    { keys := lhs.keys.take split_at, values := lhs.values.take split_at, next := lhs.next }
  if key < median_key then
    let lhs2 := lhs1.insertWrite key value
    some (lhs2, rhs1, rhs1.keys.getD 0 0)
  else if median_key < key then
    let rhs2 := rhs1.insertWrite key value
    some (lhs1, rhs2, rhs2.keys.getD 0 0)
  else
    none

/-! ## B+ tree inner page (src/pages/btree.rs, BTreeInnerPage) -/

structure BTreeInnerPage where
  keys : List Nat
  pointers : List Nat
deriving DecidableEq, Repr

inductive InnerInsertResult where
  | inserted (page : BTreeInnerPage)
  | split
  | duplicatePanic
deriving DecidableEq, Repr

/-- BTreeInnerPage::search (called `get` at the `indexes/btree.rs` call
sites): `Ok(pos) => pointers[pos+1]`, `Err(pos) => pointers[pos]`. -/
def BTreeInnerPage.search (p : BTreeInnerPage) (key : Nat) : Nat :=
  match binarySearch p.keys key with
  | .inl pos => p.pointers.getD (pos + 1) 0
  | .inr pos => p.pointers.getD pos 0

/-- BTreeInnerPage::init: one separator and two children. -/
def BTreeInnerPage.init (key : Nat) (left_pointer right_pointer : Nat) :
    BTreeInnerPage :=
  { keys := [key], pointers := [left_pointer, right_pointer] }

/-- BTreeInnerPage::init_header: empty inner page. -/
def BTreeInnerPage.initHeader : BTreeInnerPage :=
  { keys := [], pointers := [] }

/-- BTreeInnerPage::insert: key shifted in at `pos`, right pointer at
`pos + 1`. -/
def BTreeInnerPage.insert (p : BTreeInnerPage) (key : Nat) (right_pointer : Nat) :
    InnerInsertResult :=
  match binarySearch p.keys key with
  | .inl _ => .duplicatePanic
  | .inr pos =>
    if p.keys.length < BTREE_NUM_KEYS then
      .inserted
        { keys := p.keys.insertIdx pos key
          pointers := p.pointers.insertIdx (pos + 1) right_pointer }
    else
      .split

/-- Same discarded-result convention as `BTreeLeafPage.insertWrite`. -/
def BTreeInnerPage.insertWrite (p : BTreeInnerPage) (key : Nat) (right_pointer : Nat) :
    BTreeInnerPage :=
  match p.insert key right_pointer with
  | .inserted q => q
  | _ => p

/-- SplitInner::split (src/pages/btree.rs lines 188-209): the median key at
`split_at = div_ceil(num_keys, 2) - 1` is lifted out; keys right of it and
pointers from `split_at+1` move to `rhs`. `none` models the
`unreachable!()` branch (`key == split_key`). -/
def SplitInner.split (lhs rhs : BTreeInnerPage) (key : Nat) (right_pointer : Nat) :
    Option (BTreeInnerPage × BTreeInnerPage × Nat) :=
  let lhs_num_keys := lhs.keys.length
  let split_at := (lhs_num_keys + 1) / 2 - 1
  let rhs1 : BTreeInnerPage :=
    { keys := lhs.keys.drop (split_at + 1), pointers := lhs.pointers.drop (split_at + 1) }
  let lhs1 : BTreeInnerPage :=
    { keys := lhs.keys.take split_at, pointers := lhs.pointers.take (split_at + 1) }
  let split_key := lhs.keys.getD split_at 0
  if split_key < key then
    some (lhs1, rhs1.insertWrite key right_pointer, split_key)
  else if key < split_key then
    some (lhs1.insertWrite key right_pointer, rhs1, split_key)
  else
    none

/-! ## Tree-level operations (src/indexes/btree.rs)

The page cache is modelled by the dense page store of the index storage:
`pages[pid]` is page `pid`; `new_page()` allocates `pages.length` (the
backend's counter allocates dense, monotone ids) and appends. Page 0 is
the superblock. Latches and pins order concurrent access and play no role
in the sequential functional semantics. -/

inductive BTreePage where
  | super (root_page_id : Nat)
  | leaf (p : BTreeLeafPage)
  | inner (p : BTreeInnerPage)
deriving DecidableEq, Repr

structure BTreeState where
  pages : List BTreePage
deriving DecidableEq, Repr

/-- Descent loop shared by `find_leaf_page` and `find_leaf_page_mut`: both
route with `inner.get(key)` until a leaf page type is found, returning its
page id. `fuel` bounds the loop (any bound above the tree height is
enough); `none` models a failed descent. -/
def findLeafGo (pages : List BTreePage) : Nat → Nat → Nat → Option Nat
  | 0, _, _ => none
  | fuel + 1, pid, key =>
    match pages[pid]? with
    | some (.inner ip) => findLeafGo pages fuel (ip.search key) key
    | some (.leaf _) => some pid
    | _ => none

/-- root_page_id read from the superblock (page `PAGE_RESERVED`). -/
def BTreeState.rootPageId (s : BTreeState) : Option Nat :=
  match s.pages[PAGE_RESERVED]? with
  | some (.super r) => some r
  | _ => none

def BTreeState.findLeaf (s : BTreeState) (key : Nat) : Option Nat :=
  s.rootPageId.bind fun r => findLeafGo s.pages s.pages.length r key

/-- BTree::search: descend to the leaf, then `leaf.search` (`leaf.get`). -/
def BTreeState.search (s : BTreeState) (key : Nat) : Option RecordId :=
  match s.findLeaf key with
  | some pid =>
    match s.pages[pid]? with
    | some (.leaf lp) => lp.search key
    | _ => none
  | none => none

/-- BTree::insert_leaf: insert into the leaf at `pid`; on split, allocate the
right sibling (`new_page` returns id `pages.length`), `rhs.init()`, run
`SplitLeaf::split`, then `lhs.set_next_page_id(rhs_page_id)` (the split
leaves `rhs.next` at the `PAGE_INVALID` written by `init`). Returns the
updated store and the optional `(split_key, rhs_page_id)` to propagate. -/
def insertLeafAt (s : BTreeState) (pid : Nat) (key : Nat) (value : RecordId) :
    Option (BTreeState × Option (Nat × Nat)) :=
  match s.pages[pid]? with
  | some (.leaf lhs) =>
    match lhs.insert key value with
    | .inserted p1 => some (⟨s.pages.set pid (.leaf p1)⟩, none)
    | .duplicatePanic => none
    | .split =>
      let rhs_page_id := s.pages.length
      match SplitLeaf.split lhs BTreeLeafPage.init key value with
      | none => none
      | some (lhs1, rhs1, split_key) =>
        let lhs2 : BTreeLeafPage :=
          { keys := lhs1.keys, values := lhs1.values, next := rhs_page_id }
        some (⟨(s.pages.set pid (.leaf lhs2)) ++ [.leaf rhs1]⟩,
              some (split_key, rhs_page_id))
  | _ => none

/-- BTree::insert_inner_r: route to the child, recurse (`insert_inner_r` on
an inner child, `insert_leaf` on a leaf child), then absorb a propagated
split into this inner page, itself splitting if full. The held `&mut`
inner page is the pre-recursion read `ip`, written back at `pid`. -/
def insertInnerR (key : Nat) (value : RecordId) :
    Nat → BTreeState → Nat → Option (BTreeState × Option (Nat × Nat))
  | 0, _, _ => none
  | fuel + 1, s, pid =>
    match s.pages[pid]? with
    | some (.inner ip) =>
      let child := ip.search key
      let rec_result : Option (BTreeState × Option (Nat × Nat)) :=
        match s.pages[child]? with
        | some (.inner _) => insertInnerR key value fuel s child
        | some (.leaf _) => insertLeafAt s child key value
        | _ => none
      rec_result.bind fun (s1, result) =>
        match result with
        | none => some (s1, none)
        | some (split_key, rhs_page_id) =>
          match ip.insert split_key rhs_page_id with
          | .inserted ip1 => some (⟨s1.pages.set pid (.inner ip1)⟩, none)
          | .duplicatePanic => none
          | .split =>
            let rhs_inner_page_id := s1.pages.length
            match SplitInner.split ip BTreeInnerPage.initHeader split_key rhs_page_id with
            | none => none
            | some (ipl, ipr, split_key2) =>
              some (⟨(s1.pages.set pid (.inner ipl)) ++ [.inner ipr]⟩,
                    some (split_key2, rhs_inner_page_id))
    | _ => none

/-- BTree::insert_slow_path: exclusive descent from the root recorded in the
superblock; a split escaping the root allocates a new root inner page
`init(split_key, old_root, rhs)` and updates the superblock. -/
def insertSlowPath (s : BTreeState) (key : Nat) (value : RecordId) :
    Option BTreeState :=
  match s.pages[PAGE_RESERVED]? with
  | some (.super root_page_id) =>
    let desc : Option (BTreeState × Option (Nat × Nat)) :=
      match s.pages[root_page_id]? with
      | some (.inner _) => insertInnerR key value s.pages.length s root_page_id
      | some (.leaf _) => insertLeafAt s root_page_id key value
      | _ => none
    desc.bind fun (s1, result) =>
      match result with
      | none => some s1
      | some (split_key, rhs_page_id) =>
        let new_root_page_id := s1.pages.length
        let new_root := BTreeInnerPage.init split_key root_page_id rhs_page_id
        some ⟨(s1.pages ++ [BTreePage.inner new_root]).set PAGE_RESERVED (.super new_root_page_id)⟩
  | _ => none

/-- BTree::insert: fast path re-latches only the leaf found by
`find_leaf_page_mut` and tries an in-place insert; a returned split handle
drops the leaf and falls back to `insert_slow_path`. -/
def BTreeState.insert (s : BTreeState) (key : Nat) (value : RecordId) :
    Option BTreeState :=
  match s.findLeaf key with
  | some pid =>
    match s.pages[pid]? with
    | some (.leaf lp) =>
      match lp.insert key value with
      | .inserted p1 => some ⟨s.pages.set pid (.leaf p1)⟩
      | .duplicatePanic => none
      | .split => insertSlowPath s key value
    | _ => none
  | none => none

/-- BTree::delete: descend to the leaf (`find_leaf_page_mut`) and run
`leaf.delete`; `Err(KeyNotFound)` is propagated, nothing is merged. -/
def BTreeState.delete (s : BTreeState) (key : Nat) :
    Option (Except BTreePageError BTreeState) :=
  match s.findLeaf key with
  | some pid =>
    match s.pages[pid]? with
    | some (.leaf lp) =>
      match lp.delete key with
      | .ok lp1 => some (.ok ⟨s.pages.set pid (.leaf lp1)⟩)
      | .error e => some (.error e)
    | _ => none
  | none => none

/-- BTree::try_new: the superblock records the freshly allocated empty leaf
root (the backend allocates page 1 first). -/
def BTreeState.tryNew : BTreeState :=
  ⟨[.super 1, .leaf BTreeLeafPage.init]⟩

/-- Left fold of `BTree::insert` over a sequence of operations. -/
def insertSeq (s : BTreeState) : List (Nat × RecordId) → Option BTreeState
  | [] => some s
  | (k, v) :: rest => (s.insert k v).bind (insertSeq · rest)

/-- The page-type dispatch shared by the `rec_result` of
`insert_inner_r` and the root call of `insert_slow_path`: recurse through
an inner page, insert at a leaf page. -/
def insertDispatch (key : Nat) (value : RecordId) (fuel : Nat) (s : BTreeState)
    (pid : Nat) : Option (BTreeState × Option (Nat × Nat)) :=
  match s.pages[pid]? with
  | some (BTreePage.inner _) => insertInnerR key value fuel s pid
  | some (BTreePage.leaf _) => insertLeafAt s pid key value
  | _ => none

/-! ## B+ tree representation invariant

`SubtreeRep pages h pid lo hi kvs used` says the page store `pages` holds,
rooted at page `pid`, a B+ tree subtree of height `h` whose key/value
content is the sorted association list `kvs`, all keys within the
half-open window `[lo, hi)` (`none` is unbounded), occupying exactly the
pages `used`. `InnerRep` describes the separator/pointer chain of one
inner page: children partition the window at the separators, keys equal
to a separator belonging to the right child, matching the
`Ok(pos) => pointers[pos + 1]` routing of `BTreeInnerPage::search`. -/

/-- Nat/value content of a leaf page. -/
def BTreeLeafPage.kvs (p : BTreeLeafPage) : List (Nat × RecordId) :=
  p.keys.zip p.values

/-- `lo ≤ k < hi` with optional bounds. -/
def boundedKey (lo hi : Option Nat) (k : Nat) : Prop :=
  (∀ l, lo = some l → l ≤ k) ∧ (∀ h, hi = some h → k < h)

/-- `lo < s < hi` with optional bounds: separators sit strictly inside the
window. -/
def boundedSep (lo hi : Option Nat) (s : Nat) : Prop :=
  (∀ l, lo = some l → l < s) ∧ (∀ h, hi = some h → s < h)

/-- The page is a tree node (leaf or inner), in particular not the
superblock. -/
def nodePage (pages : List BTreePage) (q : Nat) : Prop :=
  (∃ lp, pages[q]? = some (.leaf lp)) ∨ ∃ ip, pages[q]? = some (.inner ip)

mutual
inductive SubtreeRep (pages : List BTreePage) :
    Nat → Nat → Option Nat → Option Nat → List (Nat × RecordId) → List Nat → Prop where
  | leaf : ∀ {pid lo hi} {lp : BTreeLeafPage},
      pages[pid]? = some (.leaf lp) →
      lp.keys.Sorted (· < ·) →
      lp.values.length = lp.keys.length →
      lp.keys.length ≤ BTREE_NUM_KEYS →
      (∀ k ∈ lp.keys, boundedKey lo hi k) →
      SubtreeRep pages 0 pid lo hi lp.kvs [pid]
  | inner : ∀ {h pid lo hi kvs used} {ip : BTreeInnerPage},
      pages[pid]? = some (.inner ip) →
      InnerRep pages h lo hi ip.keys ip.pointers kvs used →
      1 ≤ ip.keys.length →
      ip.keys.length ≤ BTREE_NUM_KEYS →
      pid ∉ used →
      SubtreeRep pages (h + 1) pid lo hi kvs (pid :: used)

inductive InnerRep (pages : List BTreePage) :
    Nat → Option Nat → Option Nat → List Nat → List Nat →
    List (Nat × RecordId) → List Nat → Prop where
  | last : ∀ {h lo hi p kvs used},
      SubtreeRep pages h p lo hi kvs used →
      InnerRep pages h lo hi [] [p] kvs used
  | cons : ∀ {h lo hi s ss p ps kvs1 kvs2 used1 used2},
      boundedSep lo hi s →
      SubtreeRep pages h p lo (some s) kvs1 used1 →
      InnerRep pages h (some s) hi ss ps kvs2 used2 →
      List.Disjoint used1 used2 →
      InnerRep pages h lo hi (s :: ss) (p :: ps) (kvs1 ++ kvs2) (used1 ++ used2)
end

/-- Whole-tree invariant: the superblock points at a subtree holding `kvs`
with unbounded window. -/
def BTreeRep (s : BTreeState) (kvs : List (Nat × RecordId)) : Prop :=
  ∃ root h used, s.pages[PAGE_RESERVED]? = some (.super root) ∧
    SubtreeRep s.pages h root none none kvs used

/-! ## IEEE-754 binary64 values at the bit level (src/sql/types/value.rs)

An `f64` is modelled by its 64-bit pattern (a `Nat` below `2^64`). All of
the source's float operations (`is_nan`, `is_infinite`, `signum`
comparison, `==`, `partial_cmp`) are bit-level decidable and are modelled
exactly; binary64 representations are canonical, so distinct non-NaN
patterns other than the two zeros denote distinct values. -/

def f64Exponent (bits : Nat) : Nat := (bits >>> 52) % 2048

def f64Mantissa (bits : Nat) : Nat := bits % 2 ^ 52

def f64SignBit (bits : Nat) : Bool := decide (bits / 2 ^ 63 % 2 = 1)

def f64IsNan (bits : Nat) : Bool :=
  decide (f64Exponent bits = 2047 ∧ f64Mantissa bits ≠ 0)

def f64IsInfinite (bits : Nat) : Bool :=
  decide (f64Exponent bits = 2047 ∧ f64Mantissa bits = 0)

/-- Both IEEE zeros (`+0.0`, `-0.0`) have all bits clear apart from the
sign. -/
def f64IsZero (bits : Nat) : Bool := decide (bits % 2 ^ 63 = 0 ∧ f64Exponent bits = 0)

/-- IEEE `==` on two non-NaN patterns: identical, or both zeros. -/
def f64Eq (a b : Nat) : Bool :=
  !f64IsNan a && !f64IsNan b && (a == b || (f64IsZero a && f64IsZero b))

/-- Order key for non-NaN patterns: the usual sign-magnitude to two's
complement monotone map under which IEEE `<` on non-NaN floats is integer
`<` on keys (both zeros map to 0). -/
def f64OrderKey (bits : Nat) : Int :=
  if bits < 2 ^ 63 then (bits : Int) else -((bits - 2 ^ 63 : Nat) : Int)

/-- IEEE `partial_cmp` on `f64`: `None` when either side is NaN. -/
def f64Cmp (a b : Nat) : Option Ordering :=
  if f64IsNan a || f64IsNan b then none
  else some (compare (f64OrderKey a) (f64OrderKey b))

def F64_INFINITY : Nat := 0x7FF0000000000000

def F64_NEG_INFINITY : Nat := 0xFFF0000000000000

def F64_NAN : Nat := 0x7FF8000000000000

/-! ## Values, schema, tuple serialization (src/sql/types/value.rs,
src/sql/schema.rs, src/tuple.rs) -/

def PAGE_SIZE : Nat := 4096

def HEAPPAGE_HEADER_SIZE : Nat := 2

def HEAPPAGE_SLOT_SIZE : Nat := 4

def HEAPPAGE_DATA_SIZE : Nat := PAGE_SIZE - HEAPPAGE_HEADER_SIZE

def HEAPPAGE_MAX_TUPLE_SIZE : Nat := HEAPPAGE_DATA_SIZE - HEAPPAGE_SLOT_SIZE

inductive DataType where
  | boolean
  | integer
  | float
  | varchar
deriving DecidableEq, Repr

/-- Value: `Boolean(bool)`, `Integer(i64)` (an `Int` in i64 range),
`Float(f64)` (its bit pattern), `VarChar(String)` (its UTF-8 bytes), and
`Null`. -/
inductive Value where
  | boolean (b : Bool)
  | integer (i : Int)
  | float (bits : Nat)
  | varchar (s : List Nat)
  | null
deriving DecidableEq, Repr

/-- Rust type invariants of a `Value`: i64 range, 64-bit float pattern,
`String` bytes. -/
def Value.WF : Value → Prop
  | .integer i => -(2 ^ 63) ≤ i ∧ i < 2 ^ 63
  | .float bits => bits < 2 ^ 64
  | .varchar s => ∀ b ∈ s, b < 256
  | _ => True

/-- impl PartialEq for Value (src/sql/types/value.rs lines 145-167): floats
compare equal when both NaN, or both infinite with the same sign
(`signum`), otherwise by IEEE `==`. -/
def Value.eqv : Value → Value → Bool
  | .boolean lhs, .boolean rhs => lhs == rhs
  | .integer lhs, .integer rhs => lhs == rhs
  | .float lhs, .float rhs =>
    if (f64IsNan lhs && f64IsNan rhs)
        || (f64IsInfinite lhs && f64IsInfinite rhs && (f64SignBit lhs == f64SignBit rhs)) then
      true
    else
      f64Eq lhs rhs
  | .varchar lhs, .varchar rhs => lhs == rhs
  | .null, .null => true
  | _, _ => false

/-- Lexicographic byte comparison (Rust `String`/`str` ordering). -/
def bytesCmp : List Nat → List Nat → Ordering
  | [], [] => .eq
  | [], _ :: _ => .lt
  | _ :: _, [] => .gt
  | a :: as_, b :: bs =>
    match compare a b with
    | .eq => bytesCmp as_ bs
    | o => o

/-- impl PartialOrd for Value (src/sql/types/value.rs lines 169-190): an
infinite float is `Less` than a NaN and a NaN `Greater` than an infinite
float; all other float pairs use IEEE `partial_cmp`; `Null` compares to
nothing. -/
def Value.vcmp : Value → Value → Option Ordering
  | .boolean lhs, .boolean rhs => some (compare lhs rhs)
  | .integer lhs, .integer rhs => some (compare lhs rhs)
  | .float lhs, .float rhs =>
    if f64IsInfinite lhs && f64IsNan rhs then some .lt
    else if f64IsNan lhs && f64IsInfinite rhs then some .gt
    else f64Cmp lhs rhs
  | .varchar lhs, .varchar rhs => some (bytesCmp lhs rhs)
  | .null, .null => none
  | _, _ => none

def Value.is_null : Value → Bool
  | .null => true
  | _ => false

/-- Value::header_size: only VarChar carries a 2-byte length prefix. -/
def Value.header_size : Value → Nat
  | .varchar _ => 2
  | _ => 0

def Value.data_size : Value → Nat
  | .boolean _ => 1
  | .integer _ => 8
  | .float _ => 8
  | .varchar s => s.length
  | .null => 0

def Value.data_type : Value → Option DataType
  | .boolean _ => some .boolean
  | .integer _ => some .integer
  | .float _ => some .float
  | .varchar _ => some .varchar
  | .null => none

/-- Little-endian encoding of `v` on `width` bytes. -/
def le_bytes (width v : Nat) : List Nat :=
  (List.range width).map fun i => v / 256 ^ i % 256

/-- Little-endian decoding of a byte list. -/
def fromLeBytes (bs : List Nat) : Nat :=
  bs.foldr (fun b acc => b + 256 * acc) 0

/-- Two's-complement bit pattern of an i64. -/
def i64ToBits (i : Int) : Nat := (i % (2 : Int) ^ 64).toNat

/-- i64 from its two's-complement bit pattern. -/
def i64FromBits (n : Nat) : Int :=
  if n < 2 ^ 63 then (n : Int) else (n : Int) - 2 ^ 64

/-- impl Serialize for Value (write_bytes_to): the bytes written at the
value's offset. `Null` is never written by the tuple serializer (it is
skipped), so its contribution is empty. -/
def Value.write_bytes : Value → List Nat
  | .boolean b => [if b then 1 else 0]
  | .integer i => le_bytes 8 (i64ToBits i)
  | .float bits => le_bytes 8 bits
  | .varchar s => le_bytes 2 s.length ++ s
  | .null => []

/-- Value::from_bytes (src/sql/types/value.rs lines 57-79): decode one value
of the given type from the byte stream at the current offset. -/
def Value.from_bytes (bytes : List Nat) : DataType → Value
  | .boolean => .boolean (bytes.getD 0 0 == 1)
  | .integer => .integer (i64FromBits (fromLeBytes (bytes.take 8)))
  | .float => .float (fromLeBytes (bytes.take 8))
  | .varchar => .varchar ((bytes.drop 2).take (fromLeBytes (bytes.take 2)))

structure Column where
  data_type : DataType
  nullable : Bool
deriving DecidableEq, Repr

def bitmapIsNull (bitmap column : Nat) : Bool := decide ((bitmap >>> column) % 2 = 1)

def bitmapSetNull (bitmap column : Nat) : Nat := bitmap ||| (1 <<< column)

def TUPLE_HEADER_SIZE : Nat := 10

def TUPLE_MAX_COLUMNS : Nat := 64

def valuesSize (values : List Value) : Nat :=
  (values.map fun v => v.header_size + v.data_size).sum

inductive TupleError where
  | sizeExceeded
  | tooManyColumns
  | schemaMismatch
deriving DecidableEq, Repr

/-- The `(header_len, null_bitmap)` fold of `Tuple::write_bytes_to`, the
enumeration index carried explicitly. -/
def tupleHeaderFoldFrom (i : Nat) (acc : Nat × Nat) : List Value → Nat × Nat
  | [] => acc
  | v :: rest =>
    tupleHeaderFoldFrom (i + 1)
      (acc.1 + v.header_size + v.data_size,
       if v.is_null then bitmapSetNull acc.2 i else acc.2) rest

/-- The `(header_len, null_bitmap)` fold of `Tuple::write_bytes_to`. -/
def tupleHeaderFold (values : List Value) : Nat × Nat :=
  tupleHeaderFoldFrom 0 (0, 0) values

/-- Tuple::try_new (src/tuple.rs lines 98-112): at most `MAX_COLUMNS` values
and at most `HeapPage::MAX_TUPLE_SIZE` serialized bytes. -/
def Tuple.try_new (values : List Value) : Except TupleError (List Value) :=
  if values.length > TUPLE_MAX_COLUMNS then
    .error .tooManyColumns
  else if TUPLE_HEADER_SIZE + valuesSize values ≤ HEAPPAGE_MAX_TUPLE_SIZE then
    .ok values
  else
    .error .sizeExceeded

/-- The loop of `Tuple::write_bytes_to` over the values: each non-null value
is written at the advancing offset, nulls are skipped. -/
def writeValuesLoop : List Value → List Nat
  | [] => []
  | v :: rest => (if v.is_null then [] else v.write_bytes) ++ writeValuesLoop rest

/-- impl Serialize for Tuple (src/tuple.rs lines 165-188): header
`{len: u16, null_bitmap: u64}` followed by the non-null value payloads. -/
def Tuple.write_bytes (values : List Value) : List Nat :=
  le_bytes 2 (tupleHeaderFold values).1 ++ le_bytes 8 (tupleHeaderFold values).2 ++
    writeValuesLoop values

/-- The recursion of `TupleRef::to_owned` (src/tuple.rs lines 60-77) over the
schema columns: bitmap nulls decode to `Null` and consume nothing, other
columns decode by type and advance by the decoded value's sizes. -/
def toOwnedLoop (bitmap : Nat) : List Nat → List Column → Nat → List Value
  | _, [], _ => []
  | bytes, c :: rest, i =>
    if bitmapIsNull bitmap i then
      .null :: toOwnedLoop bitmap bytes rest (i + 1)
    else
      Value.from_bytes bytes c.data_type ::
        toOwnedLoop bitmap
          (bytes.drop ((Value.from_bytes bytes c.data_type).header_size +
            (Value.from_bytes bytes c.data_type).data_size)) rest (i + 1)

/-- Specification helper: whether the `k`-th value of a tuple is `Null`
(false past the end). -/
def isNullAt (values : List Value) (k : Nat) : Bool :=
  match values[k]? with
  | some v => v.is_null
  | none => false

/-- TupleRef::to_owned applied to the on-page bytes of a tuple record:
reinterpret the header `{len: u16, null_bitmap: u64}` and decode the
remaining bytes under the schema. -/
def decodeTuple (columns : List Column) (bytes : List Nat) : List Value :=
  toOwnedLoop (fromLeBytes ((bytes.drop 2).take 8)) (bytes.drop 10) columns 0

/-- One column of Tuple::validate_with_schema: nulls need a nullable column,
other values must match the column type. -/
def columnMatch (v : Value) (c : Column) : Bool :=
  match v with
  | .null => c.nullable
  | v => v.data_type == some c.data_type

/-- Tuple::validate_with_schema (src/tuple.rs lines 129-148). -/
def validate_with_schema (values : List Value) (schema : List Column) :
    Except TupleError Unit :=
  if values.length ≠ schema.length then
    .error .tooManyColumns
  else if (values.zip schema).all fun vc => columnMatch vc.1 vc.2 then
    .ok ()
  else
    .error .schemaMismatch

/-! ## Slotted heap page (src/pages/heappage.rs)

The page is a `num_slots` header plus a `DATA_SIZE` byte array, modelled as
a function from byte index to byte (writes truncate mod 256). Slots are
stored in the data bytes at `slot_id * SLOT_SIZE` as two little-endian
u16s `(offset, len)`; tuple records grow from the data tail. -/

def store8 (f : Nat → Nat) (i v : Nat) : Nat → Nat :=
  fun j => if j = i then v % 256 else f j

def store16 (f : Nat → Nat) (i v : Nat) : Nat → Nat :=
  store8 (store8 f i v) (i + 1) (v / 256)

def load16 (f : Nat → Nat) (i : Nat) : Nat := f i + 256 * f (i + 1)

def storeBytes (f : Nat → Nat) (i : Nat) : List Nat → Nat → Nat
  | [] => f
  | b :: bs => storeBytes (store8 f i b) (i + 1) bs

def loadBytes (f : Nat → Nat) (i len : Nat) : List Nat :=
  (List.range len).map fun j => f (i + j)

inductive HeapPageError where
  | noFreeSpace
  | slotNotFound
  | slotDeleted
deriving DecidableEq, Repr

structure HeapPage where
  num_slots : Nat
  data : Nat → Nat

/-- The all-zero page every frame starts from. -/
def HeapPage.empty : HeapPage := { num_slots := 0, data := fun _ => 0 }

/-- HeapPage::get_slot: `None` past `num_slots`, otherwise the `(offset,
len)` pair read at `slot_id * SLOT_SIZE`. -/
def HeapPage.get_slot (p : HeapPage) (slot_id : Nat) : Option (Nat × Nat) :=
  if slot_id < p.num_slots then
    some (load16 p.data (slot_id * HEAPPAGE_SLOT_SIZE),
          load16 p.data (slot_id * HEAPPAGE_SLOT_SIZE + 2))
  else
    none

def HeapPage.last_tuple_offset (p : HeapPage) : Option Nat :=
  if p.num_slots = 0 then none
  else some (load16 p.data ((p.num_slots - 1) * HEAPPAGE_SLOT_SIZE))

/-- HeapPage::free_space: distance between the tuple tail and the slot
array. -/
def HeapPage.free_space (p : HeapPage) : Nat :=
  (p.last_tuple_offset.getD HEAPPAGE_DATA_SIZE) - p.num_slots * HEAPPAGE_SLOT_SIZE

def HeapPage.has_free_space (p : HeapPage) (tuple_len : Nat) : Bool :=
  decide (p.free_space ≥ HEAPPAGE_SLOT_SIZE + tuple_len)

/-- HeapPage::insert_tuple (src/pages/heappage.rs lines 211-229): write the
tuple bytes at `last_tuple_offset - len`, bump `num_slots`, then write the
new slot; returns the new page and the assigned slot id, or `NoFreeSpace`
leaving the page unchanged. -/
def HeapPage.insert_tuple (p : HeapPage) (tuple : List Nat) :
    HeapPage × Except HeapPageError Nat :=
  if p.has_free_space tuple.length then
    let offset := (p.last_tuple_offset.getD HEAPPAGE_DATA_SIZE) - tuple.length
    let data1 := storeBytes p.data offset tuple
    let num1 := p.num_slots + 1
    let idx := (num1 - 1) * HEAPPAGE_SLOT_SIZE
    let data2 := store16 (store16 data1 idx offset) (idx + 2) tuple.length
    ({ num_slots := num1, data := data2 }, .ok (num1 - 1))
  else
    (p, .error .noFreeSpace)

/-- HeapPage::delete_tuple: set the slot's `len` to 0 (tombstone). -/
def HeapPage.delete_tuple (p : HeapPage) (slot_id : Nat) :
    HeapPage × Except HeapPageError Unit :=
  match p.get_slot slot_id with
  | none => (p, .error .slotNotFound)
  | some _ =>
    ({ p with data := store16 p.data (slot_id * HEAPPAGE_SLOT_SIZE + 2) 0 }, .ok ())

/-- HeapPage::get_tuple: the borrowed record bytes, or `SlotDeleted` on a
tombstone. -/
def HeapPage.get_tuple (p : HeapPage) (slot_id : Nat) :
    Except HeapPageError (List Nat) :=
  match p.get_slot slot_id with
  | none => .error .slotNotFound
  | some (offset, len) =>
    if len = 0 then .error .slotDeleted
    else .ok (loadBytes p.data offset len)

/-- The lowest tuple offset over the existing slots (deleted slots keep
their offset, exactly as in the source layout). -/
def HeapPage.lowest_tuple_offset (p : HeapPage) : Option Nat :=
  if p.num_slots = 0 then none
  else ((List.range p.num_slots).map fun sid =>
    load16 p.data (sid * HEAPPAGE_SLOT_SIZE)).min?

/-! ## Table over the page cache (src/table.rs, src/cache/pagecache.rs)

The storage handle state visible to a `Table`: its heap pages by page id,
each frame's `dirty` flag (`PageMetadata.dirty`), and the shared dirty set
fed by `set_page_dirty`. Latches order concurrent access and do not
change the sequential semantics. -/

inductive TableError where
  | heapPage (e : HeapPageError)
  | pageCache
  | tuple (e : TupleError)
deriving DecidableEq, Repr

structure TableState where
  pages : List HeapPage
  dirty : List Bool
  dirty_pages : List Nat

/-- PageCacheInner::set_page_dirty (src/cache/pagecache.rs lines 189-199):
set the metadata dirty flag and record the page id in the shared dirty
set. -/
def TableState.set_page_dirty (st : TableState) (pid : Nat) : TableState :=
  { st with
    dirty := st.dirty.set pid true
    dirty_pages := if pid ∈ st.dirty_pages then st.dirty_pages else st.dirty_pages ++ [pid] }

/-- Table::delete (src/table.rs lines 77-89): fetch the page under an
exclusive guard (`get_page_mut`), mark the slot deleted, return `Ok` —
the source never calls `set_page_dirty` here. -/
def Table.delete (st : TableState) (rid : RecordId) :
    TableState × Except TableError Unit :=
  match st.pages[rid.page_id]? with
  | none => (st, .error .pageCache)
  | some hp =>
    match hp.delete_tuple rid.slot_id with
    | (_, .error e) => (st, .error (.heapPage e))
    | (hp1, .ok ()) => ({ st with pages := st.pages.set rid.page_id hp1 }, .ok ())

/-- Table::get (src/table.rs lines 38-49) up to the heap-page access: heap
page errors (`SlotNotFound`, `SlotDeleted`) surface unchanged; on success
the record bytes are decoded against the schema. -/
def Table.get_bytes (st : TableState) (rid : RecordId) :
    Except TableError (List Nat) :=
  match st.pages[rid.page_id]? with
  | none => .error .pageCache
  | some hp =>
    match hp.get_tuple rid.slot_id with
    | .error e => .error (.heapPage e)
    | .ok bytes => .ok bytes

/-! ## Page cache new_page and eviction write-back (src/cache/pagecache.rs)

Multi-storage state for `PageCacheInner::new_page`: the backend files (a
list of page payloads per storage id, a payload abstracted as one `Nat`
token), the resident frames with their contents and dirty flags, the LRU
queue (oldest first), and the free-list length. `effects` is the ordered
trace of storage I/O the operation issues. -/

inductive CacheEffect where
  | writePage (storage_id page_id payload : Nat)
  | fsyncStorage (storage_id : Nat)
deriving DecidableEq, Repr

structure CacheFrame where
  storage_id : Nat
  page_id : Nat
  payload : Nat
  dirty : Bool
deriving DecidableEq, Repr

structure PCState where
  storages : List (List Nat)
  resident : List CacheFrame
  lru : List (Nat × Nat)
  free_count : Nat
  effects : List CacheEffect
deriving DecidableEq, Repr

/-- MemCache::evict (src/cache/memcache.rs lines 399-407): only when the
free-list is empty, ask the LRU policy for its victim. -/
def PCState.evict (st : PCState) : Option (Nat × Nat) :=
  if st.free_count = 0 then st.lru.head? else none

def PCState.find_frame (st : PCState) (sid pid : Nat) : Option CacheFrame :=
  st.resident.find? fun f => f.storage_id == sid && f.page_id == pid

/-- MemCache::get_page restricted to the page payload (a pool miss is
`Err(PageNotFound)`). -/
def PCState.get_page (st : PCState) (sid pid : Nat) : Option Nat :=
  (st.find_frame sid pid).map (·.payload)

/-- MemCache::remove_page: drop the frame from the page table and LRU, push
its frame on the free-list. -/
def PCState.remove_page (st : PCState) (sid pid : Nat) : Option PCState :=
  match st.find_frame sid pid with
  | none => none
  | some _ =>
    some { st with
      resident := st.resident.filter fun f => !(f.storage_id == sid && f.page_id == pid)
      lru := st.lru.filter fun e => !(e.1 == sid && e.2 == pid)
      free_count := st.free_count + 1 }

/-- FileStorage::write_page via pwrite: writing at a page offset beyond the
current end extends the file. -/
def fileWrite (file : List Nat) (pid payload : Nat) : List Nat :=
  if pid < file.length then file.set pid payload
  else (file ++ List.replicate (pid - file.length) 0) ++ [payload]

def PCState.write_page (st : PCState) (sid pid payload : Nat) : PCState :=
  { st with
    storages :=
      match st.storages[sid]? with
      | some file => st.storages.set sid (fileWrite file pid payload)
      | none => st.storages
    effects := st.effects ++ [.writePage sid pid payload] }

def PCState.fsync (st : PCState) (sid : Nat) : PCState :=
  { st with effects := st.effects ++ [.fsyncStorage sid] }

/-- MemCache::new_page_mut: claim a free frame for `(sid, pid)` (clean, zero
payload), or fail `Full`. -/
def PCState.new_page_mut (st : PCState) (sid pid : Nat) :
    Except Unit PCState :=
  if st.free_count = 0 then .error ()
  else
    .ok { st with
      resident := st.resident ++ [⟨sid, pid, 0, false⟩]
      free_count := st.free_count - 1 }

/-- PageCacheInner::new_page (src/cache/pagecache.rs lines 114-133):
allocate a page id in storage `storage_id` (the backend writes a blank
page), then — under the `FIXME: race condition` eviction step — if the
pool is full take the LRU victim `(vsid, vpid)`, fetch its bytes with
`get_page`, and if that succeeds write them **to the backend looked up for
`storage_id`** (the binding `storage` from the top of the function, not the
victim's backend) with **no dirty-flag check**, fsync that backend, and
remove the victim; finally claim a frame for the new page. `none` models
the `unwrap` on a missing storage. -/
def PageCacheInner.new_page (st : PCState) (storage_id : Nat) :
    Option (Except Unit (PCState × Nat)) :=
  match st.storages[storage_id]? with
  | none => none
  | some file =>
    let page_id := file.length
    let st1 := st.write_page storage_id page_id 0
    let st2 : Option PCState :=
      match st1.evict with
      | some (vsid, vpid) =>
        let st3 :=
          match st1.get_page vsid vpid with
          | some payload => (st1.write_page storage_id vpid payload).fsync storage_id
          | none => st1
        st3.remove_page vsid vpid
      | none => some st1
    match st2 with
    | none => none
    | some st4 =>
      match st4.new_page_mut storage_id page_id with
      | .error e => some (.error e)
      | .ok st5 => some (.ok (st5, page_id))

/-! ## Buffer pool state machine (src/cache/memcache.rs)

The in-memory pool as the sequential state machine induced by `MemCache`:
the page table (`page_id` to frame index), the free-list, per-frame pin
counters (`PageMetadata.counter`), the LRU priority queue (entries
`(page_id, last-access time)`, evicted in oldest-first order) and the
`last_access` map, with a logical clock for `record_access` timestamps. -/

def assocLookup (xs : List (Nat × Nat)) (k : Nat) : Option Nat :=
  (xs.find? fun e => e.1 == k).map (·.2)

def assocRemove (xs : List (Nat × Nat)) (k : Nat) : List (Nat × Nat) :=
  xs.filter fun e => !(e.1 == k)

/-- `PriorityQueue::push` / map insert: replaces any entry with the same
key. -/
def assocPush (xs : List (Nat × Nat)) (k v : Nat) : List (Nat × Nat) :=
  assocRemove xs k ++ [(k, v)]

/-- The queue entry with the smallest timestamp (the LRU victim). -/
def qMinEntry (q : List (Nat × Nat)) : Option (Nat × Nat) :=
  q.foldl
    (fun acc e =>
      match acc with
      | none => some e
      | some m => if e.2 < m.2 then some e else some m)
    none

structure MCState where
  table : List (Nat × Nat)
  free_list : List Nat
  pins : Nat → Nat
  queue : List (Nat × Nat)
  last_access : List (Nat × Nat)
  clock : Nat

/-- MemCache::try_new: empty table, all frames free, all pins zero. -/
def MCState.init (capacity : Nat) : MCState :=
  { table := [], free_list := List.range capacity, pins := fun _ => 0,
    queue := [], last_access := [], clock := 0 }

def pinSet (f : Nat → Nat) (i v : Nat) : Nat → Nat :=
  fun j => if j = i then v else f j

/-- MemCache::get_page: page-table lookup (miss is `Err(PageNotFound)`,
modelled `none`), pin++, `record_access` then `set_unevictable`. -/
def MCState.get_page (st : MCState) (pid : Nat) : Option MCState :=
  match assocLookup st.table pid with
  | none => none
  | some idx =>
    some { st with
      pins := pinSet st.pins idx (st.pins idx + 1)
      queue := assocRemove (assocPush st.queue pid st.clock) pid
      last_access := assocPush st.last_access pid st.clock
      clock := st.clock + 1 }

/-- MemCache::get_page_mut: as `get_page` but the write path asserts the old
pin counter was 0 (`none` models the assertion failure). -/
def MCState.get_page_mut (st : MCState) (pid : Nat) : Option MCState :=
  match assocLookup st.table pid with
  | none => none
  | some idx =>
    if st.pins idx = 0 then
      some { st with
        pins := pinSet st.pins idx 1
        queue := assocRemove (assocPush st.queue pid st.clock) pid
        last_access := assocPush st.last_access pid st.clock
        clock := st.clock + 1 }
    else
      none

/-- MemCache::new_page_mut: pop a free frame (`Err(Full)` when none),
re-initialize its metadata with pin 1, insert into the page table
(asserting the id was absent), record access, set unevictable. -/
def MCState.new_page_mut (st : MCState) (pid : Nat) : Option MCState :=
  match st.free_list with
  | [] => none
  | idx :: rest =>
    match assocLookup st.table pid with
    | some _ => none
    | none =>
      some { st with
        free_list := rest
        table := st.table ++ [(pid, idx)]
        pins := pinSet st.pins idx 1
        queue := assocRemove (assocPush st.queue pid st.clock) pid
        last_access := assocPush st.last_access pid st.clock
        clock := st.clock + 1 }

/-- MemCache::remove_page: requires pin 0, removes the page from table, LRU
and last-access map, returns the frame to the free-list. -/
def MCState.remove_page (st : MCState) (pid : Nat) : Option MCState :=
  match assocLookup st.table pid with
  | none => none
  | some idx =>
    if st.pins idx = 0 then
      some { st with
        table := assocRemove st.table pid
        queue := assocRemove st.queue pid
        last_access := assocRemove st.last_access pid
        free_list := st.free_list ++ [idx] }
    else
      none

/-- Drop of a `PageRef`/`PageRefMut` guard: unpin, and when the counter
reaches 0 `set_evictable` re-queues the page at its recorded last-access
time. -/
def MCState.drop_ref (st : MCState) (pid : Nat) : Option MCState :=
  match assocLookup st.table pid with
  | none => none
  | some idx =>
    match st.pins idx with
    | 0 => none
    | c + 1 =>
      if c = 0 then
        some { st with
          pins := pinSet st.pins idx c
          queue :=
            match assocLookup st.last_access pid with
            | some ts => assocPush st.queue pid ts
            | none => st.queue }
      else
        some { st with pins := pinSet st.pins idx c }

/-- MemCache::evict (src/cache/memcache.rs lines 399-407): when the
free-list is empty, pop the LRU victim; otherwise `None`. Returns the
updated state (the policy pops its queue) and the victim. -/
def MCState.do_evict (st : MCState) : MCState × Option Nat :=
  if st.free_list.isEmpty then
    match qMinEntry st.queue with
    | some e => ({ st with queue := assocRemove st.queue e.1 }, some e.1)
    | none => (st, none)
  else
    (st, none)

/-- States reachable by the sequential `MemCache` operations. -/
inductive MCReach : MCState → Prop where
  | init (capacity : Nat) : MCReach (MCState.init capacity)
  | get_page {s s' : MCState} {pid : Nat} :
      MCReach s → s.get_page pid = some s' → MCReach s'
  | get_page_mut {s s' : MCState} {pid : Nat} :
      MCReach s → s.get_page_mut pid = some s' → MCReach s'
  | new_page_mut {s s' : MCState} {pid : Nat} :
      MCReach s → s.new_page_mut pid = some s' → MCReach s'
  | remove_page {s s' : MCState} {pid : Nat} :
      MCReach s → s.remove_page pid = some s' → MCReach s'
  | drop_ref {s s' : MCState} {pid : Nat} :
      MCReach s → s.drop_ref pid = some s' → MCReach s'
  | evict {s : MCState} : MCReach s → MCReach s.do_evict.1

/-- The pool invariant behind eviction safety: every queued page is resident
with pin counter 0, page ids map to at most one frame, and a frame is
mapped at most once and never both mapped and free. -/
def MCInv (s : MCState) : Prop :=
  (∀ e ∈ s.queue, ∃ idx, assocLookup s.table e.1 = some idx ∧ s.pins idx = 0) ∧
  (s.table.map Prod.fst).Nodup ∧
  (s.table.map Prod.snd ++ s.free_list).Nodup

/-! ## Specification-level helpers for sorted key/value lists -/

/-- Sorted association list insert: the specification-side effect of a
non-splitting leaf or inner insert. -/
def kvInsert {β : Type} : List (Nat × β) → Nat → β → List (Nat × β)
  | [], k, v => [(k, v)]
  | (k0, v0) :: rest, k, v =>
    if k < k0 then (k, v) :: (k0, v0) :: rest else (k0, v0) :: kvInsert rest k v

/-- Association list lookup, first match wins. -/
def kvLookup {β : Type} : List (Nat × β) → Nat → Option β
  | [], _ => none
  | (k0, v0) :: rest, k => if k = k0 then some v0 else kvLookup rest k

/-- Association list erase of the first match: the specification-side effect
of `BTreeLeafPage::delete`. -/
def kvErase {β : Type} : List (Nat × β) → Nat → List (Nat × β)
  | [], _ => []
  | (k0, v0) :: rest, k => if k = k0 then rest else (k0, v0) :: kvErase rest k

/-- Strict sortedness of the keys of an association list. -/
def KvSorted {β : Type} (kvs : List (Nat × β)) : Prop :=
  List.Pairwise (fun a b => a.1 < b.1) kvs

/-! ## Lemmas about binarySearch and the sorted-association-list helpers -/

theorem binarySearch_insertIdx {β : Type} (keys : List Nat) (key : Nat) (h : key ∉ keys) :
    ∃ pos, binarySearch keys key = Sum.inr pos ∧ pos ≤ keys.length ∧
      ∀ (values : List β) (value : β), values.length = keys.length →
        (keys.insertIdx pos key).zip (values.insertIdx pos value) =
          kvInsert (keys.zip values) key value := by
  induction keys with
  | nil =>
    refine ⟨0, rfl, by simp, ?_⟩
    intro values value hv
    have hnil : values = [] := List.eq_nil_of_length_eq_zero hv
    subst hnil
    simp [kvInsert]
  | cons k0 ks ih =>
    have hne : key ≠ k0 := by intro hk; exact h (hk ▸ List.mem_cons_self _ _)
    have hmem : key ∉ ks := fun hk => h (List.mem_cons_of_mem _ hk)
    by_cases hlt : key < k0
    · refine ⟨0, by simp [binarySearch, hlt], by simp, ?_⟩
      intro values value hv
      cases values with
      | nil => simp at hv
      | cons v0 vs => simp [kvInsert, hlt, List.zip]
    · obtain ⟨pos, hbs, hle, hzip⟩ := ih hmem
      refine ⟨pos + 1, by simp [binarySearch, hlt, hne, hbs], by simpa using hle, ?_⟩
      intro values value hv
      cases values with
      | nil => simp at hv
      | cons v0 vs =>
        have hv' : vs.length = ks.length := by simpa using hv
        simp only [List.insertIdx_succ_cons, List.zip_cons_cons, kvInsert, if_neg hlt]
        rw [hzip vs value hv']
        simp [List.zip]

theorem kvInsert_perm {β : Type} (kvs : List (Nat × β)) (k : Nat) (v : β) :
    List.Perm (kvInsert kvs k v) ((k, v) :: kvs) := by
  induction kvs with
  | nil => simp [kvInsert]
  | cons p rest ih =>
    obtain ⟨k0, v0⟩ := p
    by_cases hlt : k < k0
    · simp [kvInsert, hlt]
    · simp only [kvInsert, if_neg hlt]
      exact (ih.cons _).trans (List.Perm.swap _ _ _)

theorem mem_kvInsert {β : Type} {kvs : List (Nat × β)} {k : Nat} {v : β} {a : Nat × β} :
    a ∈ kvInsert kvs k v ↔ a = (k, v) ∨ a ∈ kvs := by
  rw [(kvInsert_perm kvs k v).mem_iff]
  simp

theorem kvInsert_sorted {β : Type} {kvs : List (Nat × β)} {k : Nat} {v : β}
    (hs : KvSorted kvs) (hnot : ∀ p ∈ kvs, p.1 ≠ k) : KvSorted (kvInsert kvs k v) := by
  induction kvs with
  | nil => simp [kvInsert, KvSorted]
  | cons p rest ih =>
    obtain ⟨k0, v0⟩ := p
    rw [KvSorted, List.pairwise_cons] at hs
    obtain ⟨hall, hrest⟩ := hs
    by_cases hlt : k < k0
    · rw [KvSorted]
      simp only [kvInsert, if_pos hlt]
      refine List.Pairwise.cons ?_ (List.Pairwise.cons hall hrest)
      intro b hb
      rcases List.mem_cons.mp hb with hb | hb
      · simpa [hb] using hlt
      · have hb2 : k0 < b.1 := hall b hb
        simpa using lt_trans hlt hb2
    · have hk0 : k0 < k := by
        rcases Nat.lt_trichotomy k k0 with h | h | h
        · exact absurd h hlt
        · exact absurd h.symm (hnot (k0, v0) (List.mem_cons_self _ _))
        · exact h
      rw [KvSorted]
      simp only [kvInsert, if_neg hlt]
      refine List.Pairwise.cons ?_ (ih hrest fun p hp => hnot p (List.mem_cons_of_mem _ hp))
      intro b hb
      rcases mem_kvInsert.mp hb with hb | hb
      · simpa [hb] using hk0
      · exact hall b hb

theorem kvLookup_eq_none_of_notMem {β : Type} {kvs : List (Nat × β)} {k : Nat}
    (h : ∀ p ∈ kvs, p.1 ≠ k) : kvLookup kvs k = none := by
  induction kvs with
  | nil => rfl
  | cons p rest ih =>
    obtain ⟨k0, v0⟩ := p
    have hne : k ≠ k0 := fun hk => h (k0, v0) (List.mem_cons_self _ _) hk.symm
    simp only [kvLookup, if_neg hne]
    exact ih fun p hp => h p (List.mem_cons_of_mem _ hp)

theorem kvLookup_kvInsert_self {β : Type} {kvs : List (Nat × β)} {k : Nat} {v : β}
    (hnot : ∀ p ∈ kvs, p.1 ≠ k) : kvLookup (kvInsert kvs k v) k = some v := by
  induction kvs with
  | nil => simp [kvInsert, kvLookup]
  | cons p rest ih =>
    obtain ⟨k0, v0⟩ := p
    have hne : k ≠ k0 := fun hk => hnot (k0, v0) (List.mem_cons_self _ _) hk.symm
    by_cases hlt : k < k0
    · simp [kvInsert, hlt, kvLookup]
    · simp only [kvInsert, if_neg hlt, kvLookup, if_neg hne]
      exact ih fun p hp => hnot p (List.mem_cons_of_mem _ hp)

theorem kvLookup_kvInsert_ne {β : Type} (kvs : List (Nat × β)) (k : Nat) (v : β)
    {k' : Nat} (hne : k' ≠ k) : kvLookup (kvInsert kvs k v) k' = kvLookup kvs k' := by
  induction kvs with
  | nil => simp [kvInsert, kvLookup, hne]
  | cons p rest ih =>
    obtain ⟨k0, v0⟩ := p
    by_cases hlt : k < k0
    · simp [kvInsert, hlt, kvLookup, hne]
    · by_cases h0 : k' = k0
      · simp [kvInsert, hlt, kvLookup, h0]
      · simp only [kvInsert, if_neg hlt, kvLookup, if_neg h0]
        exact ih

theorem kvErase_sublist {β : Type} (kvs : List (Nat × β)) (k : Nat) :
    List.Sublist (kvErase kvs k) kvs := by
  induction kvs with
  | nil => simp [kvErase]
  | cons p rest ih =>
    obtain ⟨k0, v0⟩ := p
    by_cases h0 : k = k0
    · simp only [kvErase, if_pos h0]
      exact List.sublist_cons_self _ _
    · simp only [kvErase, if_neg h0]
      exact List.Sublist.cons₂ (k0, v0) ih

theorem kvErase_sorted {β : Type} {kvs : List (Nat × β)} {k : Nat}
    (hs : KvSorted kvs) : KvSorted (kvErase kvs k) :=
  hs.sublist (kvErase_sublist kvs k)

theorem kvLookup_kvErase_self {β : Type} {kvs : List (Nat × β)} {k : Nat}
    (hs : KvSorted kvs) : kvLookup (kvErase kvs k) k = none := by
  induction kvs with
  | nil => rfl
  | cons p rest ih =>
    obtain ⟨k0, v0⟩ := p
    rw [KvSorted, List.pairwise_cons] at hs
    obtain ⟨hall, hrest⟩ := hs
    by_cases h0 : k = k0
    · simp only [kvErase, if_pos h0]
      refine kvLookup_eq_none_of_notMem fun p hp => ?_
      have hlt : k0 < p.1 := hall p hp
      intro h2
      rw [h2, h0] at hlt
      exact lt_irrefl _ hlt
    · simp only [kvErase, if_neg h0, kvLookup, if_neg h0]
      exact ih hrest

theorem kvLookup_kvErase_ne {β : Type} (kvs : List (Nat × β)) (k : Nat)
    {k' : Nat} (hne : k' ≠ k) : kvLookup (kvErase kvs k) k' = kvLookup kvs k' := by
  induction kvs with
  | nil => rfl
  | cons p rest ih =>
    obtain ⟨k0, v0⟩ := p
    by_cases h0 : k = k0
    · subst h0
      simp [kvErase, kvLookup, hne]
    · by_cases h1 : k' = k0
      · simp [kvErase, h0, kvLookup, h1]
      · simp only [kvErase, if_neg h0, kvLookup, if_neg h1]
        exact ih

theorem kvErase_perm {β : Type} {kvs : List (Nat × β)} {k : Nat} {v : β}
    (hs : KvSorted kvs) (hmem : (k, v) ∈ kvs) :
    List.Perm kvs ((k, v) :: kvErase kvs k) := by
  induction kvs with
  | nil => cases hmem
  | cons p rest ih =>
    obtain ⟨k0, v0⟩ := p
    rw [KvSorted, List.pairwise_cons] at hs
    obtain ⟨hall, hrest⟩ := hs
    by_cases h0 : k = k0
    · subst h0
      have hv : v = v0 := by
        rcases List.mem_cons.mp hmem with h | h
        · exact congrArg Prod.snd h
        · have hlt2 : k < (k, v).1 := hall (k, v) h
          simp at hlt2
      subst hv
      simp [kvErase]
    · have hmem2 : (k, v) ∈ rest := by
        rcases List.mem_cons.mp hmem with h | h
        · exact absurd (congrArg Prod.fst h) h0
        · exact h
      simp only [kvErase, if_neg h0]
      exact ((ih hrest hmem2).cons _).trans (List.Perm.swap _ _ _)

theorem kvSorted_iff_sorted_map_fst {β : Type} {kvs : List (Nat × β)} :
    KvSorted kvs ↔ (kvs.map Prod.fst).Sorted (· < ·) := by
  rw [KvSorted, List.Sorted, List.pairwise_map]

theorem kvSorted_zip {β : Type} {keys : List Nat} {values : List β}
    (hlen : values.length = keys.length) :
    KvSorted (keys.zip values) ↔ keys.Sorted (· < ·) := by
  rw [kvSorted_iff_sorted_map_fst, List.map_fst_zip keys values (le_of_eq hlen.symm)]

/-- Searching a sorted leaf is association-list lookup on its key/value
content. -/
theorem binarySearch_getD_eq_kvLookup {β : Type} (keys : List Nat) (values : List β)
    (d : β) (key : Nat) (hs : keys.Sorted (· < ·)) (hlen : values.length = keys.length) :
    (match binarySearch keys key with
      | .inl pos => some (values.getD pos d)
      | .inr _ => none) = kvLookup (keys.zip values) key := by
  induction keys generalizing values with
  | nil =>
    have hnil : values = [] := List.eq_nil_of_length_eq_zero hlen
    subst hnil
    rfl
  | cons k0 ks ih =>
    cases values with
    | nil => simp at hlen
    | cons v0 vs =>
      have hlen2 : vs.length = ks.length := by simpa using hlen
      rw [List.sorted_cons] at hs
      obtain ⟨hall, hrest⟩ := hs
      by_cases hlt : key < k0
      · have hne : key ≠ k0 := Nat.ne_of_lt hlt
        have hnone : kvLookup (ks.zip vs) key = none := by
          refine kvLookup_eq_none_of_notMem fun p hp => ?_
          have hpk : k0 < p.1 := hall p.1 (List.of_mem_zip hp).1
          exact fun h2 => lt_irrefl key (lt_trans hlt (h2 ▸ hpk))
        rw [show binarySearch (k0 :: ks) key = Sum.inr 0 by simp [binarySearch, hlt]]
        rw [List.zip_cons_cons]
        simp only [kvLookup, if_neg hne]
        exact hnone.symm
      · by_cases heq : key = k0
        · rw [show binarySearch (k0 :: ks) key = Sum.inl 0 by simp [binarySearch, hlt, heq]]
          rw [List.zip_cons_cons]
          simp [kvLookup, heq]
        · have hrec := ih vs hrest hlen2
          rw [List.zip_cons_cons]
          simp only [kvLookup, if_neg heq]
          rw [← hrec]
          cases hbs : binarySearch ks key with
          | inl pos =>
            rw [show binarySearch (k0 :: ks) key = Sum.inl (pos + 1) by
              simp [binarySearch, hlt, heq, hbs]]
            simp
          | inr pos =>
            rw [show binarySearch (k0 :: ks) key = Sum.inr (pos + 1) by
              simp [binarySearch, hlt, heq, hbs]]

/-- Deleting a present key from a sorted leaf erases exactly that pair. -/
theorem binarySearch_eraseIdx_eq_kvErase {β : Type} (keys : List Nat) (values : List β)
    (key : Nat) (hs : keys.Sorted (· < ·)) (hmem : key ∈ keys)
    (hlen : values.length = keys.length) :
    ∃ pos, binarySearch keys key = Sum.inl pos ∧
      (keys.eraseIdx pos).zip (values.eraseIdx pos) = kvErase (keys.zip values) key := by
  induction keys generalizing values with
  | nil => cases hmem
  | cons k0 ks ih =>
    cases values with
    | nil => simp at hlen
    | cons v0 vs =>
      have hlen2 : vs.length = ks.length := by simpa using hlen
      rw [List.sorted_cons] at hs
      obtain ⟨hall, hrest⟩ := hs
      by_cases heq : key = k0
      · refine ⟨0, by simp [binarySearch, heq], ?_⟩
        rw [List.zip_cons_cons]
        simp [List.eraseIdx, kvErase, heq]
      · have hlt : ¬ key < k0 := by
          intro hlt
          rcases List.mem_cons.mp hmem with h | h
          · exact heq h
          · have hgt : k0 < key := hall key h
            exact lt_asymm hlt hgt
        have hmem2 : key ∈ ks := by
          rcases List.mem_cons.mp hmem with h | h
          · exact absurd h heq
          · exact h
        obtain ⟨pos, hbs, hz⟩ := ih vs hrest hmem2 hlen2
        refine ⟨pos + 1, by simp [binarySearch, hlt, heq, hbs], ?_⟩
        rw [List.eraseIdx_cons_succ, List.eraseIdx_cons_succ, List.zip_cons_cons,
          List.zip_cons_cons]
        simp only [kvErase, if_neg heq]
        rw [hz]

theorem zip_take_take {α β : Type} (l1 : List α) (l2 : List β) (n : Nat) :
    (l1.take n).zip (l2.take n) = (l1.zip l2).take n := by
  induction l1 generalizing l2 n with
  | nil => simp
  | cons a as ih =>
    cases l2 with
    | nil => simp
    | cons b bs =>
      cases n with
      | zero => simp
      | succ m => simp [ih bs m]

theorem zip_drop_drop {α β : Type} (l1 : List α) (l2 : List β) (n : Nat) :
    (l1.drop n).zip (l2.drop n) = (l1.zip l2).drop n := by
  induction l1 generalizing l2 n with
  | nil => simp
  | cons a as ih =>
    cases l2 with
    | nil => simp
    | cons b bs =>
      cases n with
      | zero => simp
      | succ m => simpa using ih bs m

theorem kvInsert_length {β : Type} (kvs : List (Nat × β)) (k : Nat) (v : β) :
    (kvInsert kvs k v).length = kvs.length + 1 := by
  simpa using (kvInsert_perm kvs k v).length_eq

theorem kvInsert_append_left {β : Type} {B : List (Nat × β)} (A : List (Nat × β))
    {k : Nat} {v : β} (hB : ∀ p ∈ B, k < p.1) :
    kvInsert (A ++ B) k v = kvInsert A k v ++ B := by
  induction A with
  | nil =>
    cases B with
    | nil => rfl
    | cons b bs =>
      obtain ⟨kb, vb⟩ := b
      have hb : k < kb := hB (kb, vb) (List.mem_cons_self _ _)
      simp [kvInsert, hb]
  | cons a as ih =>
    obtain ⟨ka, va⟩ := a
    by_cases hlt : k < ka
    · simp [kvInsert, hlt]
    · simp only [List.cons_append, kvInsert, if_neg hlt]
      exact congrArg (List.cons (ka, va)) ih

theorem kvInsert_append_right {β : Type} {A : List (Nat × β)} (B : List (Nat × β))
    {k : Nat} {v : β} (hA : ∀ p ∈ A, p.1 < k) :
    kvInsert (A ++ B) k v = A ++ kvInsert B k v := by
  induction A with
  | nil => rfl
  | cons a as ih =>
    obtain ⟨ka, va⟩ := a
    have hka : ka < k := hA (ka, va) (List.mem_cons_self _ _)
    have hlt : ¬ k < ka := by omega
    simp only [List.cons_append, kvInsert, if_neg hlt]
    exact congrArg (List.cons (ka, va)) (ih fun p hp => hA p (List.mem_cons_of_mem _ hp))

/-- A leaf insert with room available succeeds and performs the sorted
association-list insert on the page content. -/
theorem leaf_insert_inserted {p : BTreeLeafPage} {key : Nat} {value : RecordId}
    (hnot : key ∉ p.keys) (hroom : p.keys.length < BTREE_NUM_KEYS)
    (hlen : p.values.length = p.keys.length) :
    ∃ q, p.insert key value = .inserted q ∧
      q.kvs = kvInsert p.kvs key value ∧ q.next = p.next ∧
      q.keys.length = p.keys.length + 1 ∧ q.values.length = q.keys.length := by
  obtain ⟨pos, hbs, hle, hzip⟩ := binarySearch_insertIdx p.keys key hnot
  refine ⟨⟨p.keys.insertIdx pos key, p.values.insertIdx pos value, p.next⟩, ?_, ?_, rfl, ?_, ?_⟩
  · rw [BTreeLeafPage.insert, hbs]
    simp [hroom]
  · exact hzip p.values value hlen
  · exact List.length_insertIdx _ _ hle
  · show (p.values.insertIdx pos value).length = (p.keys.insertIdx pos key).length
    rw [List.length_insertIdx _ _ hle, List.length_insertIdx _ _ (hlen ▸ hle), hlen]

/-- A full leaf hands out the split handle without mutating anything. -/
theorem leaf_insert_split_full {p : BTreeLeafPage} {key : Nat} {value : RecordId}
    (hnot : key ∉ p.keys) (hfull : p.keys.length = BTREE_NUM_KEYS) :
    p.insert key value = .split := by
  obtain ⟨pos, hbs, hle, _⟩ := binarySearch_insertIdx (β := RecordId) p.keys key hnot
  rw [BTreeLeafPage.insert, hbs]
  simp [hfull]

theorem splitLeaf_lt_eq (lhs rhs : BTreeLeafPage) (key : Nat) (value : RecordId)
    (hmed : key < lhs.keys.getD ((lhs.keys.length + 1) / 2) 0) :
    SplitLeaf.split lhs rhs key value =
      some
        ((BTreeLeafPage.mk (lhs.keys.take ((lhs.keys.length + 1) / 2))
            (lhs.values.take ((lhs.keys.length + 1) / 2)) lhs.next).insertWrite key value,
         BTreeLeafPage.mk (lhs.keys.drop ((lhs.keys.length + 1) / 2))
            (lhs.values.drop ((lhs.keys.length + 1) / 2)) rhs.next,
         (lhs.keys.drop ((lhs.keys.length + 1) / 2)).getD 0 0) := by
  rw [SplitLeaf.split]
  simp only [if_pos hmed]

theorem splitLeaf_gt_eq (lhs rhs : BTreeLeafPage) (key : Nat) (value : RecordId)
    (hmed : lhs.keys.getD ((lhs.keys.length + 1) / 2) 0 < key) :
    SplitLeaf.split lhs rhs key value =
      some
        (BTreeLeafPage.mk (lhs.keys.take ((lhs.keys.length + 1) / 2))
            (lhs.values.take ((lhs.keys.length + 1) / 2)) lhs.next,
         (BTreeLeafPage.mk (lhs.keys.drop ((lhs.keys.length + 1) / 2))
            (lhs.values.drop ((lhs.keys.length + 1) / 2)) rhs.next).insertWrite key value,
         ((BTreeLeafPage.mk (lhs.keys.drop ((lhs.keys.length + 1) / 2))
            (lhs.values.drop ((lhs.keys.length + 1) / 2)) rhs.next).insertWrite key
            value).keys.getD 0 0) := by
  have hneg : ¬ key < lhs.keys.getD ((lhs.keys.length + 1) / 2) 0 := by omega
  rw [SplitLeaf.split]
  simp only [if_neg hneg, if_pos hmed]

theorem leaf_kvs_map_fst {q : BTreeLeafPage} (h : q.values.length = q.keys.length) :
    q.kvs.map Prod.fst = q.keys :=
  List.map_fst_zip _ _ (le_of_eq h.symm)

theorem sorted_split_bounds {keys : List Nat} {m : Nat}
    (hs : keys.Sorted (· < ·)) (hm : m < keys.length) :
    (∀ a ∈ keys.take m, a < keys[m]) ∧ (∀ b ∈ keys.drop m, keys[m] ≤ b) ∧
      keys.drop m = keys[m] :: keys.drop (m + 1) := by
  have hd := List.drop_eq_getElem_cons hm
  have hs2 : List.Pairwise (· < ·) (keys.take m ++ keys.drop m) := by
    rw [List.take_append_drop]
    exact hs
  rw [List.pairwise_append] at hs2
  obtain ⟨hsl, hsr, hcross⟩ := hs2
  refine ⟨?_, ?_, hd⟩
  · intro a ha
    exact hcross a ha keys[m] (by rw [hd]; exact List.mem_cons_self _ _)
  · intro b hb
    rw [hd] at hb hsr
    rcases List.mem_cons.mp hb with hb | hb
    · exact le_of_eq (hb ▸ rfl)
    · exact le_of_lt ((List.pairwise_cons.mp hsr).1 b hb)

/-- Full behaviour of SplitLeaf::split on a full sorted leaf whose key is
absent: the two pages partition the sorted insert of the new pair at the
median, the separator is the first key of the right page, both sides stay
sorted and within capacity. -/
theorem splitLeaf_spec (lhs rhs : BTreeLeafPage) (key : Nat) (value : RecordId)
    (hs : lhs.keys.Sorted (· < ·)) (hnot : key ∉ lhs.keys)
    (hfull : lhs.keys.length = BTREE_NUM_KEYS)
    (hlen : lhs.values.length = lhs.keys.length) :
    ∃ l1 r1 sep,
      SplitLeaf.split lhs rhs key value = some (l1, r1, sep) ∧
      l1.kvs ++ r1.kvs = kvInsert lhs.kvs key value ∧
      (∀ q ∈ l1.kvs, q.1 < sep) ∧
      (∀ q ∈ r1.kvs, sep ≤ q.1) ∧
      l1.keys.Sorted (· < ·) ∧ r1.keys.Sorted (· < ·) ∧
      r1.keys.head? = some sep ∧
      l1.next = lhs.next ∧ r1.next = rhs.next ∧
      l1.values.length = l1.keys.length ∧ r1.values.length = r1.keys.length ∧
      1 ≤ l1.keys.length ∧ l1.keys.length ≤ BTREE_NUM_KEYS ∧
      1 ≤ r1.keys.length ∧ r1.keys.length ≤ BTREE_NUM_KEYS ∧
      ((key < sep ∧
          List.Perm l1.kvs ((key, value) :: lhs.kvs.take ((lhs.keys.length + 1) / 2)) ∧
          r1.kvs = lhs.kvs.drop ((lhs.keys.length + 1) / 2)) ∨
       (sep < key ∧ l1.kvs = lhs.kvs.take ((lhs.keys.length + 1) / 2) ∧
          List.Perm r1.kvs ((key, value) :: lhs.kvs.drop ((lhs.keys.length + 1) / 2)))) := by
  have hfull340 : lhs.keys.length = 340 := hfull
  have hvlen : lhs.values.length = 340 := by omega
  set m := (lhs.keys.length + 1) / 2 with hmdef
  have hm170 : m = 170 := by omega
  have hm : m < lhs.keys.length := by omega
  have hmv : m < lhs.values.length := by omega
  obtain ⟨htake_lt, hdrop_ge, hdrop_cons⟩ := sorted_split_bounds hs hm
  have hmed_mem : lhs.keys[m] ∈ lhs.keys := List.getElem_mem hm
  have hmed_ne : key ≠ lhs.keys[m] := fun h => hnot (h ▸ hmed_mem)
  have hgetD : lhs.keys.getD m 0 = lhs.keys[m] := List.getD_eq_getElem _ _ hm
  have hsl : (lhs.keys.take m).Sorted (· < ·) := hs.sublist (List.take_sublist _ _)
  have hsr : (lhs.keys.drop m).Sorted (· < ·) := hs.sublist (List.drop_sublist _ _)
  have hkvs_take : (lhs.keys.take m).zip (lhs.values.take m) = lhs.kvs.take m :=
    zip_take_take _ _ _
  have hkvs_drop : (lhs.keys.drop m).zip (lhs.values.drop m) = lhs.kvs.drop m :=
    zip_drop_drop _ _ _
  have htake_fst : ∀ q ∈ lhs.kvs.take m, q.1 < lhs.keys[m] := by
    intro q hq
    rw [← hkvs_take] at hq
    exact htake_lt q.1 (List.of_mem_zip (by simpa using hq)).1
  have hdrop_fst : ∀ q ∈ lhs.kvs.drop m, lhs.keys[m] ≤ q.1 := by
    intro q hq
    rw [← hkvs_drop] at hq
    exact hdrop_ge q.1 (List.of_mem_zip (by simpa using hq)).1
  have htake_ne : ∀ q ∈ lhs.kvs.take m, q.1 ≠ key := by
    intro q hq h
    rw [← hkvs_take] at hq
    exact hnot (h ▸ (List.take_sublist _ _).subset (List.of_mem_zip (by simpa using hq)).1)
  have hdrop_ne : ∀ q ∈ lhs.kvs.drop m, q.1 ≠ key := by
    intro q hq h
    rw [← hkvs_drop] at hq
    exact hnot (h ▸ (List.drop_sublist _ _).subset (List.of_mem_zip (by simpa using hq)).1)
  have hsorted_take_kvs : KvSorted (lhs.kvs.take m) := by
    rw [← hkvs_take]
    refine (kvSorted_zip ?_).mpr hsl
    rw [List.length_take, List.length_take]
    omega
  have hsorted_drop_kvs : KvSorted (lhs.kvs.drop m) := by
    rw [← hkvs_drop]
    refine (kvSorted_zip ?_).mpr hsr
    rw [List.length_drop, List.length_drop]
    omega
  have hkvs_append : lhs.kvs.take m ++ lhs.kvs.drop m = lhs.kvs :=
    List.take_append_drop _ _
  rcases Nat.lt_trichotomy key lhs.keys[m] with hcase | hcase | hcase
  · -- key goes to the left half
    have hmed : key < lhs.keys.getD m 0 := by rw [hgetD]; exact hcase
    have heq := splitLeaf_lt_eq lhs rhs key value hmed
    have hnot_take : key ∉ lhs.keys.take m := fun h =>
      hnot ((List.take_sublist _ _).subset h)
    have hroom_take :
        (BTreeLeafPage.mk (lhs.keys.take m) (lhs.values.take m) lhs.next).keys.length
          < BTREE_NUM_KEYS := by
      show (lhs.keys.take m).length < BTREE_NUM_KEYS
      rw [List.length_take]
      show min m lhs.keys.length < 340
      omega
    have hlen_take :
        (BTreeLeafPage.mk (lhs.keys.take m) (lhs.values.take m) lhs.next).values.length
          = (BTreeLeafPage.mk (lhs.keys.take m) (lhs.values.take m) lhs.next).keys.length := by
      show (lhs.values.take m).length = (lhs.keys.take m).length
      rw [List.length_take, List.length_take]
      omega
    obtain ⟨q, hq_ins, hq_kvs, hq_next, hq_klen, hq_vlen⟩ :=
      leaf_insert_inserted (p := ⟨lhs.keys.take m, lhs.values.take m, lhs.next⟩)
        hnot_take hroom_take hlen_take
    have hq_write :
        (BTreeLeafPage.mk (lhs.keys.take m) (lhs.values.take m) lhs.next).insertWrite
          key value = q := by
      rw [BTreeLeafPage.insertWrite, hq_ins]
    have hq_kvs2 : q.kvs = kvInsert (lhs.kvs.take m) key value := by
      rw [hq_kvs]
      show kvInsert ((lhs.keys.take m).zip (lhs.values.take m)) key value = _
      rw [hkvs_take]
    have hsep : (lhs.keys.drop m).getD 0 0 = lhs.keys[m] := by
      rw [hdrop_cons, List.getD_cons_zero]
    refine ⟨q, ⟨lhs.keys.drop m, lhs.values.drop m, rhs.next⟩,
      (lhs.keys.drop m).getD 0 0, by rw [heq, hq_write], ?_⟩
    rw [hsep]
    refine ⟨?_, ?_, ?_, ?_, ?_, ?_, ?_, ?_, ?_, ?_, ?_, ?_, ?_, ?_, ?_⟩
    · rw [hq_kvs2]
      show kvInsert (lhs.kvs.take m) key value ++
          (lhs.keys.drop m).zip (lhs.values.drop m) = kvInsert lhs.kvs key value
      rw [hkvs_drop, ← kvInsert_append_left (lhs.kvs.take m)
          (fun p hp => lt_of_lt_of_le hcase (hdrop_fst p hp)), hkvs_append]
    · intro p hp
      rw [hq_kvs2] at hp
      rcases mem_kvInsert.mp hp with hp | hp
      · rw [hp]
        exact hcase
      · exact htake_fst p hp
    · intro p hp
      have hp2 : p ∈ lhs.kvs.drop m := by
        rw [← hkvs_drop]
        exact hp
      exact hdrop_fst p hp2
    · rw [← leaf_kvs_map_fst hq_vlen, hq_kvs2]
      exact kvSorted_iff_sorted_map_fst.mp (kvInsert_sorted hsorted_take_kvs htake_ne)
    · exact hsr
    · show (lhs.keys.drop m).head? = some lhs.keys[m]
      rw [hdrop_cons]
      rfl
    · rw [hq_next]
    · rfl
    · exact hq_vlen
    · show (lhs.values.drop m).length = (lhs.keys.drop m).length
      rw [List.length_drop, List.length_drop]
      omega
    · show 1 ≤ q.keys.length
      rw [hq_klen]
      omega
    · show q.keys.length ≤ BTREE_NUM_KEYS
      rw [hq_klen]
      show (lhs.keys.take m).length + 1 ≤ BTREE_NUM_KEYS
      rw [List.length_take]
      show min m lhs.keys.length + 1 ≤ 340
      omega
    · show 1 ≤ (lhs.keys.drop m).length
      rw [List.length_drop]
      omega
    · show (lhs.keys.drop m).length ≤ BTREE_NUM_KEYS
      rw [List.length_drop]
      show lhs.keys.length - m ≤ 340
      omega
    · refine Or.inl ⟨hcase, ?_, ?_⟩
      · rw [hq_kvs2]
        exact kvInsert_perm _ _ _
      · exact hkvs_drop
  · exact absurd hcase hmed_ne
  · -- key goes to the right half
    have hmed : lhs.keys.getD m 0 < key := by rw [hgetD]; exact hcase
    have heq := splitLeaf_gt_eq lhs rhs key value hmed
    have hnot_drop : key ∉ lhs.keys.drop m := fun h =>
      hnot ((List.drop_sublist _ _).subset h)
    have hroom_drop :
        (BTreeLeafPage.mk (lhs.keys.drop m) (lhs.values.drop m) rhs.next).keys.length
          < BTREE_NUM_KEYS := by
      show (lhs.keys.drop m).length < BTREE_NUM_KEYS
      rw [List.length_drop]
      show lhs.keys.length - m < 340
      omega
    have hlen_drop :
        (BTreeLeafPage.mk (lhs.keys.drop m) (lhs.values.drop m) rhs.next).values.length
          = (BTreeLeafPage.mk (lhs.keys.drop m) (lhs.values.drop m) rhs.next).keys.length := by
      show (lhs.values.drop m).length = (lhs.keys.drop m).length
      rw [List.length_drop, List.length_drop]
      omega
    obtain ⟨q, hq_ins, hq_kvs, hq_next, hq_klen, hq_vlen⟩ :=
      leaf_insert_inserted (p := ⟨lhs.keys.drop m, lhs.values.drop m, rhs.next⟩)
        hnot_drop hroom_drop hlen_drop
    have hq_write :
        (BTreeLeafPage.mk (lhs.keys.drop m) (lhs.values.drop m) rhs.next).insertWrite
          key value = q := by
      rw [BTreeLeafPage.insertWrite, hq_ins]
    have hq_kvs2 : q.kvs = kvInsert (lhs.kvs.drop m) key value := by
      rw [hq_kvs]
      show kvInsert ((lhs.keys.drop m).zip (lhs.values.drop m)) key value = _
      rw [hkvs_drop]
    have hdrop_kvs_cons : lhs.kvs.drop m =
        (lhs.keys[m], lhs.values[m]) ::
          ((lhs.keys.drop (m + 1)).zip (lhs.values.drop (m + 1))) := by
      rw [← hkvs_drop, hdrop_cons, List.drop_eq_getElem_cons hmv]
      rfl
    have hq_keys_head : q.keys.head? = some lhs.keys[m] := by
      rw [← leaf_kvs_map_fst hq_vlen, hq_kvs2, hdrop_kvs_cons]
      have hkm : ¬ key < lhs.keys[m] := by omega
      simp only [kvInsert, if_neg hkm]
      rfl
    have hsep : q.keys.getD 0 0 = lhs.keys[m] := by
      cases hqk : q.keys with
      | nil =>
        rw [hqk] at hq_keys_head
        cases hq_keys_head
      | cons a l =>
        rw [hqk] at hq_keys_head
        simp only [List.head?_cons, Option.some.injEq] at hq_keys_head
        rw [List.getD_cons_zero, hq_keys_head]
    refine ⟨⟨lhs.keys.take m, lhs.values.take m, lhs.next⟩, q, q.keys.getD 0 0,
      by rw [heq, hq_write], ?_⟩
    rw [hsep]
    refine ⟨?_, ?_, ?_, ?_, ?_, ?_, ?_, ?_, ?_, ?_, ?_, ?_, ?_, ?_, ?_⟩
    · show (lhs.keys.take m).zip (lhs.values.take m) ++ q.kvs = kvInsert lhs.kvs key value
      rw [hkvs_take, hq_kvs2, ← kvInsert_append_right (lhs.kvs.drop m)
          (fun p hp => lt_trans (htake_fst p hp) hcase), hkvs_append]
    · intro p hp
      have hp2 : p ∈ lhs.kvs.take m := by
        rw [← hkvs_take]
        exact hp
      exact htake_fst p hp2
    · intro p hp
      rw [hq_kvs2] at hp
      rcases mem_kvInsert.mp hp with hp | hp
      · rw [hp]
        exact le_of_lt hcase
      · exact hdrop_fst p hp
    · exact hsl
    · rw [← leaf_kvs_map_fst hq_vlen, hq_kvs2]
      exact kvSorted_iff_sorted_map_fst.mp (kvInsert_sorted hsorted_drop_kvs hdrop_ne)
    · exact hq_keys_head
    · rfl
    · rw [hq_next]
    · show (lhs.values.take m).length = (lhs.keys.take m).length
      rw [List.length_take, List.length_take]
      omega
    · exact hq_vlen
    · show 1 ≤ (lhs.keys.take m).length
      rw [List.length_take]
      show 1 ≤ min m lhs.keys.length
      omega
    · show (lhs.keys.take m).length ≤ BTREE_NUM_KEYS
      rw [List.length_take]
      show min m lhs.keys.length ≤ 340
      omega
    · show 1 ≤ q.keys.length
      rw [hq_klen]
      omega
    · show q.keys.length ≤ BTREE_NUM_KEYS
      rw [hq_klen]
      show (lhs.keys.drop m).length + 1 ≤ BTREE_NUM_KEYS
      rw [List.length_drop]
      show lhs.keys.length - m + 1 ≤ 340
      omega
    · refine Or.inr ⟨hcase, ?_, ?_⟩
      · exact hkvs_take
      · rw [hq_kvs2]
        exact kvInsert_perm _ _ _

/-- C10: for every leaf page whose keys are strictly increasing and every key
not present in it — the precondition under which `BTreeLeafPage::insert`
hands out a `SplitLeaf`, so the page is full — `SplitLeaf::split` never
reaches its `unreachable!()` branch: the new key can never equal the median
key taken from the existing keys, so split is total and returns a
separator. -/
theorem split_never_reaches_unreachable (lhs rhs : BTreeLeafPage) (key : Nat)
    (value : RecordId) (hs : lhs.keys.Sorted (· < ·)) (hnot : key ∉ lhs.keys)
    (hfull : lhs.keys.length = BTREE_NUM_KEYS) :
    (SplitLeaf.split lhs rhs key value).isSome := by
  have hm : (lhs.keys.length + 1) / 2 < lhs.keys.length := by
    have h340 : lhs.keys.length = 340 := hfull
    omega
  have hmed_mem : lhs.keys[(lhs.keys.length + 1) / 2] ∈ lhs.keys := List.getElem_mem hm
  have hgetD : lhs.keys.getD ((lhs.keys.length + 1) / 2) 0
      = lhs.keys[(lhs.keys.length + 1) / 2] := List.getD_eq_getElem _ _ hm
  rcases Nat.lt_trichotomy key lhs.keys[(lhs.keys.length + 1) / 2] with h | h | h
  · rw [splitLeaf_lt_eq lhs rhs key value (by rw [hgetD]; exact h)]
    rfl
  · exact absurd (h ▸ hmed_mem) hnot
  · rw [splitLeaf_gt_eq lhs rhs key value (by rw [hgetD]; exact h)]
    rfl

/-- Witness for `split_never_reaches_unreachable` at a concrete full leaf. -/
theorem split_never_reaches_unreachable_witness :
    ((⟨List.range 340, List.replicate 340 ⟨0, 0⟩, 0⟩ : BTreeLeafPage)).keys.Sorted (· < ·) ∧
    (1000 : Nat) ∉ ((⟨List.range 340, List.replicate 340 ⟨0, 0⟩, 0⟩ : BTreeLeafPage)).keys ∧
    ((⟨List.range 340, List.replicate 340 ⟨0, 0⟩, 0⟩ : BTreeLeafPage)).keys.length
      = BTREE_NUM_KEYS ∧
    (SplitLeaf.split ⟨List.range 340, List.replicate 340 ⟨0, 0⟩, 0⟩ BTreeLeafPage.init
      1000 ⟨0, 0⟩).isSome :=
  ⟨List.sorted_lt_range 340, by simp [List.mem_range], by rw [List.length_range]; rfl,
    split_never_reaches_unreachable _ BTreeLeafPage.init 1000 ⟨0, 0⟩
      (List.sorted_lt_range 340) (by simp [List.mem_range])
      (by rw [List.length_range]; rfl)⟩

/-- C4: on a full sorted leaf (`num_keys = B - 1`) and a key not present,
`insert` returns the split handle without mutating the page; running
`split` against a fresh right page moves the upper half of the keys/values
to the right page while the original retains the lower half, inserts the
new pair into the side it belongs to, and returns the first key of the
right page as the separator; afterwards both pages are strictly increasing
and together hold exactly the old pairs plus the new pair. -/
theorem leaf_insert_split_correct (l : BTreeLeafPage) (key : Nat) (value : RecordId)
    (hs : l.keys.Sorted (· < ·)) (hnot : key ∉ l.keys)
    (hfull : l.keys.length = BTREE_NUM_KEYS)
    (hlen : l.values.length = l.keys.length) :
    l.insert key value = .split ∧
    ∃ l1 r1 sep,
      SplitLeaf.split l BTreeLeafPage.init key value = some (l1, r1, sep) ∧
      r1.keys.head? = some sep ∧
      l1.keys.Sorted (· < ·) ∧ r1.keys.Sorted (· < ·) ∧
      List.Perm (l1.kvs ++ r1.kvs) ((key, value) :: l.kvs) ∧
      (∀ q ∈ l1.kvs, q.1 < sep) ∧
      (∀ q ∈ r1.kvs, sep ≤ q.1) ∧
      ((key < sep ∧
          List.Perm l1.kvs ((key, value) :: l.kvs.take ((l.keys.length + 1) / 2)) ∧
          r1.kvs = l.kvs.drop ((l.keys.length + 1) / 2)) ∨
       (sep < key ∧ l1.kvs = l.kvs.take ((l.keys.length + 1) / 2) ∧
          List.Perm r1.kvs ((key, value) :: l.kvs.drop ((l.keys.length + 1) / 2)))) := by
  refine ⟨leaf_insert_split_full hnot hfull, ?_⟩
  obtain ⟨l1, r1, sep, hsplit, hcontents, hlb, hrb, hls, hrs, hhead, _, _, _, _, _, _, _,
    _, hhalves⟩ := splitLeaf_spec l BTreeLeafPage.init key value hs hnot hfull hlen
  refine ⟨l1, r1, sep, hsplit, hhead, hls, hrs, ?_, hlb, hrb, hhalves⟩
  rw [hcontents]
  exact kvInsert_perm _ _ _

/-- Witness for `leaf_insert_split_correct` at a concrete full leaf. -/
theorem leaf_insert_split_correct_witness :
    ((⟨List.range 340, List.replicate 340 ⟨7, 7⟩, 0⟩ : BTreeLeafPage)).keys.Sorted (· < ·) ∧
    (1000 : Nat) ∉ ((⟨List.range 340, List.replicate 340 ⟨7, 7⟩, 0⟩ : BTreeLeafPage)).keys ∧
    ((⟨List.range 340, List.replicate 340 ⟨7, 7⟩, 0⟩ : BTreeLeafPage)).keys.length
      = BTREE_NUM_KEYS ∧
    ((⟨List.range 340, List.replicate 340 ⟨7, 7⟩, 0⟩ : BTreeLeafPage)).values.length
      = ((⟨List.range 340, List.replicate 340 ⟨7, 7⟩, 0⟩ : BTreeLeafPage)).keys.length ∧
    ((⟨List.range 340, List.replicate 340 ⟨7, 7⟩, 0⟩ : BTreeLeafPage)).insert 1000 ⟨3, 4⟩
        = .split ∧
    ∃ l1 r1 sep,
      SplitLeaf.split ⟨List.range 340, List.replicate 340 ⟨7, 7⟩, 0⟩ BTreeLeafPage.init
          1000 ⟨3, 4⟩ = some (l1, r1, sep) ∧
      r1.keys.head? = some sep ∧
      l1.keys.Sorted (· < ·) ∧ r1.keys.Sorted (· < ·) ∧
      List.Perm (l1.kvs ++ r1.kvs)
        ((1000, ⟨3, 4⟩) :: (⟨List.range 340, List.replicate 340 ⟨7, 7⟩, 0⟩ : BTreeLeafPage).kvs) ∧
      (∀ q ∈ l1.kvs, q.1 < sep) ∧
      (∀ q ∈ r1.kvs, sep ≤ q.1) ∧
      ((1000 < sep ∧
          List.Perm l1.kvs ((1000, ⟨3, 4⟩) ::
            (⟨List.range 340, List.replicate 340 ⟨7, 7⟩, 0⟩ : BTreeLeafPage).kvs.take
              (((⟨List.range 340, List.replicate 340 ⟨7, 7⟩, 0⟩ : BTreeLeafPage).keys.length + 1) / 2)) ∧
          r1.kvs = (⟨List.range 340, List.replicate 340 ⟨7, 7⟩, 0⟩ : BTreeLeafPage).kvs.drop
              (((⟨List.range 340, List.replicate 340 ⟨7, 7⟩, 0⟩ : BTreeLeafPage).keys.length + 1) / 2)) ∨
       (sep < 1000 ∧
          l1.kvs = (⟨List.range 340, List.replicate 340 ⟨7, 7⟩, 0⟩ : BTreeLeafPage).kvs.take
              (((⟨List.range 340, List.replicate 340 ⟨7, 7⟩, 0⟩ : BTreeLeafPage).keys.length + 1) / 2) ∧
          List.Perm r1.kvs ((1000, ⟨3, 4⟩) ::
            (⟨List.range 340, List.replicate 340 ⟨7, 7⟩, 0⟩ : BTreeLeafPage).kvs.drop
              (((⟨List.range 340, List.replicate 340 ⟨7, 7⟩, 0⟩ : BTreeLeafPage).keys.length + 1) / 2)))) :=
  ⟨List.sorted_lt_range 340, by simp [List.mem_range], by rw [List.length_range]; rfl,
    by rw [List.length_replicate, List.length_range],
    leaf_insert_split_correct _ 1000 ⟨3, 4⟩ (List.sorted_lt_range 340)
      (by simp [List.mem_range]) (by rw [List.length_range]; rfl)
      (by rw [List.length_replicate, List.length_range])⟩

/-- C9: `Value::Float(NaN) == Value::Float(NaN)` holds; `partial_cmp` orders
any infinite float (so both `+∞` and `-∞`) strictly below a NaN and a NaN
strictly above any infinite float; and floats that are neither NaN nor
infinite compare by ordinary IEEE `partial_cmp`. -/
theorem value_float_comparison_semantics (a b x y : Nat)
    (ha : f64IsNan a = true) (hb : f64IsNan b = true)
    (hx1 : f64IsNan x = false) (hx2 : f64IsInfinite x = false)
    (hy1 : f64IsNan y = false) (hy2 : f64IsInfinite y = false) :
    Value.eqv (.float F64_NAN) (.float F64_NAN) = true ∧
    Value.eqv (.float a) (.float b) = true ∧
    Value.vcmp (.float F64_INFINITY) (.float a) = some .lt ∧
    Value.vcmp (.float F64_NEG_INFINITY) (.float a) = some .lt ∧
    Value.vcmp (.float a) (.float F64_INFINITY) = some .gt ∧
    Value.vcmp (.float a) (.float F64_NEG_INFINITY) = some .gt ∧
    Value.vcmp (.float x) (.float y) = f64Cmp x y := by
  have hinf : f64IsInfinite F64_INFINITY = true := by decide
  have hninf : f64IsInfinite F64_NEG_INFINITY = true := by decide
  have hinf_nan : f64IsNan F64_INFINITY = false := by decide
  have hninf_nan : f64IsNan F64_NEG_INFINITY = false := by decide
  refine ⟨by decide, ?_, ?_, ?_, ?_, ?_, ?_⟩
  · simp [Value.eqv, ha, hb]
  · simp [Value.vcmp, hinf, ha]
  · simp [Value.vcmp, hninf, ha]
  · simp [Value.vcmp, hinf, ha, hinf_nan]
  · simp [Value.vcmp, hninf, ha, hninf_nan]
  · simp [Value.vcmp, hx1, hx2, hy1, hy2]

/-- Witness for `value_float_comparison_semantics`: the canonical NaN
pattern for both NaN arguments, `1.0` (`0x3FF0000000000000`) and `-0.0`
(`0x8000000000000000`) as the finite floats. -/
theorem value_float_comparison_semantics_witness :
    f64IsNan F64_NAN = true ∧
    f64IsNan 0x3FF0000000000000 = false ∧ f64IsInfinite 0x3FF0000000000000 = false ∧
    f64IsNan 0x8000000000000000 = false ∧ f64IsInfinite 0x8000000000000000 = false ∧
    (Value.eqv (.float F64_NAN) (.float F64_NAN) = true ∧
     Value.eqv (.float F64_NAN) (.float F64_NAN) = true ∧
     Value.vcmp (.float F64_INFINITY) (.float F64_NAN) = some .lt ∧
     Value.vcmp (.float F64_NEG_INFINITY) (.float F64_NAN) = some .lt ∧
     Value.vcmp (.float F64_NAN) (.float F64_INFINITY) = some .gt ∧
     Value.vcmp (.float F64_NAN) (.float F64_NEG_INFINITY) = some .gt ∧
     Value.vcmp (.float 0x3FF0000000000000) (.float 0x8000000000000000)
       = f64Cmp 0x3FF0000000000000 0x8000000000000000) :=
  ⟨by decide, by decide, by decide, by decide, by decide,
    value_float_comparison_semantics F64_NAN F64_NAN 0x3FF0000000000000
      0x8000000000000000 (by decide) (by decide) (by decide) (by decide)
      (by decide) (by decide)⟩

/-- C3 (code bug evidence): on a table holding one record at `(page 0, slot
0)`, `Table::delete` succeeds and marks the slot deleted (a later get on
that rid fails with `SlotDeleted`), but the page's dirty flag stays clear
and nothing is recorded in the dirty set: the source never calls
`set_page_dirty` on the delete path, contradicting the specification. -/
theorem table_delete_skips_set_page_dirty :
    (Table.delete
        ⟨[(HeapPage.empty.insert_tuple [1, 2, 3]).1], [false], []⟩ ⟨0, 0⟩).2 = .ok () ∧
    Table.get_bytes
        (Table.delete
          ⟨[(HeapPage.empty.insert_tuple [1, 2, 3]).1], [false], []⟩ ⟨0, 0⟩).1 ⟨0, 0⟩
      = .error (.heapPage .slotDeleted) ∧
    (Table.delete
        ⟨[(HeapPage.empty.insert_tuple [1, 2, 3]).1], [false], []⟩ ⟨0, 0⟩).1.dirty
      = [false] ∧
    (Table.delete
        ⟨[(HeapPage.empty.insert_tuple [1, 2, 3]).1], [false], []⟩ ⟨0, 0⟩).1.dirty_pages
      = ([] : List Nat) :=
  ⟨rfl, rfl, rfl, rfl⟩

/-- C2 (code bug evidence): pool full, the LRU victim is page 2 of storage 0,
resident with payload 12 and dirty flag `false`; `new_page` on storage 1
allocates page 1 there (first `writePage 1 1 0`), then writes the clean
victim's bytes into **storage 1** at the victim's page id (`writePage 1 2
12`) and fsyncs storage 1, corrupting storage 1 and never checking the
victim's dirty flag or its own backend (storage 0 is left untouched). -/
theorem new_page_writes_clean_victim_to_wrong_backend :
    PageCacheInner.new_page
        ⟨[[10, 11, 12], [20]], [⟨0, 2, 12, false⟩], [(0, 2)], 0, []⟩ 1 =
      some (.ok
        (⟨[[10, 11, 12], [20, 0, 12]], [⟨1, 1, 0, false⟩], [], 0,
          [.writePage 1 1 0, .writePage 1 2 12, .fsyncStorage 1]⟩, 1)) ∧
    (⟨0, 2, 12, false⟩ : CacheFrame).dirty = false :=
  ⟨rfl, rfl⟩

theorem storeBytes_lt {j : Nat} :
    ∀ (bs : List Nat) (f : Nat → Nat) (i : Nat), j < i → storeBytes f i bs j = f j
  | [], f, i, _ => rfl
  | b :: bs, f, i, h => by
    rw [storeBytes, storeBytes_lt bs _ (i + 1) (by omega)]
    simp [store8]
    omega

theorem loadBytes_succ (f : Nat → Nat) (i n : Nat) :
    loadBytes f i (n + 1) = f i :: loadBytes f (i + 1) n := by
  rw [loadBytes, loadBytes, List.range_succ_eq_map]
  simp only [List.map_cons, Nat.add_zero, List.map_map]
  refine congrArg (f i :: ·) ?_
  apply List.map_congr_left
  intro j hj
  simp only [Function.comp_apply]
  exact congrArg f (by omega)

theorem store8_same (f : Nat → Nat) (i v : Nat) : store8 f i v i = v % 256 := by
  simp [store8]

theorem store8_other {f : Nat → Nat} {i v j : Nat} (h : j ≠ i) : store8 f i v j = f j := by
  simp [store8, h]

theorem storeBytes_load :
    ∀ (bs : List Nat) (f : Nat → Nat) (i : Nat), (∀ b ∈ bs, b < 256) →
      loadBytes (storeBytes f i bs) i bs.length = bs
  | [], f, i, _ => rfl
  | b :: bs, f, i, h => by
    rw [storeBytes, List.length_cons, loadBytes_succ,
      storeBytes_load bs _ (i + 1) fun x hx => h x (List.mem_cons_of_mem _ hx),
      storeBytes_lt bs _ (i + 1) (by omega)]
    have hb : b < 256 := h b (List.mem_cons_self _ _)
    simp [store8]
    omega

theorem loadBytes_congr {f g : Nat → Nat} {i len : Nat}
    (h : ∀ j, i ≤ j → j < i + len → f j = g j) :
    loadBytes f i len = loadBytes g i len := by
  rw [loadBytes, loadBytes]
  apply List.map_congr_left
  intro j hj
  exact h (i + j) (by omega) (by have := List.mem_range.mp hj; omega)

theorem store16_ne {f : Nat → Nat} {i v j : Nat} (h1 : j ≠ i) (h2 : j ≠ i + 1) :
    store16 f i v j = f j := by
  rw [store16, store8_other h2, store8_other h1]

theorem load16_store16 (f : Nat → Nat) (i v : Nat) :
    load16 (store16 f i v) i = v % 65536 := by
  rw [load16, store16, store8_other (show i ≠ i + 1 by omega), store8_same, store8_same]
  omega

theorem load16_lt {f : Nat → Nat} (hdata : ∀ j, f j < 256) (i : Nat) :
    load16 f i < 65536 := by
  have h1 := hdata i
  have h2 := hdata (i + 1)
  rw [load16]
  omega

/-- C6: `HeapPage::insert_tuple` succeeds exactly when the free space covers
a slot plus the tuple, fails with `NoFreeSpace` leaving the page unchanged
otherwise, and on success assigns slot id `num_slots` (the next id) and
writes the tuple bytes at the lowest existing tuple offset minus the tuple
size (the end of the data area for the first tuple). The hypotheses state
the invariants of a real page: bytes below 256 and the last slot holding
the lowest tuple offset (inserts stack records downward and deletes keep
offsets, so the last slot's offset is the minimum on every page the code
builds). -/
theorem heap_insert_tuple_spec (p : HeapPage) (tuple : List Nat)
    (hbytes : ∀ b ∈ tuple, b < 256)
    (hdata : ∀ j, p.data j < 256)
    (hlow : p.last_tuple_offset = p.lowest_tuple_offset) :
    ((p.insert_tuple tuple).2.isOk = true ↔
        HEAPPAGE_SLOT_SIZE + tuple.length ≤ p.free_space) ∧
    (¬ HEAPPAGE_SLOT_SIZE + tuple.length ≤ p.free_space →
        p.insert_tuple tuple = (p, .error .noFreeSpace)) ∧
    (HEAPPAGE_SLOT_SIZE + tuple.length ≤ p.free_space →
        ∃ q, p.insert_tuple tuple = (q, .ok p.num_slots) ∧
          q.num_slots = p.num_slots + 1 ∧
          loadBytes q.data
              ((p.lowest_tuple_offset.getD HEAPPAGE_DATA_SIZE) - tuple.length)
              tuple.length = tuple ∧
          q.get_slot p.num_slots =
            some ((p.lowest_tuple_offset.getD HEAPPAGE_DATA_SIZE) - tuple.length,
              tuple.length)) := by
  have hfs_iff : p.has_free_space tuple.length = true ↔
      HEAPPAGE_SLOT_SIZE + tuple.length ≤ p.free_space := by
    rw [HeapPage.has_free_space]
    simp [ge_iff_le]
  refine ⟨?_, ?_, ?_⟩
  · constructor
    · intro hok
      by_contra hge
      rw [HeapPage.insert_tuple, if_neg (fun hc => hge (hfs_iff.mp hc))] at hok
      simp [Except.isOk, Except.toBool] at hok
    · intro hge
      rw [HeapPage.insert_tuple, if_pos (hfs_iff.mpr hge)]
      rfl
  · intro hge
    rw [HeapPage.insert_tuple, if_neg (fun hc => hge (hfs_iff.mp hc))]
  · intro hge
    have hL : p.last_tuple_offset.getD HEAPPAGE_DATA_SIZE < 65536 := by
      rw [HeapPage.last_tuple_offset]
      by_cases h0 : p.num_slots = 0
      · simp [h0, HEAPPAGE_DATA_SIZE, PAGE_SIZE, HEAPPAGE_HEADER_SIZE]
      · simp only [h0, if_neg h0, Option.getD_some]
        exact load16_lt hdata _
    set L := p.last_tuple_offset.getD HEAPPAGE_DATA_SIZE with hLdef
    set len := tuple.length with hlendef
    set n := p.num_slots with hndef
    have hfree : p.free_space = L - n * 4 := by
      rw [hLdef, hndef]
      rfl
    have hslot : HEAPPAGE_SLOT_SIZE = 4 := rfl
    have hLes : L ≥ n * 4 + 4 + len := by omega
    have hofflt : L - len < 65536 := by omega
    have hlenlt : len < 65536 := by omega
    refine ⟨⟨n + 1, store16 (store16 (storeBytes p.data (L - len) tuple)
        (n * 4) (L - len)) (n * 4 + 2) len⟩,
      ?_, rfl, ?_, ?_⟩
    · rw [HeapPage.insert_tuple, if_pos (hfs_iff.mpr hge)]
      rfl
    · -- tuple bytes are at lowest offset minus len
      rw [← hlow]
      show loadBytes
        (store16 (store16 (storeBytes p.data (L - len) tuple) (n * 4)
          (L - len)) (n * 4 + 2) len) (L - len) len = tuple
      rw [loadBytes_congr (g := storeBytes p.data (L - len) tuple) ?_]
      · exact storeBytes_load tuple p.data (L - len) hbytes
      · intro j hj1 hj2
        have h4 : HEAPPAGE_SLOT_SIZE = 4 := rfl
        rw [store16_ne (by omega) (by omega), store16_ne (by omega) (by omega)]
    · -- the new slot is (lowest - len, len)
      rw [← hlow]
      show HeapPage.get_slot ⟨n + 1, store16 (store16 (storeBytes p.data (L - len) tuple)
        (n * 4) (L - len)) (n * 4 + 2) len⟩ n
        = some (L - len, len)
      rw [HeapPage.get_slot]
      simp only [if_pos (by omega : n < n + 1)]
      have h4 : HEAPPAGE_SLOT_SIZE = 4 := rfl
      have hload2 : load16 (store16 (store16 (storeBytes p.data (L - len) tuple)
          (n * 4) (L - len)) (n * 4 + 2) len)
          (n * 4 + 2) = len := by
        rw [load16_store16]
        omega
      have hload1 : load16 (store16 (store16 (storeBytes p.data (L - len) tuple)
          (n * 4) (L - len)) (n * 4 + 2) len)
          (n * 4) = L - len := by
        rw [load16]
        rw [store16_ne (show n * 4 ≠ n * 4 + 2 by omega)
            (show n * 4 ≠ n * 4 + 2 + 1 by omega),
          store16_ne (show n * 4 + 1 ≠ n * 4 + 2 by omega)
            (show n * 4 + 1 ≠ n * 4 + 2 + 1 by omega)]
        have e1 : store16 (storeBytes p.data (L - len) tuple) (n * 4) (L - len) (n * 4)
            = (L - len) % 256 := by
          rw [store16, store8_other (show n * 4 ≠ n * 4 + 1 by omega), store8_same]
        have e2 : store16 (storeBytes p.data (L - len) tuple) (n * 4) (L - len) (n * 4 + 1)
            = (L - len) / 256 % 256 := by
          rw [store16, store8_same]
        rw [e1, e2]
        omega
      rw [hslot, hload1, hload2]

/-- Witness for `heap_insert_tuple_spec`: inserting three bytes into the
empty page. -/
theorem heap_insert_tuple_spec_witness :
    (∀ b ∈ [1, 2, 3], b < 256) ∧
    (∀ j, HeapPage.empty.data j < 256) ∧
    HeapPage.empty.last_tuple_offset = HeapPage.empty.lowest_tuple_offset ∧
    (((HeapPage.empty.insert_tuple [1, 2, 3]).2.isOk = true ↔
        HEAPPAGE_SLOT_SIZE + [1, 2, 3].length ≤ HeapPage.empty.free_space) ∧
     (¬ HEAPPAGE_SLOT_SIZE + [1, 2, 3].length ≤ HeapPage.empty.free_space →
        HeapPage.empty.insert_tuple [1, 2, 3] = (HeapPage.empty, .error .noFreeSpace)) ∧
     (HEAPPAGE_SLOT_SIZE + [1, 2, 3].length ≤ HeapPage.empty.free_space →
        ∃ q, HeapPage.empty.insert_tuple [1, 2, 3] = (q, .ok HeapPage.empty.num_slots) ∧
          q.num_slots = HeapPage.empty.num_slots + 1 ∧
          loadBytes q.data
              ((HeapPage.empty.lowest_tuple_offset.getD HEAPPAGE_DATA_SIZE)
                - [1, 2, 3].length) [1, 2, 3].length = [1, 2, 3] ∧
          q.get_slot HeapPage.empty.num_slots =
            some ((HeapPage.empty.lowest_tuple_offset.getD HEAPPAGE_DATA_SIZE)
              - [1, 2, 3].length, [1, 2, 3].length))) :=
  ⟨by decide, fun j => by simp [HeapPage.empty], rfl,
    heap_insert_tuple_spec HeapPage.empty [1, 2, 3] (by decide)
      (fun j => by simp [HeapPage.empty]) rfl⟩

/-! ## C8: tuple serialization round-trip (src/tuple.rs, src/sql/types/value.rs) -/

theorem length_le_bytes (w v : Nat) : (le_bytes w v).length = w := by
  simp [le_bytes]

theorem le_bytes_succ (w v : Nat) :
    le_bytes (w + 1) v = v % 256 :: le_bytes w (v / 256) := by
  unfold le_bytes
  rw [List.range_succ_eq_map, List.map_cons, List.map_map]
  refine congrArg₂ List.cons (by simp) ?_
  refine List.map_congr_left fun i _ => ?_
  show v / 256 ^ (i + 1) % 256 = v / 256 / 256 ^ i % 256
  rw [Nat.div_div_eq_div_mul, ← pow_succ']

theorem fromLeBytes_le_bytes (w : Nat) :
    ∀ v : Nat, fromLeBytes (le_bytes w v) = v % 256 ^ w := by
  induction w with
  | zero => intro v; simp [le_bytes, fromLeBytes, Nat.mod_one]
  | succ w ih =>
    intro v
    rw [le_bytes_succ]
    show v % 256 + 256 * fromLeBytes (le_bytes w (v / 256)) = v % 256 ^ (w + 1)
    rw [ih, pow_succ', Nat.mod_mul]

theorem i64ToBits_lt (i : Int) : i64ToBits i < 2 ^ 64 := by
  unfold i64ToBits
  have e1 : ((2 : Int) ^ 64) = 18446744073709551616 := by norm_num
  have e3 : ((2 : Nat) ^ 64) = 18446744073709551616 := by norm_num
  rw [e1, e3]
  omega

theorem i64FromBits_toBits (i : Int) (h1 : -(2 ^ 63) ≤ i) (h2 : i < 2 ^ 63) :
    i64FromBits (i64ToBits i) = i := by
  unfold i64FromBits i64ToBits
  have e1 : ((2 : Int) ^ 64) = 18446744073709551616 := by norm_num
  have e2 : ((2 : Int) ^ 63) = 9223372036854775808 := by norm_num
  have e3 : ((2 : Nat) ^ 63) = 9223372036854775808 := by norm_num
  simp only [e1, e2, e3] at h1 h2 ⊢
  split <;> omega

theorem take_append_length {α : Type} (l1 l2 : List α) (n : Nat) (h : l1.length = n) :
    (l1 ++ l2).take n = l1 := by
  subst h
  exact List.take_left l1 l2

theorem drop_append_length {α : Type} (l1 l2 : List α) (n : Nat) (h : l1.length = n) :
    (l1 ++ l2).drop n = l2 := by
  subst h
  exact List.drop_left l1 l2

theorem write_bytes_length (v : Value) :
    v.write_bytes.length = v.header_size + v.data_size := by
  cases v <;>
    simp [Value.write_bytes, Value.header_size, Value.data_size, length_le_bytes]

theorem from_bytes_write_bytes (v : Value) (dt : DataType)
    (hty : v.data_type = some dt) (hwf : v.WF)
    (hsz : v.data_size < 65536) (tail : List Nat) :
    Value.from_bytes (v.write_bytes ++ tail) dt = v := by
  cases v with
  | boolean b =>
    obtain rfl : DataType.boolean = dt := Option.some.inj hty
    cases b <;> rfl
  | integer i =>
    obtain rfl : DataType.integer = dt := Option.some.inj hty
    show Value.integer
        (i64FromBits (fromLeBytes ((le_bytes 8 (i64ToBits i) ++ tail).take 8))) =
      Value.integer i
    rw [take_append_length _ _ _ (length_le_bytes 8 _), fromLeBytes_le_bytes,
      Nat.mod_eq_of_lt (lt_of_lt_of_le (i64ToBits_lt i) (by norm_num))]
    exact congrArg Value.integer (i64FromBits_toBits i hwf.1 hwf.2)
  | float bits =>
    obtain rfl : DataType.float = dt := Option.some.inj hty
    show Value.float (fromLeBytes ((le_bytes 8 bits ++ tail).take 8)) = Value.float bits
    have hb : bits < 2 ^ 64 := hwf
    rw [take_append_length _ _ _ (length_le_bytes 8 _), fromLeBytes_le_bytes,
      Nat.mod_eq_of_lt (lt_of_lt_of_le hb (by norm_num))]
  | varchar s =>
    obtain rfl : DataType.varchar = dt := Option.some.inj hty
    have hlen : s.length < 65536 := hsz
    show Value.varchar
        ((((le_bytes 2 s.length ++ s) ++ tail).drop 2).take
          (fromLeBytes (((le_bytes 2 s.length ++ s) ++ tail).take 2))) =
      Value.varchar s
    rw [List.append_assoc, take_append_length _ _ _ (length_le_bytes 2 _),
      drop_append_length _ _ _ (length_le_bytes 2 _), fromLeBytes_le_bytes,
      Nat.mod_eq_of_lt (lt_of_lt_of_le hlen (by norm_num)),
      take_append_length _ _ _ rfl]
  | null => simp [Value.data_type] at hty

theorem testBit_one (k : Nat) : Nat.testBit 1 k = decide (k = 0) := by
  rw [Nat.testBit_to_div_mod]
  cases k with
  | zero => norm_num
  | succ k =>
    have h2 : (2 : Nat) ^ 1 ≤ 2 ^ (k + 1) :=
      Nat.pow_le_pow_right (by norm_num) (by omega)
    have h : 1 / 2 ^ (k + 1) = 0 := Nat.div_eq_of_lt (by norm_num at h2; omega)
    simp [h]

theorem bitmapIsNull_eq_testBit (b i : Nat) : bitmapIsNull b i = b.testBit i := by
  rw [bitmapIsNull, Nat.testBit_to_div_mod, Nat.shiftRight_eq_div_pow]

theorem bitmapIsNull_setNull_self (b j : Nat) :
    bitmapIsNull (bitmapSetNull b j) j = true := by
  rw [bitmapIsNull_eq_testBit, bitmapSetNull, Nat.testBit_or, Nat.testBit_shiftLeft,
    testBit_one]
  simp

theorem bitmapIsNull_setNull_ne (b j i : Nat) (h : i ≠ j) :
    bitmapIsNull (bitmapSetNull b j) i = bitmapIsNull b i := by
  rw [bitmapIsNull_eq_testBit, bitmapIsNull_eq_testBit, bitmapSetNull, Nat.testBit_or,
    Nat.testBit_shiftLeft, testBit_one]
  have h2 : (decide (i ≥ j) && decide (i - j = 0)) = false := by
    rcases Nat.lt_or_ge i j with h' | h'
    · simp [Nat.not_le.mpr h']
    · have h3 : i - j ≠ 0 := by omega
      simp [h3]
  rw [h2, Bool.or_false]

theorem bitmapIsNull_zero (j : Nat) : bitmapIsNull 0 j = false := by
  simp [bitmapIsNull, Nat.zero_shiftRight]

theorem isNullAt_nil (k : Nat) : isNullAt [] k = false := by
  simp [isNullAt]

theorem isNullAt_cons_zero (v : Value) (rest : List Value) :
    isNullAt (v :: rest) 0 = v.is_null := by
  simp [isNullAt]

theorem isNullAt_cons_succ (v : Value) (rest : List Value) (k : Nat) :
    isNullAt (v :: rest) (k + 1) = isNullAt rest k := by
  simp [isNullAt]

theorem tupleHeaderFoldFrom_snd_lt (values : List Value) :
    ∀ (i : Nat) (acc : Nat × Nat), acc.2 < 2 ^ i →
      (tupleHeaderFoldFrom i acc values).2 < 2 ^ (i + values.length) := by
  induction values with
  | nil =>
    intro i acc h
    simpa [tupleHeaderFoldFrom] using h
  | cons v rest ih =>
    intro i acc h
    rw [tupleHeaderFoldFrom]
    have hmono : (2 : Nat) ^ i ≤ 2 ^ (i + 1) :=
      Nat.pow_le_pow_right (by norm_num) (by omega)
    have h2 : (if v.is_null then bitmapSetNull acc.2 i else acc.2) < 2 ^ (i + 1) := by
      split
      · refine Nat.or_lt_two_pow (lt_of_lt_of_le h hmono) ?_
        rw [Nat.shiftLeft_eq, one_mul]
        exact Nat.pow_lt_pow_succ (by norm_num)
      · exact lt_of_lt_of_le h hmono
    have h3 := ih (i + 1)
      (acc.1 + v.header_size + v.data_size,
        if v.is_null then bitmapSetNull acc.2 i else acc.2) h2
    have h4 : i + 1 + rest.length = i + (rest.length + 1) := by omega
    rw [h4] at h3
    simpa using h3

theorem tupleHeaderFoldFrom_bit_lt (values : List Value) :
    ∀ (i j : Nat) (acc : Nat × Nat), j < i →
      bitmapIsNull (tupleHeaderFoldFrom i acc values).2 j = bitmapIsNull acc.2 j := by
  induction values with
  | nil => intro i j acc _; rfl
  | cons v rest ih =>
    intro i j acc h
    rw [tupleHeaderFoldFrom, ih (i + 1) j _ (by omega)]
    show bitmapIsNull (if v.is_null then bitmapSetNull acc.2 i else acc.2) j =
      bitmapIsNull acc.2 j
    split
    · exact bitmapIsNull_setNull_ne _ _ _ (by omega)
    · rfl

theorem tupleHeaderFoldFrom_bit (values : List Value) :
    ∀ (i k : Nat) (acc : Nat × Nat),
      (∀ j, i ≤ j → bitmapIsNull acc.2 j = false) →
      bitmapIsNull (tupleHeaderFoldFrom i acc values).2 (i + k) = isNullAt values k := by
  induction values with
  | nil =>
    intro i k acc hb
    rw [isNullAt_nil]
    exact hb (i + k) (by omega)
  | cons v rest ih =>
    intro i k acc hb
    have hacc : ∀ j, i + 1 ≤ j →
        bitmapIsNull (if v.is_null then bitmapSetNull acc.2 i else acc.2) j = false := by
      intro j hj
      split
      · rw [bitmapIsNull_setNull_ne _ _ _ (by omega)]
        exact hb j (by omega)
      · exact hb j (by omega)
    rw [tupleHeaderFoldFrom]
    cases k with
    | zero =>
      rw [tupleHeaderFoldFrom_bit_lt rest (i + 1) (i + 0) _ (by omega),
        isNullAt_cons_zero]
      show bitmapIsNull (if v.is_null then bitmapSetNull acc.2 i else acc.2) (i + 0) =
        v.is_null
      cases v.is_null with
      | false =>
        rw [if_neg (by simp)]
        exact hb (i + 0) (by omega)
      | true =>
        rw [if_pos rfl]
        have e : i + 0 = i := by omega
        rw [e]
        exact bitmapIsNull_setNull_self acc.2 i
    | succ k =>
      rw [isNullAt_cons_succ]
      have h3 := ih (i + 1) k
        (acc.1 + v.header_size + v.data_size,
          if v.is_null then bitmapSetNull acc.2 i else acc.2) hacc
      have h4 : i + 1 + k = i + (k + 1) := by omega
      rw [h4] at h3
      exact h3

theorem tupleHeaderFold_bit (values : List Value) (k : Nat) :
    bitmapIsNull (tupleHeaderFold values).2 k = isNullAt values k := by
  unfold tupleHeaderFold
  have h := tupleHeaderFoldFrom_bit values 0 k (0, 0) (fun j _ => bitmapIsNull_zero j)
  simpa using h

theorem toOwnedLoop_spec (values : List Value) :
    ∀ (schema : List Column) (bitmap i : Nat),
      values.length = schema.length →
      (∀ p ∈ values.zip schema, columnMatch p.1 p.2 = true) →
      (∀ v ∈ values, v.WF) →
      (∀ v ∈ values, v.data_size < 65536) →
      (∀ k, bitmapIsNull bitmap (i + k) = isNullAt values k) →
      toOwnedLoop bitmap (writeValuesLoop values) schema i = values := by
  induction values with
  | nil =>
    intro schema bitmap i hlen _ _ _ _
    cases schema with
    | nil => rfl
    | cons c cs => simp at hlen
  | cons v vs ih =>
    intro schema bitmap i hlen hmatch hwf hsz hbit
    cases schema with
    | nil => simp at hlen
    | cons c cs =>
      have hlen' : vs.length = cs.length := by simpa using hlen
      have hbit0 : bitmapIsNull bitmap i = v.is_null := by
        have h := hbit 0
        rw [isNullAt_cons_zero] at h
        simpa using h
      have hbit' : ∀ k, bitmapIsNull bitmap (i + 1 + k) = isNullAt vs k := by
        intro k
        have h := hbit (k + 1)
        rw [isNullAt_cons_succ] at h
        have e : i + (k + 1) = i + 1 + k := by omega
        rw [e] at h
        exact h
      rw [toOwnedLoop]
      cases hv : v.is_null with
      | true =>
        have hvnull : v = .null := by cases v <;> simp [Value.is_null] at hv ⊢
        rw [if_pos (by rw [hbit0]; exact hv)]
        subst hvnull
        refine congrArg (List.cons Value.null) ?_
        have hw : writeValuesLoop (Value.null :: vs) = writeValuesLoop vs := by
          simp [writeValuesLoop, Value.is_null]
        rw [hw]
        exact ih cs bitmap (i + 1) hlen'
          (fun p hp => hmatch p (List.mem_cons_of_mem _ hp))
          (fun x hx => hwf x (List.mem_cons_of_mem _ hx))
          (fun x hx => hsz x (List.mem_cons_of_mem _ hx))
          hbit'
      | false =>
        rw [if_neg (by simp [hbit0, hv])]
        have hw : writeValuesLoop (v :: vs) = v.write_bytes ++ writeValuesLoop vs := by
          simp [writeValuesLoop, hv]
        have hty : v.data_type = some c.data_type := by
          have hm : columnMatch v c = true := hmatch (v, c) (List.mem_cons_self _ _)
          cases v with
          | null => simp [Value.is_null] at hv
          | boolean b => exact eq_of_beq hm
          | integer n => exact eq_of_beq hm
          | float bits => exact eq_of_beq hm
          | varchar s => exact eq_of_beq hm
        have hv' : Value.from_bytes (writeValuesLoop (v :: vs)) c.data_type = v := by
          rw [hw]
          exact from_bytes_write_bytes v c.data_type hty
            (hwf v (List.mem_cons_self _ _)) (hsz v (List.mem_cons_self _ _)) _
        rw [hv', hw, drop_append_length _ _ _ (write_bytes_length v)]
        exact congrArg (List.cons v)
          (ih cs bitmap (i + 1) hlen'
            (fun p hp => hmatch p (List.mem_cons_of_mem _ hp))
            (fun x hx => hwf x (List.mem_cons_of_mem _ hx))
            (fun x hx => hsz x (List.mem_cons_of_mem _ hx))
            hbit')

theorem eqv_refl (v : Value) : Value.eqv v v = true := by
  cases v with
  | float bits =>
    show (if (f64IsNan bits && f64IsNan bits)
        || (f64IsInfinite bits && f64IsInfinite bits
            && (f64SignBit bits == f64SignBit bits)) then
      true else f64Eq bits bits) = true
    split
    · rfl
    · rename_i hcond
      have hn : f64IsNan bits = false := by
        cases hnn : f64IsNan bits
        · rfl
        · exact absurd (by simp [hnn]) hcond
      simp [f64Eq, hn]
  | boolean b => simp [Value.eqv]
  | integer i => simp [Value.eqv]
  | varchar s => simp [Value.eqv]
  | null => rfl

theorem tuple_bytes_bitmap_field (a b : Nat) (W : List Nat) :
    ((le_bytes 2 a ++ le_bytes 8 b ++ W).drop 2).take 8 = le_bytes 8 b := by
  rw [List.append_assoc, drop_append_length _ _ _ (length_le_bytes 2 a),
    take_append_length _ _ _ (length_le_bytes 8 b)]

theorem tuple_bytes_payload (a b : Nat) (W : List Nat) :
    (le_bytes 2 a ++ le_bytes 8 b ++ W).drop 10 = W := by
  refine drop_append_length (le_bytes 2 a ++ le_bytes 8 b) W 10 ?_
  simp [length_le_bytes]

/-- C8: round-trip law for tuples — for every list of values accepted by
`Tuple::try_new` and validated against a schema by `validate_with_schema`,
serializing with `write_bytes_to` and decoding the bytes under the same
schema via `TupleRef::to_owned` returns exactly the original values (null
columns recovered from the null bitmap), and in particular values equal
column by column under the `Value` `PartialEq` with its float rule. -/
theorem tuple_serialization_roundtrip (values : List Value) (schema : List Column)
    (hwf : ∀ v ∈ values, v.WF)
    (hnew : Tuple.try_new values = .ok values)
    (hval : validate_with_schema values schema = .ok ()) :
    decodeTuple schema (Tuple.write_bytes values) = values ∧
    List.Forall₂ (fun a b => Value.eqv a b = true)
      (decodeTuple schema (Tuple.write_bytes values)) values := by
  have hcols : values.length ≤ 64 ∧
      (List.map (fun v => v.header_size + v.data_size) values).sum ≤ 4080 := by
    unfold Tuple.try_new TUPLE_MAX_COLUMNS TUPLE_HEADER_SIZE HEAPPAGE_MAX_TUPLE_SIZE
      HEAPPAGE_DATA_SIZE PAGE_SIZE HEAPPAGE_HEADER_SIZE HEAPPAGE_SLOT_SIZE valuesSize
      at hnew
    split at hnew
    · exact absurd hnew (by simp)
    · split at hnew
      · rename_i h1 h2
        exact ⟨by omega, by omega⟩
      · exact absurd hnew (by simp)
  obtain ⟨hc1, hc2⟩ := hcols
  have hlens : values.length = schema.length ∧
      ∀ p ∈ values.zip schema, columnMatch p.1 p.2 = true := by
    unfold validate_with_schema at hval
    split at hval
    · exact absurd hval (by simp)
    · rename_i h1
      split at hval
      · rename_i h2
        exact ⟨by omega, by simpa using h2⟩
      · exact absurd hval (by simp)
  obtain ⟨hlen, hmatch⟩ := hlens
  have hsz : ∀ v ∈ values, v.data_size < 65536 := by
    intro v hv
    have h1 : v.header_size + v.data_size ≤
        (List.map (fun v => v.header_size + v.data_size) values).sum :=
      List.single_le_sum (fun x _ => Nat.zero_le x) _
        (List.mem_map_of_mem _ hv)
    omega
  have hbm_lt : (tupleHeaderFold values).2 < 2 ^ 64 := by
    unfold tupleHeaderFold
    have h := tupleHeaderFoldFrom_snd_lt values 0 (0, 0) (by decide)
    exact lt_of_lt_of_le h (Nat.pow_le_pow_right (by norm_num) (by omega))
  have hdec : decodeTuple schema (Tuple.write_bytes values) =
      toOwnedLoop (tupleHeaderFold values).2 (writeValuesLoop values) schema 0 := by
    unfold decodeTuple Tuple.write_bytes
    rw [tuple_bytes_bitmap_field, tuple_bytes_payload, fromLeBytes_le_bytes,
      Nat.mod_eq_of_lt (lt_of_lt_of_le hbm_lt (by norm_num))]
  have hbit : ∀ k, bitmapIsNull (tupleHeaderFold values).2 (0 + k) = isNullAt values k := by
    intro k
    simpa using tupleHeaderFold_bit values k
  have heq : decodeTuple schema (Tuple.write_bytes values) = values := by
    rw [hdec]
    exact toOwnedLoop_spec values schema (tupleHeaderFold values).2 0 hlen hmatch hwf
      hsz hbit
  refine ⟨heq, ?_⟩
  rw [heq]
  exact List.forall₂_same.mpr fun x _ => eqv_refl x

theorem tuple_serialization_roundtrip_witness :
    decodeTuple
      [⟨DataType.integer, false⟩, ⟨DataType.varchar, false⟩, ⟨DataType.boolean, true⟩,
        ⟨DataType.boolean, false⟩, ⟨DataType.float, false⟩]
      (Tuple.write_bytes
        [Value.integer 42, Value.varchar [104, 105], Value.null, Value.boolean true,
          Value.float 4609434218613702656]) =
      [Value.integer 42, Value.varchar [104, 105], Value.null, Value.boolean true,
        Value.float 4609434218613702656] :=
  (tuple_serialization_roundtrip
    [Value.integer 42, Value.varchar [104, 105], Value.null, Value.boolean true,
      Value.float 4609434218613702656]
    [⟨DataType.integer, false⟩, ⟨DataType.varchar, false⟩, ⟨DataType.boolean, true⟩,
      ⟨DataType.boolean, false⟩, ⟨DataType.float, false⟩]
    (by intro v hv; fin_cases hv <;> norm_num [Value.WF])
    (by rfl) (by rfl)).1

/-! ## C7: buffer pool eviction safety (src/cache/memcache.rs, src/cache/lru.rs) -/

theorem assocLookup_mem {xs : List (Nat × Nat)} {k v : Nat}
    (h : assocLookup xs k = some v) : (k, v) ∈ xs := by
  unfold assocLookup at h
  cases hf : xs.find? fun e => e.1 == k with
  | none => rw [hf] at h; simp at h
  | some p =>
    rw [hf] at h
    simp at h
    have hm := List.mem_of_find?_eq_some hf
    have hp := List.find?_some hf
    simp at hp
    have hpe : p = (k, v) := by
      cases p
      simp_all
    rw [← hpe]
    exact hm

theorem assocLookup_eq_none {xs : List (Nat × Nat)} {k : Nat} :
    assocLookup xs k = none ↔ ∀ p ∈ xs, p.1 ≠ k := by
  simp [assocLookup, List.find?_eq_none]

theorem mem_assocRemove {xs : List (Nat × Nat)} {k : Nat} {p : Nat × Nat} :
    p ∈ assocRemove xs k ↔ p ∈ xs ∧ p.1 ≠ k := by
  simp [assocRemove, List.mem_filter]

theorem assocLookup_append (xs ys : List (Nat × Nat)) (k : Nat) :
    assocLookup (xs ++ ys) k = (assocLookup xs k).or (assocLookup ys k) := by
  unfold assocLookup
  rw [List.find?_append]
  cases xs.find? fun e => e.1 == k <;> simp

theorem assocLookup_cons_ne {p : Nat × Nat} {ps : List (Nat × Nat)} {j : Nat}
    (h : p.1 ≠ j) : assocLookup (p :: ps) j = assocLookup ps j := by
  unfold assocLookup
  rw [List.find?_cons_of_neg _ (by simpa using h)]

theorem assocLookup_cons_eq {p : Nat × Nat} {ps : List (Nat × Nat)} {j : Nat}
    (h : p.1 = j) : assocLookup (p :: ps) j = some p.2 := by
  unfold assocLookup
  rw [List.find?_cons_of_pos _ (by simpa using h)]
  rfl

theorem assocLookup_assocRemove_ne {xs : List (Nat × Nat)} {k j : Nat} (h : j ≠ k) :
    assocLookup (assocRemove xs k) j = assocLookup xs j := by
  induction xs with
  | nil => rfl
  | cons p ps ih =>
    by_cases hp : p.1 = k
    · rw [show assocRemove (p :: ps) k = assocRemove ps k by simp [assocRemove, hp],
        ih, assocLookup_cons_ne (by omega)]
    · rw [show assocRemove (p :: ps) k = p :: assocRemove ps k by
        simp [assocRemove, hp]]
      by_cases hj : p.1 = j
      · rw [assocLookup_cons_eq hj, assocLookup_cons_eq hj]
      · rw [assocLookup_cons_ne hj, assocLookup_cons_ne hj, ih]

theorem assocLookup_assocRemove_self (xs : List (Nat × Nat)) (k : Nat) :
    assocLookup (assocRemove xs k) k = none := by
  unfold assocLookup
  rw [Option.map_eq_none', List.find?_eq_none]
  intro p hp
  have h2 := (mem_assocRemove.mp hp).2
  simpa using h2

theorem assocLookup_assocPush_self (xs : List (Nat × Nat)) (k v : Nat) :
    assocLookup (assocPush xs k v) k = some v := by
  unfold assocPush
  rw [assocLookup_append, assocLookup_assocRemove_self, assocLookup_cons_eq rfl]
  rfl

theorem assocRemove_assocRemove (xs : List (Nat × Nat)) (k : Nat) :
    assocRemove (assocRemove xs k) k = assocRemove xs k := by
  unfold assocRemove
  rw [List.filter_filter]
  simp [Bool.and_self]

theorem assocRemove_assocPush (xs : List (Nat × Nat)) (k v : Nat) :
    assocRemove (assocPush xs k v) k = assocRemove xs k := by
  unfold assocPush assocRemove
  rw [List.filter_append, List.filter_filter]
  simp [Bool.and_self]

theorem mem_assocPush {xs : List (Nat × Nat)} {k v : Nat} {p : Nat × Nat}
    (h : p ∈ assocPush xs k v) : (p ∈ xs ∧ p.1 ≠ k) ∨ p = (k, v) := by
  unfold assocPush at h
  rcases List.mem_append.mp h with h' | h'
  · exact Or.inl (mem_assocRemove.mp h')
  · simp at h'
    exact Or.inr h'

theorem table_snd_inj {xs : List (Nat × Nat)} (hnd : (xs.map Prod.snd).Nodup)
    {k1 k2 v : Nat} (h1 : (k1, v) ∈ xs) (h2 : (k2, v) ∈ xs) : k1 = k2 := by
  have h := List.inj_on_of_nodup_map hnd h1 h2 rfl
  exact congrArg Prod.fst h

theorem assocRemove_perm (k v : Nat) :
    ∀ xs : List (Nat × Nat), (xs.map Prod.fst).Nodup → (k, v) ∈ xs →
      xs.Perm ((k, v) :: assocRemove xs k) := by
  intro xs
  induction xs with
  | nil => intro _ hmem; cases hmem
  | cons p ps ih =>
    intro hnd hmem
    obtain ⟨hp_not, hnd_ps⟩ := List.nodup_cons.mp hnd
    rcases List.mem_cons.mp hmem with rfl | hmem'
    · have hrm : assocRemove ((k, v) :: ps) k = assocRemove ps k := by
        simp [assocRemove]
      have hrm2 : assocRemove ps k = ps := by
        unfold assocRemove
        rw [List.filter_eq_self]
        intro a ha
        have : a.1 ≠ k := by
          intro hc
          have hmm2 : a.1 ∈ ps.map Prod.fst := List.mem_map_of_mem Prod.fst ha
          rw [hc] at hmm2
          exact hp_not hmm2
        simpa using this
      rw [hrm, hrm2]
    · have hp1 : p.1 ≠ k := by
        intro hc
        have hk : k ∈ ps.map Prod.fst := by
          have := List.mem_map_of_mem Prod.fst hmem'
          simpa using this
        rw [← hc] at hk
        exact hp_not hk
      rw [show assocRemove (p :: ps) k = p :: assocRemove ps k by
        simp [assocRemove, hp1]]
      exact (List.Perm.cons p (ih hnd_ps hmem')).trans (List.Perm.swap _ _ _)

theorem qMinEntry_go_mem (q : List (Nat × Nat)) :
    ∀ (acc : Option (Nat × Nat)) (e : Nat × Nat),
      q.foldl
        (fun acc e =>
          match acc with
          | none => some e
          | some m => if e.2 < m.2 then some e else some m) acc = some e →
      e ∈ q ∨ acc = some e := by
  induction q with
  | nil => intro acc e h; exact Or.inr h
  | cons p ps ih =>
    intro acc e h
    rcases ih _ e h with h' | h'
    · exact Or.inl (List.mem_cons_of_mem _ h')
    · cases acc with
      | none =>
        have hpe : p = e := by simpa using h'
        subst hpe
        exact Or.inl (List.mem_cons_self _ _)
      | some m =>
        change (if p.2 < m.2 then some p else some m) = some e at h'
        split at h'
        · have hpe : p = e := Option.some.inj h'
          subst hpe
          exact Or.inl (List.mem_cons_self _ _)
        · exact Or.inr h'

theorem qMinEntry_mem {q : List (Nat × Nat)} {e : Nat × Nat}
    (h : qMinEntry q = some e) : e ∈ q := by
  rcases qMinEntry_go_mem q none e h with h' | h'
  · exact h'
  · simp at h'

theorem mcinv_init (capacity : Nat) : MCInv (MCState.init capacity) := by
  refine ⟨?_, ?_, ?_⟩
  · intro e he
    simp [MCState.init] at he
  · simp [MCState.init]
  · simpa [MCState.init] using List.nodup_range capacity

theorem mcinv_get_page {s s' : MCState} {pid : Nat}
    (inv : MCInv s) (hop : s.get_page pid = some s') : MCInv s' := by
  obtain ⟨hq, hfst, hsnd⟩ := inv
  unfold MCState.get_page at hop
  split at hop
  · exact absurd hop (by simp)
  · rename_i idx hl
    injection hop with hop'
    subst hop'
    refine ⟨?_, hfst, hsnd⟩
    intro e he
    rw [assocRemove_assocPush] at he
    obtain ⟨heq, hne⟩ := mem_assocRemove.mp he
    obtain ⟨ide, hlook, hpin⟩ := hq e heq
    refine ⟨ide, hlook, ?_⟩
    have hne2 : ide ≠ idx := by
      intro hc
      subst hc
      exact hne (table_snd_inj (List.nodup_append.mp hsnd).1
        (assocLookup_mem hlook) (assocLookup_mem hl))
    simpa [pinSet, hne2] using hpin

theorem mcinv_get_page_mut {s s' : MCState} {pid : Nat}
    (inv : MCInv s) (hop : s.get_page_mut pid = some s') : MCInv s' := by
  obtain ⟨hq, hfst, hsnd⟩ := inv
  unfold MCState.get_page_mut at hop
  split at hop
  · exact absurd hop (by simp)
  · rename_i idx hl
    split at hop
    · injection hop with hop'
      subst hop'
      refine ⟨?_, hfst, hsnd⟩
      intro e he
      rw [assocRemove_assocPush] at he
      obtain ⟨heq, hne⟩ := mem_assocRemove.mp he
      obtain ⟨ide, hlook, hpin⟩ := hq e heq
      refine ⟨ide, hlook, ?_⟩
      have hne2 : ide ≠ idx := by
        intro hc
        subst hc
        exact hne (table_snd_inj (List.nodup_append.mp hsnd).1
          (assocLookup_mem hlook) (assocLookup_mem hl))
      simpa [pinSet, hne2] using hpin
    · exact absurd hop (by simp)

theorem mcinv_new_page_mut {s s' : MCState} {pid : Nat}
    (inv : MCInv s) (hop : s.new_page_mut pid = some s') : MCInv s' := by
  obtain ⟨hq, hfst, hsnd⟩ := inv
  unfold MCState.new_page_mut at hop
  split at hop
  · exact absurd hop (by simp)
  · rename_i idx rest hfree
    split at hop
    · exact absurd hop (by simp)
    · rename_i hl
      injection hop with hop'
      subst hop'
      have hsnd' : (s.table.map Prod.snd ++ (idx :: rest)).Nodup := by
        rw [← hfree]
        exact hsnd
      refine ⟨?_, ?_, ?_⟩
      · intro e he
        rw [assocRemove_assocPush] at he
        obtain ⟨heq, hne⟩ := mem_assocRemove.mp he
        obtain ⟨ide, hlook, hpin⟩ := hq e heq
        refine ⟨ide, ?_, ?_⟩
        · rw [assocLookup_append, hlook]
          rfl
        · have hne2 : ide ≠ idx := by
            intro hc
            have hmm : ide ∈ s.table.map Prod.snd :=
              List.mem_map_of_mem _ (assocLookup_mem hlook)
            exact List.disjoint_of_nodup_append hsnd' hmm
              (by rw [hc]; exact List.mem_cons_self _ _)
          simpa [pinSet, hne2] using hpin
      · rw [List.map_append, List.nodup_append]
        refine ⟨hfst, by simp, ?_⟩
        intro a ha hb
        simp at hb
        subst hb
        obtain ⟨p, hp, hp1⟩ := List.mem_map.mp ha
        exact assocLookup_eq_none.mp hl p hp hp1
      · have hre : ((s.table ++ [(pid, idx)]).map Prod.snd) ++ rest =
            s.table.map Prod.snd ++ (idx :: rest) := by
          simp
        rw [hre]
        exact hsnd'

theorem mcinv_remove_page {s s' : MCState} {pid : Nat}
    (inv : MCInv s) (hop : s.remove_page pid = some s') : MCInv s' := by
  obtain ⟨hq, hfst, hsnd⟩ := inv
  unfold MCState.remove_page at hop
  split at hop
  · exact absurd hop (by simp)
  · rename_i idx hl
    split at hop
    · injection hop with hop'
      subst hop'
      have hperm : s.table.Perm ((pid, idx) :: assocRemove s.table pid) :=
        assocRemove_perm pid idx s.table hfst (assocLookup_mem hl)
      refine ⟨?_, ?_, ?_⟩
      · intro e he
        obtain ⟨heq, hne⟩ := mem_assocRemove.mp he
        obtain ⟨ide, hlook, hpin⟩ := hq e heq
        exact ⟨ide, by rw [assocLookup_assocRemove_ne hne]; exact hlook, hpin⟩
      · have h1 : (List.map Prod.fst ((pid, idx) :: assocRemove s.table pid)).Nodup :=
          (hperm.map Prod.fst).nodup hfst
        exact (List.nodup_cons.mp h1).2
      · have h3 : ((idx :: (assocRemove s.table pid).map Prod.snd) ++ s.free_list).Nodup :=
          (List.Perm.append_right s.free_list (hperm.map Prod.snd)).nodup hsnd
        have h4 : (idx :: ((assocRemove s.table pid).map Prod.snd ++ s.free_list)).Perm
            ((((assocRemove s.table pid).map Prod.snd) ++ s.free_list) ++ [idx]) :=
          (List.perm_append_singleton idx _).symm
        have h5 := h4.nodup h3
        rw [← List.append_assoc]
        exact h5
    · exact absurd hop (by simp)

theorem mcinv_drop_ref {s s' : MCState} {pid : Nat}
    (inv : MCInv s) (hop : s.drop_ref pid = some s') : MCInv s' := by
  obtain ⟨hq, hfst, hsnd⟩ := inv
  unfold MCState.drop_ref at hop
  split at hop
  · exact absurd hop (by simp)
  · rename_i idx hl
    split at hop
    · exact absurd hop (by simp)
    · rename_i c hc
      split at hop
      · rename_i hc0
        subst hc0
        split at hop
        · rename_i ts hla
          injection hop with hop'
          subst hop'
          refine ⟨?_, hfst, hsnd⟩
          intro e he
          rcases mem_assocPush he with ⟨heq, hne⟩ | rfl
          · obtain ⟨ide, hlook, hpin⟩ := hq e heq
            refine ⟨ide, hlook, ?_⟩
            by_cases hne2 : ide = idx
            · simp [pinSet, hne2]
            · simpa [pinSet, hne2] using hpin
          · exact ⟨idx, hl, by simp [pinSet]⟩
        · injection hop with hop'
          subst hop'
          refine ⟨?_, hfst, hsnd⟩
          intro e he
          obtain ⟨ide, hlook, hpin⟩ := hq e he
          refine ⟨ide, hlook, ?_⟩
          by_cases hne2 : ide = idx
          · simp [pinSet, hne2]
          · simpa [pinSet, hne2] using hpin
      · rename_i hc0
        injection hop with hop'
        subst hop'
        refine ⟨?_, hfst, hsnd⟩
        intro e he
        obtain ⟨ide, hlook, hpin⟩ := hq e he
        refine ⟨ide, hlook, ?_⟩
        by_cases hne2 : ide = idx
        · rw [hne2, hc] at hpin
          exact absurd hpin (by simp)
        · simpa [pinSet, hne2] using hpin

theorem mcinv_do_evict {s : MCState} (inv : MCInv s) : MCInv s.do_evict.1 := by
  obtain ⟨hq, hfst, hsnd⟩ := inv
  unfold MCState.do_evict
  split
  · split
    · refine ⟨?_, hfst, hsnd⟩
      intro x hx
      exact hq x (mem_assocRemove.mp hx).1
    · exact ⟨hq, hfst, hsnd⟩
  · exact ⟨hq, hfst, hsnd⟩

theorem mcinv_of_reach {s : MCState} (h : MCReach s) : MCInv s := by
  induction h with
  | init capacity => exact mcinv_init capacity
  | get_page _ hop ih => exact mcinv_get_page ih hop
  | get_page_mut _ hop ih => exact mcinv_get_page_mut ih hop
  | new_page_mut _ hop ih => exact mcinv_new_page_mut ih hop
  | remove_page _ hop ih => exact mcinv_remove_page ih hop
  | drop_ref _ hop ih => exact mcinv_drop_ref ih hop
  | evict _ ih => exact mcinv_do_evict ih

/-- C7: buffer pool eviction invariant — in every reachable `MemCache` state,
`evict()` returns `None` whenever the free-list is non-empty (the pool is
not full), and a returned victim is always a resident page whose frame's
pin counter is 0, i.e. one with no outstanding `PageRef`/`PageRefMut`
guard. -/
theorem memcache_evict_safety (s : MCState) (h : MCReach s) :
    (s.free_list ≠ [] → s.do_evict.2 = none) ∧
    (∀ pid, s.do_evict.2 = some pid →
      ∃ idx, assocLookup s.table pid = some idx ∧ s.pins idx = 0) := by
  obtain ⟨hq, _, _⟩ := mcinv_of_reach h
  constructor
  · intro hne
    unfold MCState.do_evict
    rw [if_neg (by simpa [List.isEmpty_iff] using hne)]
  · intro pid hp
    unfold MCState.do_evict at hp
    split at hp
    · split at hp
      · rename_i e he
        simp at hp
        subst hp
        exact hq e (qMinEntry_mem he)
      · simp at hp
    · simp at hp

theorem memcache_evict_safety_witness :
    (MCState.do_evict
        { table := [(7, 0)], free_list := [],
          pins := pinSet (pinSet (fun _ => 0) 0 1) 0 0,
          queue := [(7, 0)], last_access := [(7, 0)], clock := 1 }).2 = some 7 ∧
    (∀ pid,
      (MCState.do_evict
          { table := [(7, 0)], free_list := [],
            pins := pinSet (pinSet (fun _ => 0) 0 1) 0 0,
            queue := [(7, 0)], last_access := [(7, 0)], clock := 1 }).2 = some pid →
      ∃ idx, assocLookup [(7, 0)] pid = some idx ∧
        pinSet (pinSet (fun _ => 0) 0 1) 0 0 idx = 0) := by
  have h1 : (MCState.init 1).new_page_mut 7 =
      some { table := [(7, 0)], free_list := [], pins := pinSet (fun _ => 0) 0 1,
             queue := [], last_access := [(7, 0)], clock := 1 } := rfl
  have h2 : MCState.drop_ref
      { table := [(7, 0)], free_list := [], pins := pinSet (fun _ => 0) 0 1,
        queue := [], last_access := [(7, 0)], clock := 1 } 7 =
      some { table := [(7, 0)], free_list := [],
             pins := pinSet (pinSet (fun _ => 0) 0 1) 0 0,
             queue := [(7, 0)], last_access := [(7, 0)], clock := 1 } := rfl
  refine ⟨rfl, ?_⟩
  exact (memcache_evict_safety _
    (MCReach.drop_ref (MCReach.new_page_mut (MCReach.init 1) h1) h2)).2

/-! ## C1/C5: B+ tree functional correctness (src/indexes/btree.rs) -/

theorem boundedKey_none (k : Nat) : boundedKey none none k :=
  ⟨fun _ h => Option.noConfusion h, fun _ h => Option.noConfusion h⟩

theorem boundedKey_lt_hi {lo : Option Nat} {s k : Nat}
    (hb : boundedKey lo (some s) k) : k < s :=
  hb.2 s rfl

theorem boundedKey_ge_lo {hi : Option Nat} {s k : Nat}
    (hb : boundedKey (some s) hi k) : s ≤ k :=
  hb.1 s rfl

theorem boundedKey_relax_right {lo hi : Option Nat} {s k : Nat}
    (hb : boundedKey lo (some s) k) (hs : boundedSep lo hi s) : boundedKey lo hi k :=
  ⟨hb.1, fun h hh => lt_trans (hb.2 s rfl) (hs.2 h hh)⟩

theorem boundedKey_relax_left {lo hi : Option Nat} {s k : Nat}
    (hb : boundedKey (some s) hi k) (hs : boundedSep lo hi s) : boundedKey lo hi k :=
  ⟨fun l hl => le_of_lt (lt_of_lt_of_le (hs.1 l hl) (hb.1 s rfl)), hb.2⟩

theorem boundedSep_relax_left {lo hi : Option Nat} {s x : Nat}
    (hx : boundedSep (some s) hi x) (hs : boundedSep lo hi s) : boundedSep lo hi x :=
  ⟨fun l hl => lt_trans (hs.1 l hl) (hx.1 s rfl), hx.2⟩

theorem boundedKey_of_boundedSep {lo hi : Option Nat} {s : Nat}
    (hs : boundedSep lo hi s) : boundedKey lo hi s :=
  ⟨fun l hl => le_of_lt (hs.1 l hl), hs.2⟩

theorem kvLookup_append_left {β : Type} (A B : List (Nat × β)) {k : Nat}
    (hB : ∀ q ∈ B, q.1 ≠ k) : kvLookup (A ++ B) k = kvLookup A k := by
  induction A with
  | nil => simpa [kvLookup] using kvLookup_eq_none_of_notMem hB
  | cons a as ih =>
    obtain ⟨ka, va⟩ := a
    by_cases hk : k = ka <;> simp [kvLookup, hk, ih]

theorem kvLookup_append_right {β : Type} (A B : List (Nat × β)) {k : Nat}
    (hA : ∀ q ∈ A, q.1 ≠ k) : kvLookup (A ++ B) k = kvLookup B k := by
  induction A with
  | nil => rfl
  | cons a as ih =>
    obtain ⟨ka, va⟩ := a
    have hne : k ≠ ka := fun h => hA (ka, va) (List.mem_cons_self _ _) h.symm
    simp only [List.cons_append, kvLookup, if_neg hne]
    exact ih fun q hq => hA q (List.mem_cons_of_mem _ hq)

theorem kvErase_append_right {β : Type} (A B : List (Nat × β)) {k : Nat}
    (hA : ∀ q ∈ A, q.1 ≠ k) : kvErase (A ++ B) k = A ++ kvErase B k := by
  induction A with
  | nil => rfl
  | cons a as ih =>
    obtain ⟨ka, va⟩ := a
    have hne : k ≠ ka := fun h => hA _ (List.mem_cons_self _ _) h.symm
    simp only [List.cons_append, kvErase, if_neg hne]
    exact congrArg (List.cons (ka, va)) (ih fun q hq => hA q (List.mem_cons_of_mem _ hq))

theorem kvErase_eq_self_of_notMem {β : Type} {A : List (Nat × β)} {k : Nat}
    (hA : ∀ q ∈ A, q.1 ≠ k) : kvErase A k = A := by
  induction A with
  | nil => rfl
  | cons a as ih =>
    obtain ⟨ka, va⟩ := a
    have hne : k ≠ ka := fun h => hA _ (List.mem_cons_self _ _) h.symm
    simp only [kvErase, if_neg hne]
    exact congrArg (List.cons (ka, va)) (ih fun q hq => hA q (List.mem_cons_of_mem _ hq))

theorem kvErase_append_left {β : Type} (A B : List (Nat × β)) {k : Nat}
    (hB : ∀ q ∈ B, q.1 ≠ k) : kvErase (A ++ B) k = kvErase A k ++ B := by
  induction A with
  | nil => simpa using kvErase_eq_self_of_notMem hB
  | cons a as ih =>
    obtain ⟨ka, va⟩ := a
    by_cases hk : k = ka <;> simp [kvErase, hk, ih]

theorem chain_wf {pages : List BTreePage} {h : Nat}
    (hsub : ∀ pid lo hi kvs used, SubtreeRep pages h pid lo hi kvs used →
      KvSorted kvs ∧ (∀ q ∈ kvs, boundedKey lo hi q.1) ∧
      pid ∈ used ∧ used.Nodup ∧ (∀ q ∈ used, nodePage pages q) ∧ h + 1 ≤ used.length) :
    ∀ (ss : List Nat) (lo hi : Option Nat) (ps : List Nat) kvs used,
      InnerRep pages h lo hi ss ps kvs used →
      KvSorted kvs ∧ (∀ q ∈ kvs, boundedKey lo hi q.1) ∧
      used.Nodup ∧ (∀ q ∈ used, nodePage pages q) ∧ h + 1 ≤ used.length ∧
      (∀ x ∈ ss, boundedSep lo hi x) ∧
      ss.Sorted (· < ·) ∧ ps.length = ss.length + 1 := by
  intro ss
  induction ss with
  | nil =>
    intro lo hi ps kvs used hc
    cases hc with
    | last hrep =>
      obtain ⟨h1, h2, _, h4, h5, h6⟩ := hsub _ _ _ _ _ hrep
      exact ⟨h1, h2, h4, h5, h6, by simp, by simp, by simp⟩
  | cons s ss ih =>
    intro lo hi ps kvs used hc
    cases hc with
    | cons hbs hrep hrest hdisj =>
      obtain ⟨hs1, hb1, _, hn1, hp1, hl1⟩ := hsub _ _ _ _ _ hrep
      obtain ⟨hs2, hb2, hn2, hp2, hl2, hss, hsorted2, hpslen2⟩ := ih _ _ _ _ _ hrest
      refine ⟨?_, ?_, ?_, ?_, ?_, ?_, ?_, ?_⟩
      · rw [KvSorted, List.pairwise_append]
        refine ⟨hs1, hs2, ?_⟩
        intro a ha b hb
        have ha2 := (hb1 a ha).2 s rfl
        have hb2' := (hb2 b hb).1 s rfl
        omega
      · intro q hq
        rcases List.mem_append.mp hq with hq | hq
        · exact boundedKey_relax_right (hb1 q hq) hbs
        · exact boundedKey_relax_left (hb2 q hq) hbs
      · rw [List.nodup_append]
        exact ⟨hn1, hn2, hdisj⟩
      · intro q hq
        rcases List.mem_append.mp hq with hq | hq
        · exact hp1 q hq
        · exact hp2 q hq
      · rw [List.length_append]
        omega
      · intro x hx
        rcases List.mem_cons.mp hx with rfl | hx
        · exact hbs
        · exact boundedSep_relax_left (hss x hx) hbs
      · refine List.sorted_cons.mpr ⟨?_, hsorted2⟩
        intro x hx
        exact (hss x hx).1 s rfl
      · simp [hpslen2]

theorem rep_wf {pages : List BTreePage} : ∀ (h : Nat) (pid : Nat) (lo hi : Option Nat)
    (kvs : List (Nat × RecordId)) (used : List Nat),
    SubtreeRep pages h pid lo hi kvs used →
    KvSorted kvs ∧ (∀ q ∈ kvs, boundedKey lo hi q.1) ∧
    pid ∈ used ∧ used.Nodup ∧ (∀ q ∈ used, nodePage pages q) ∧ h + 1 ≤ used.length := by
  intro h
  induction h with
  | zero =>
    intro pid lo hi kvs used hrep
    cases hrep with
    | leaf hp hsort hlen hcap hb =>
      refine ⟨(kvSorted_zip hlen).mpr hsort, ?_, List.mem_cons_self _ _, by simp, ?_, by simp⟩
      · intro q hq
        obtain ⟨qk, qv⟩ := q
        exact hb qk (List.of_mem_zip hq).1
      · intro q hq
        simp at hq
        subst hq
        exact Or.inl ⟨_, hp⟩
  | succ h ih =>
    intro pid lo hi kvs used hrep
    cases hrep with
    | inner hp hchain hk1 hk2 hnotin =>
      obtain ⟨hs, hb, hn, hpg, hl, _⟩ := chain_wf ih _ _ _ _ _ _ hchain
      refine ⟨hs, hb, List.mem_cons_self _ _, List.nodup_cons.mpr ⟨hnotin, hn⟩, ?_, ?_⟩
      · intro q hq
        rcases List.mem_cons.mp hq with rfl | hq
        · exact Or.inr ⟨_, hp⟩
        · exact hpg q hq
      · simp only [List.length_cons]
        omega

theorem nodePage_lt {pages : List BTreePage} {q : Nat} (h : nodePage pages q) :
    q < pages.length := by
  rcases h with ⟨lp, hp⟩ | ⟨ip, hp⟩ <;>
    exact (List.getElem?_eq_some.mp hp).1

theorem nodePage_ne_super {pages : List BTreePage} {q r : Nat}
    (h : nodePage pages q) (hs : pages[PAGE_RESERVED]? = some (.super r)) :
    q ≠ PAGE_RESERVED := by
  intro hq
  subst hq
  rcases h with ⟨lp, hp⟩ | ⟨ip, hp⟩ <;> rw [hp] at hs <;> simp at hs

theorem chain_frame {pages pages' : List BTreePage} {h : Nat}
    (hsub : ∀ pid lo hi kvs used, SubtreeRep pages h pid lo hi kvs used →
      (∀ q ∈ used, pages'[q]? = pages[q]?) → SubtreeRep pages' h pid lo hi kvs used) :
    ∀ (ss : List Nat) (lo hi : Option Nat) (ps : List Nat) kvs used,
      InnerRep pages h lo hi ss ps kvs used →
      (∀ q ∈ used, pages'[q]? = pages[q]?) →
      InnerRep pages' h lo hi ss ps kvs used := by
  intro ss
  induction ss with
  | nil =>
    intro lo hi ps kvs used hc hfr
    cases hc with
    | last hrep => exact .last (hsub _ _ _ _ _ hrep hfr)
  | cons s ss ih =>
    intro lo hi ps kvs used hc hfr
    cases hc with
    | cons hbs hrep hrest hdisj =>
      exact .cons hbs
        (hsub _ _ _ _ _ hrep fun q hq => hfr q (List.mem_append_left _ hq))
        (ih _ _ _ _ _ hrest fun q hq => hfr q (List.mem_append_right _ hq))
        hdisj

theorem rep_frame {pages pages' : List BTreePage} : ∀ (h : Nat) (pid : Nat)
    (lo hi : Option Nat) (kvs : List (Nat × RecordId)) (used : List Nat),
    SubtreeRep pages h pid lo hi kvs used →
    (∀ q ∈ used, pages'[q]? = pages[q]?) →
    SubtreeRep pages' h pid lo hi kvs used := by
  intro h
  induction h with
  | zero =>
    intro pid lo hi kvs used hrep hfr
    cases hrep with
    | leaf hp hsort hlen hcap hb =>
      exact .leaf (by rw [hfr pid (List.mem_cons_self _ _)]; exact hp) hsort hlen hcap hb
  | succ h ih =>
    intro pid lo hi kvs used hrep hfr
    cases hrep with
    | inner hp hchain hk1 hk2 hnotin =>
      exact .inner (by rw [hfr pid (List.mem_cons_self _ _)]; exact hp)
        (chain_frame ih _ _ _ _ _ _ hchain fun q hq => hfr q (List.mem_cons_of_mem _ hq))
        hk1 hk2 hnotin

theorem boundedSep_relax_right {lo hi : Option Nat} {s x : Nat}
    (hx : boundedSep lo (some s) x) (hs : boundedSep lo hi s) : boundedSep lo hi x :=
  ⟨hx.1, fun h' hh => lt_trans (hx.2 s rfl) (hs.2 h' hh)⟩

theorem binarySearch_inr_zero {ss : List Nat} {key : Nat}
    (h : ∀ x ∈ ss, key < x) : binarySearch ss key = .inr 0 := by
  cases ss with
  | nil => rfl
  | cons s ss => simp [binarySearch, h s (List.mem_cons_self _ _)]

theorem innerRep_route {pages : List BTreePage} {h : Nat} {hi : Option Nat} {key : Nat} :
    ∀ (ss : List Nat) (lo : Option Nat) (ps : List Nat)
      (kvs : List (Nat × RecordId)) (used : List Nat),
      InnerRep pages h lo hi ss ps kvs used →
      boundedKey lo hi key →
      ∃ c clo chi ckvs cused kvsL kvsR usedL usedR,
        (BTreeInnerPage.mk ss ps).search key = c ∧
        SubtreeRep pages h c clo chi ckvs cused ∧
        boundedKey clo chi key ∧
        kvs = kvsL ++ (ckvs ++ kvsR) ∧
        used = usedL ++ (cused ++ usedR) ∧
        (∀ q ∈ kvsL, q.1 < key) ∧
        (∀ q ∈ kvsR, key < q.1) ∧
        (∀ l0, lo = some l0 → ∃ l, clo = some l ∧ l0 ≤ l) ∧
        (∀ (pages' : List BTreePage) (ckvs' : List (Nat × RecordId)) (cused' : List Nat),
          SubtreeRep pages' h c clo chi ckvs' cused' →
          (∀ q ∈ used, q ∉ cused → pages'[q]? = pages[q]?) →
          (∀ q ∈ cused', q ∈ cused ∨ q ∉ used) →
          InnerRep pages' h lo hi ss ps (kvsL ++ (ckvs' ++ kvsR))
            (usedL ++ (cused' ++ usedR))) ∧
        (∀ (pages' : List BTreePage) (sk crid : Nat)
            (ckvsA ckvsB : List (Nat × RecordId)) (cusedA cusedB : List Nat),
          SubtreeRep pages' h c clo (some sk) ckvsA cusedA →
          SubtreeRep pages' h crid (some sk) chi ckvsB cusedB →
          boundedSep clo chi sk →
          (∀ q ∈ used, q ∉ cused → pages'[q]? = pages[q]?) →
          (∀ q ∈ cusedA, q ∈ cused ∨ q ∉ used) →
          (∀ q ∈ cusedB, q ∈ cused ∨ q ∉ used) →
          List.Disjoint cusedA cusedB →
          ∃ pos, binarySearch ss sk = .inr pos ∧
            InnerRep pages' h lo hi (ss.insertIdx pos sk)
              (ps.insertIdx (pos + 1) crid)
              (kvsL ++ ((ckvsA ++ ckvsB) ++ kvsR))
              (usedL ++ ((cusedA ++ cusedB) ++ usedR))) := by
  intro ss
  induction ss with
  | nil =>
    intro lo ps kvs used hc hb
    cases hc with
    | last hrep =>
      refine ⟨_, lo, hi, kvs, used, [], [], [], [], rfl, hrep, hb, by simp, by simp,
        by simp, by simp, fun l0 hl0 => ⟨l0, hl0, le_refl _⟩, ?_, ?_⟩
      · intro pages' ckvs' cused' hrep' _ _
        simpa using InnerRep.last hrep'
      · intro pages' sk crid ckvsA ckvsB cusedA cusedB hA hB hbsk _ _ _ hdAB
        refine ⟨0, rfl, ?_⟩
        simpa using InnerRep.cons hbsk hA (.last hB) hdAB
  | cons s ss' ih =>
    intro lo ps kvs used hc hb
    cases hc with
    | cons hbs hrep hrest hdisj =>
      rename_i p ps' kvs1 kvs2 used1 used2
      by_cases hlt : key < s
      · -- route to the head child
        have hchainfacts := chain_wf (rep_wf h) ss' _ _ _ _ _ hrest
        have hkvs2 : ∀ q ∈ kvs2, key < q.1 := by
          intro q hq
          have := (hchainfacts.2.1 q hq).1 s rfl
          omega
        refine ⟨p, lo, some s, kvs1, used1, [], kvs2, [], used2, ?_, hrep,
          ⟨hb.1, fun h' hh => by cases hh; exact hlt⟩, rfl, rfl, by simp, hkvs2,
          fun l0 hl0 => ⟨l0, hl0, le_refl _⟩, ?_, ?_⟩
        · show BTreeInnerPage.search _ key = p
          unfold BTreeInnerPage.search
          rw [binarySearch_inr_zero]
          · rfl
          · intro x hx
            rcases List.mem_cons.mp hx with rfl | hx
            · exact hlt
            · have := (hchainfacts.2.2.2.2.2.1 x hx).1 s rfl
              omega
        · intro pages' ckvs' cused' hrep' hfr hcond
          show InnerRep pages' h lo hi (s :: ss') (p :: ps') (ckvs' ++ kvs2)
            (cused' ++ used2)
          refine InnerRep.cons hbs hrep' ?_ ?_
          · refine chain_frame (rep_frame h) ss' _ _ _ _ _ hrest fun q hq => ?_
            refine hfr q (List.mem_append_right _ hq) fun hq1 => hdisj hq1 hq
          · intro q hq1 hq2
            rcases hcond q hq1 with hc1 | hc1
            · exact hdisj hc1 hq2
            · exact hc1 (List.mem_append_right _ hq2)
        · intro pages' sk crid ckvsA ckvsB cusedA cusedB hA hB hbsk hfr hcA hcB hdAB
          have hsks : sk < s := hbsk.2 s rfl
          refine ⟨0, by simp [binarySearch, hsks], ?_⟩
          show InnerRep pages' h lo hi (sk :: s :: ss') (p :: crid :: ps')
            ((ckvsA ++ ckvsB) ++ kvs2) ((cusedA ++ cusedB) ++ used2)
          rw [List.append_assoc cusedA cusedB used2, List.append_assoc ckvsA ckvsB kvs2]
          refine InnerRep.cons (boundedSep_relax_right hbsk hbs) hA ?_ ?_
          · show InnerRep pages' h (some sk) hi (s :: ss') (crid :: ps')
              (ckvsB ++ kvs2) (cusedB ++ used2)
            refine InnerRep.cons ⟨fun l hl => by cases hl; exact hsks, hbs.2⟩ hB ?_ ?_
            · refine chain_frame (rep_frame h) ss' _ _ _ _ _ hrest fun q hq => ?_
              refine hfr q (List.mem_append_right _ hq) fun hq1 => hdisj hq1 hq
            · intro q hq1 hq2
              rcases hcB q hq1 with hc1 | hc1
              · exact hdisj hc1 hq2
              · exact hc1 (List.mem_append_right _ hq2)
          · intro q hq1 hq2
            rcases List.mem_append.mp hq2 with hq2 | hq2
            · exact hdAB hq1 hq2
            · rcases hcA q hq1 with hc1 | hc1
              · exact hdisj hc1 hq2
              · exact hc1 (List.mem_append_right _ hq2)
      · -- route into the tail chain
        have hsk : s ≤ key := by omega
        have hb2 : boundedKey (some s) hi key := ⟨fun l hl => by cases hl; exact hsk, hb.2⟩
        obtain ⟨c, clo, chi, ckvs, cused, kvsL', kvsR', usedL', usedR',
          hroute, hcrep, hcb, hkvseq, huseq, hkL, hkR, hclo, hrebuild, hrebuildS⟩ :=
          ih (some s) ps' kvs2 used2 hrest hb2
        have hchainfacts := chain_wf (rep_wf h) ss' _ _ _ _ _ hrest
        have hsubfacts := rep_wf h _ _ _ _ _ hrep
        have hcused_r : ∀ q ∈ cused, q ∈ used2 := by
          intro q hq
          rw [huseq]
          exact List.mem_append_right _ (List.mem_append_left _ hq)
        refine ⟨c, clo, chi, ckvs, cused, kvs1 ++ kvsL', kvsR', used1 ++ usedL', usedR',
          ?_, hcrep, hcb, ?_, ?_, ?_, hkR, ?_, ?_, ?_⟩
        · -- route through the cons cell
          unfold BTreeInnerPage.search at hroute ⊢
          by_cases heq : key = s
          · have hgt : ∀ x ∈ ss', key < x := by
              intro x hx
              have := (hchainfacts.2.2.2.2.2.1 x hx).1 s rfl
              omega
            rw [binarySearch_inr_zero hgt] at hroute
            rw [show binarySearch (s :: ss') key = .inl 0 by simp [binarySearch, hlt, heq]]
            simpa using hroute
          · simp only [binarySearch, if_neg hlt, if_neg heq]
            cases hbs2 : binarySearch ss' key with
            | inl i =>
              rw [hbs2] at hroute
              simpa using hroute
            | inr i =>
              rw [hbs2] at hroute
              simpa using hroute
        · rw [hkvseq, List.append_assoc]
        · rw [huseq, List.append_assoc]
        · intro q hq
          rcases List.mem_append.mp hq with hq | hq
          · have := (hsubfacts.2.1 q hq).2 s rfl
            omega
          · exact hkL q hq
        · intro l0 hl0
          obtain ⟨l, hleq, hle⟩ := hclo s rfl
          have hl0s := hbs.1 l0 hl0
          exact ⟨l, hleq, by omega⟩
        · intro pages' ckvs' cused' hrep' hfr hcond
          rw [List.append_assoc, List.append_assoc]
          refine InnerRep.cons hbs ?_ ?_ ?_
          · refine rep_frame h _ _ _ _ _ hrep fun q hq => ?_
            refine hfr q (List.mem_append_left _ hq) fun hq1 => hdisj hq (hcused_r q hq1)
          · refine hrebuild pages' ckvs' cused' hrep' ?_ ?_
            · intro q hq hq2
              exact hfr q (List.mem_append_right _ hq) hq2
            · intro q hq
              rcases hcond q hq with hc1 | hc1
              · exact Or.inl hc1
              · exact Or.inr fun hq2 => hc1 (List.mem_append_right _ hq2)
          · intro q hq1 hq2
            rw [huseq] at hdisj
            rcases List.mem_append.mp hq2 with hq2 | hq2
            · exact hdisj hq1 (List.mem_append_left _ hq2)
            · rcases List.mem_append.mp hq2 with hq2 | hq2
              · rcases hcond q hq2 with hc1 | hc1
                · exact hdisj hq1 (List.mem_append_right _ (List.mem_append_left _ hc1))
                · exact hc1 (List.mem_append_left _ hq1)
              · exact hdisj hq1 (List.mem_append_right _ (List.mem_append_right _ hq2))
        · intro pages' sk crid ckvsA ckvsB cusedA cusedB hA hB hbsk hfr hcA hcB hdAB
          obtain ⟨l, hleq, hle⟩ := hclo s rfl
          have hssk : s < sk := lt_of_le_of_lt hle (hbsk.1 l hleq)
          obtain ⟨pos, hbspos, hchain'⟩ :=
            hrebuildS pages' sk crid ckvsA ckvsB cusedA cusedB hA hB hbsk
              (fun q hq hq2 => hfr q (List.mem_append_right _ hq) hq2)
              (fun q hq => (hcA q hq).imp_right fun hc hq2 =>
                hc (List.mem_append_right _ hq2))
              (fun q hq => (hcB q hq).imp_right fun hc hq2 =>
                hc (List.mem_append_right _ hq2))
              hdAB
          have hne : key ≠ s → True := fun _ => trivial
          refine ⟨pos + 1, ?_, ?_⟩
          · have hnlt : ¬ sk < s := by omega
            have hneq : sk ≠ s := by omega
            simp [binarySearch, hnlt, hneq, hbspos]
          · show InnerRep pages' h lo hi
              ((s :: ss').insertIdx (pos + 1) sk) ((p :: ps').insertIdx (pos + 1 + 1) crid)
              ((kvs1 ++ kvsL') ++ ((ckvsA ++ ckvsB) ++ kvsR'))
              ((used1 ++ usedL') ++ ((cusedA ++ cusedB) ++ usedR'))
            rw [List.insertIdx_succ_cons, List.insertIdx_succ_cons,
              List.append_assoc kvs1 kvsL' ((ckvsA ++ ckvsB) ++ kvsR'),
              List.append_assoc used1 usedL' ((cusedA ++ cusedB) ++ usedR')]
            refine InnerRep.cons hbs ?_ hchain' ?_
            · refine rep_frame h _ _ _ _ _ hrep fun q hq => ?_
              refine hfr q (List.mem_append_left _ hq) fun hq1 => hdisj hq (hcused_r q hq1)
            · intro q hq1 hq2
              rw [huseq] at hdisj
              rcases List.mem_append.mp hq2 with hq2 | hq2
              · exact hdisj hq1 (List.mem_append_left _ hq2)
              · rcases List.mem_append.mp hq2 with hq2 | hq2
                · rcases List.mem_append.mp hq2 with hq2 | hq2
                  · rcases hcA q hq2 with hc1 | hc1
                    · exact hdisj hq1 (List.mem_append_right _ (List.mem_append_left _ hc1))
                    · exact hc1 (List.mem_append_left _ hq1)
                  · rcases hcB q hq2 with hc1 | hc1
                    · exact hdisj hq1 (List.mem_append_right _ (List.mem_append_left _ hc1))
                    · exact hc1 (List.mem_append_left _ hq1)
                · exact hdisj hq1 (List.mem_append_right _ (List.mem_append_right _ hq2))

theorem rep_descend : ∀ (h : Nat) (pages : List BTreePage) (pid : Nat)
    (lo hi : Option Nat) (kvs : List (Nat × RecordId)) (used : List Nat)
    (key fuel : Nat),
    SubtreeRep pages h pid lo hi kvs used →
    boundedKey lo hi key →
    h < fuel →
    ∃ lpid lp llo lhi kvsL kvsR,
      findLeafGo pages fuel pid key = some lpid ∧
      pages[lpid]? = some (.leaf lp) ∧
      lpid ∈ used ∧
      lp.keys.Sorted (· < ·) ∧
      lp.values.length = lp.keys.length ∧
      lp.keys.length ≤ BTREE_NUM_KEYS ∧
      (∀ k ∈ lp.keys, boundedKey llo lhi k) ∧
      boundedKey llo lhi key ∧
      kvs = kvsL ++ (lp.kvs ++ kvsR) ∧
      (∀ q ∈ kvsL, q.1 < key) ∧
      (∀ q ∈ kvsR, key < q.1) ∧
      (∀ lp' : BTreeLeafPage, lp'.keys.Sorted (· < ·) →
        lp'.values.length = lp'.keys.length →
        lp'.keys.length ≤ BTREE_NUM_KEYS →
        (∀ k ∈ lp'.keys, boundedKey llo lhi k) →
        SubtreeRep (pages.set lpid (.leaf lp')) h pid lo hi
          (kvsL ++ (lp'.kvs ++ kvsR)) used) := by
  intro h
  induction h with
  | zero =>
    intro pages pid lo hi kvs used key fuel hrep hb hfuel
    cases hrep with
    | leaf hp hsort hlen hcap hbk =>
      obtain ⟨f, rfl⟩ : ∃ f, fuel = f + 1 := ⟨fuel - 1, by omega⟩
      refine ⟨pid, _, lo, hi, [], [], ?_, hp, List.mem_cons_self _ _, hsort, hlen, hcap,
        hbk, hb, by simp, by simp, by simp, ?_⟩
      · show findLeafGo pages (f + 1) pid key = some pid
        unfold findLeafGo
        rw [hp]
      · intro lp' hs' hl' hc' hb'
        have hpidlt : pid < pages.length := (List.getElem?_eq_some.mp hp).1
        have hset : (pages.set pid (.leaf lp'))[pid]? = some (.leaf lp') :=
          List.getElem?_set_self hpidlt
        simpa using SubtreeRep.leaf hset hs' hl' hc' hb'
  | succ h ih =>
    intro pages pid lo hi kvs used key fuel hrep hb hfuel
    cases hrep with
    | inner hp hchain hk1 hk2 hnotin =>
      rename_i used2 ip
      obtain ⟨f, rfl⟩ : ∃ f, fuel = f + 1 := ⟨fuel - 1, by omega⟩
      obtain ⟨c, clo, chi, ckvs, cused, kvsL, kvsR, usedL, usedR, hroute, hcrep, hcb,
        hkvseq, huseq, hkL, hkR, _, hrebuild, _⟩ :=
        innerRep_route ip.keys lo ip.pointers kvs used2 hchain hb
      obtain ⟨lpid, lp, llo, lhi, kvsL2, kvsR2, hfind, hlp, hlpmem, hlps, hlpl, hlpc,
        hlbk, hlb, hckvseq, hkL2, hkR2, hrepl⟩ :=
        ih pages c clo chi ckvs cused key f hcrep hcb (by omega)
      have hlp_in_used2 : lpid ∈ used2 := by
        rw [huseq]
        exact List.mem_append_right _ (List.mem_append_left _ hlpmem)
      refine ⟨lpid, lp, llo, lhi, kvsL ++ kvsL2, kvsR2 ++ kvsR, ?_, hlp,
        List.mem_cons_of_mem _ hlp_in_used2, hlps, hlpl, hlpc, hlbk, hlb, ?_, ?_, ?_, ?_⟩
      · show findLeafGo pages (f + 1) pid key = some lpid
        unfold findLeafGo
        rw [hp]
        show findLeafGo pages f (ip.search key) key = some lpid
        have hsearch : ip.search key = c := hroute
        rw [hsearch]
        exact hfind
      · rw [hkvseq, hckvseq]
        simp [List.append_assoc]
      · intro q hq
        rcases List.mem_append.mp hq with hq | hq
        · exact hkL q hq
        · exact hkL2 q hq
      · intro q hq
        rcases List.mem_append.mp hq with hq | hq
        · exact hkR2 q hq
        · exact hkR q hq
      · intro lp' hs' hl' hc' hb'
        have hrep' := hrepl lp' hs' hl' hc' hb'
        have hlpid_ne_pid : lpid ≠ pid := by
          intro hcontra
          exact hnotin (hcontra ▸ hlp_in_used2)
        have hchain' := hrebuild (pages.set lpid (.leaf lp'))
          (kvsL2 ++ (lp'.kvs ++ kvsR2)) cused hrep'
          (fun q hq hq2 => List.getElem?_set_ne (by
            intro hcontra
            exact hq2 (hcontra ▸ hlpmem)))
          (fun q hq => Or.inl hq)
        have hkveq2 : kvsL ++ ((kvsL2 ++ (lp'.kvs ++ kvsR2)) ++ kvsR) =
            (kvsL ++ kvsL2) ++ (lp'.kvs ++ (kvsR2 ++ kvsR)) := by
          simp [List.append_assoc]
        rw [hkveq2, ← huseq] at hchain'
        have hpage' : (pages.set lpid (.leaf lp'))[pid]? = some (.inner ip) := by
          rw [List.getElem?_set_ne hlpid_ne_pid]
          exact hp
        exact SubtreeRep.inner hpage' hchain' hk1 hk2 hnotin

theorem kvLookup_some_mem {β : Type} {kvs : List (Nat × β)} {k : Nat} {v : β}
    (h : kvLookup kvs k = some v) : (k, v) ∈ kvs := by
  induction kvs with
  | nil => simp [kvLookup] at h
  | cons p rest ih =>
    obtain ⟨k0, v0⟩ := p
    by_cases hk : k = k0
    · subst hk
      have h' : v0 = v := by simpa [kvLookup] using h
      subst h'
      exact List.mem_cons_self _ _
    · simp only [kvLookup, if_neg hk] at h
      exact List.mem_cons_of_mem _ (ih h)

theorem rep_fuel {pages : List BTreePage} {h pid : Nat} {lo hi : Option Nat}
    {kvs : List (Nat × RecordId)} {used : List Nat}
    (hsub : SubtreeRep pages h pid lo hi kvs used) : h < pages.length := by
  have hwf := rep_wf h pid lo hi kvs used hsub
  have hmem : used ⊆ List.range pages.length := by
    intro q hq
    rw [List.mem_range]
    exact nodePage_lt (hwf.2.2.2.2.1 q hq)
  have hlen := (hwf.2.2.2.1.subperm hmem).length_le
  rw [List.length_range] at hlen
  have := hwf.2.2.2.2.2
  omega

theorem btreeRep_search {s : BTreeState} {kvs : List (Nat × RecordId)}
    (hrep : BTreeRep s kvs) (key : Nat) : s.search key = kvLookup kvs key := by
  obtain ⟨root, h, used, hsuper, hsub⟩ := hrep
  obtain ⟨lpid, lp, llo, lhi, kvsL, kvsR, hfind, hlp, _, hlps, hlpl, _, _, _, hkvseq,
    hkL, hkR, _⟩ :=
    rep_descend h s.pages root none none kvs used key s.pages.length hsub
      (boundedKey_none key) (rep_fuel hsub)
  have hfl : s.findLeaf key = some lpid := by
    unfold BTreeState.findLeaf BTreeState.rootPageId
    rw [hsuper]
    exact hfind
  unfold BTreeState.search
  rw [hfl]
  show (match s.pages[lpid]? with
    | some (BTreePage.leaf lp) => lp.search key
    | _ => none) = kvLookup kvs key
  rw [hlp]
  show lp.search key = kvLookup kvs key
  have hsearch : lp.search key = kvLookup lp.kvs key :=
    binarySearch_getD_eq_kvLookup lp.keys lp.values ⟨0, 0⟩ key hlps hlpl
  rw [hsearch, hkvseq,
    kvLookup_append_right kvsL _ (fun q hq hc => by have := hkL q hq; omega),
    kvLookup_append_left _ kvsR (fun q hq hc => by have := hkR q hq; omega)]

theorem btreeRep_delete {s : BTreeState} {kvs : List (Nat × RecordId)} {key : Nat}
    (hrep : BTreeRep s kvs) :
    (kvLookup kvs key = none → s.delete key = some (.error .keyNotFound)) ∧
    (∀ v, kvLookup kvs key = some v →
      ∃ s', s.delete key = some (.ok s') ∧ BTreeRep s' (kvErase kvs key)) := by
  obtain ⟨root, h, used, hsuper, hsub⟩ := hrep
  obtain ⟨lpid, lp, llo, lhi, kvsL, kvsR, hfind, hlp, hlpmem, hlps, hlpl, hlpc, hlbk,
    hlb, hkvseq, hkL, hkR, hrepl⟩ :=
    rep_descend h s.pages root none none kvs used key s.pages.length hsub
      (boundedKey_none key) (rep_fuel hsub)
  have hwf := rep_wf h root none none kvs used hsub
  have hfl : s.findLeaf key = some lpid := by
    unfold BTreeState.findLeaf BTreeState.rootPageId
    rw [hsuper]
    exact hfind
  have hlkv : kvLookup kvs key = kvLookup lp.kvs key := by
    rw [hkvseq,
      kvLookup_append_right kvsL _ (fun q hq hc => by have := hkL q hq; omega),
      kvLookup_append_left _ kvsR (fun q hq hc => by have := hkR q hq; omega)]
  constructor
  · intro hnone
    have hnotmem : key ∉ lp.keys := by
      intro hmem
      obtain ⟨pos, hbs, _⟩ := binarySearch_eraseIdx_eq_kvErase lp.keys lp.values key
        hlps hmem hlpl
      have hsome2 : kvLookup lp.kvs key = some (lp.values.getD pos ⟨0, 0⟩) := by
        have e := binarySearch_getD_eq_kvLookup lp.keys lp.values ⟨0, 0⟩ key hlps hlpl
        rw [hbs] at e
        simpa using e.symm
      rw [hlkv, hsome2] at hnone
      simp at hnone
    obtain ⟨pos, hbs, _, _⟩ := binarySearch_insertIdx (β := RecordId) lp.keys key hnotmem
    have hdel2 : lp.delete key = .error .keyNotFound := by
      unfold BTreeLeafPage.delete
      rw [hbs]
    unfold BTreeState.delete
    rw [hfl]
    show (match s.pages[lpid]? with
      | some (BTreePage.leaf lp) =>
        match lp.delete key with
        | Except.ok lp1 => some (Except.ok (BTreeState.mk (s.pages.set lpid (BTreePage.leaf lp1))))
        | Except.error e => some (Except.error e)
      | _ => none) = some (Except.error BTreePageError.keyNotFound)
    rw [hlp]
    show (match lp.delete key with
      | Except.ok lp1 =>
        some (Except.ok (⟨s.pages.set lpid (BTreePage.leaf lp1)⟩ : BTreeState))
      | Except.error e => some (Except.error e)) =
      some (Except.error BTreePageError.keyNotFound)
    rw [hdel2]
  · intro v hsome
    rw [hlkv] at hsome
    have hmem : key ∈ lp.keys := (List.of_mem_zip (kvLookup_some_mem hsome)).1
    obtain ⟨pos, hbs, hz⟩ := binarySearch_eraseIdx_eq_kvErase lp.keys lp.values key
      hlps hmem hlpl
    have hdel : lp.delete key =
        .ok ⟨lp.keys.eraseIdx pos, lp.values.eraseIdx pos, lp.next⟩ := by
      unfold BTreeLeafPage.delete
      rw [hbs]
    have hs' : (lp.keys.eraseIdx pos).Sorted (· < ·) :=
      hlps.sublist (List.eraseIdx_sublist _ _)
    have hl' : (lp.values.eraseIdx pos).length = (lp.keys.eraseIdx pos).length := by
      rw [List.length_eraseIdx, List.length_eraseIdx, hlpl]
    have hc' : (lp.keys.eraseIdx pos).length ≤ BTREE_NUM_KEYS := by
      rw [List.length_eraseIdx]
      split <;> omega
    have hb' : ∀ k ∈ lp.keys.eraseIdx pos, boundedKey llo lhi k := by
      intro k hk
      exact hlbk k ((List.eraseIdx_sublist _ _).subset hk)
    have hrep' := hrepl ⟨lp.keys.eraseIdx pos, lp.values.eraseIdx pos, lp.next⟩
      hs' hl' hc' hb'
    refine ⟨⟨s.pages.set lpid
      (.leaf ⟨lp.keys.eraseIdx pos, lp.values.eraseIdx pos, lp.next⟩)⟩, ?_, ?_⟩
    · unfold BTreeState.delete
      rw [hfl]
      show (match s.pages[lpid]? with
        | some (BTreePage.leaf lp) =>
          match lp.delete key with
          | Except.ok lp1 => some (Except.ok (BTreeState.mk (s.pages.set lpid (BTreePage.leaf lp1))))
          | Except.error e => some (Except.error e)
        | _ => none) =
        some (Except.ok (BTreeState.mk (s.pages.set lpid
          (BTreePage.leaf ⟨lp.keys.eraseIdx pos, lp.values.eraseIdx pos, lp.next⟩))))
      rw [hlp]
      show (match lp.delete key with
        | Except.ok lp1 =>
          some (Except.ok (⟨s.pages.set lpid (BTreePage.leaf lp1)⟩ : BTreeState))
        | Except.error e => some (Except.error e)) = _
      rw [hdel]
    · have hlpid0 : lpid ≠ PAGE_RESERVED :=
        nodePage_ne_super (hwf.2.2.2.2.1 lpid hlpmem) hsuper
      refine ⟨root, h, used, ?_, ?_⟩
      · show (s.pages.set lpid _)[PAGE_RESERVED]? = _
        rw [List.getElem?_set_ne hlpid0]
        exact hsuper
      · have hz' : (⟨lp.keys.eraseIdx pos, lp.values.eraseIdx pos, lp.next⟩ :
            BTreeLeafPage).kvs = kvErase lp.kvs key := hz
        have hkerase : kvErase kvs key = kvsL ++
            ((⟨lp.keys.eraseIdx pos, lp.values.eraseIdx pos, lp.next⟩ :
              BTreeLeafPage).kvs ++ kvsR) := by
          rw [hkvseq,
            kvErase_append_right kvsL _ (fun q hq hc => by have := hkL q hq; omega),
            kvErase_append_left _ kvsR (fun q hq hc => by have := hkR q hq; omega),
            hz']
        rw [hkerase]
        exact hrep'

theorem tryNew_rep : BTreeRep BTreeState.tryNew [] := by
  refine ⟨1, 0, [1], rfl, ?_⟩
  have hp : BTreeState.tryNew.pages[1]? = some (.leaf BTreeLeafPage.init) := rfl
  exact SubtreeRep.leaf hp (by simp [BTreeLeafPage.init])
    (by simp [BTreeLeafPage.init])
    (by norm_num [BTreeLeafPage.init, BTREE_NUM_KEYS, BTREE_BRANCHING_FACTOR])
    (by simp [BTreeLeafPage.init])

theorem binarySearch_inr_facts : ∀ (ss : List Nat) (key pos : Nat),
    binarySearch ss key = .inr pos →
    pos ≤ ss.length ∧ (∀ i, i < pos → ss.getD i 0 < key) ∧
      (pos < ss.length → key < ss.getD pos 0) := by
  intro ss
  induction ss with
  | nil =>
    intro key pos h
    simp only [binarySearch, Sum.inr.injEq] at h
    subst h
    exact ⟨by simp, fun i hi => by omega, by simp⟩
  | cons k ks ih =>
    intro key pos h
    by_cases hlt : key < k
    · simp only [binarySearch, if_pos hlt, Sum.inr.injEq] at h
      subst h
      exact ⟨by simp, fun i hi => by omega, fun _ => hlt⟩
    · by_cases heq : key = k
      · simp [binarySearch, hlt, heq] at h
      · cases hrec : binarySearch ks key with
        | inl i => simp [binarySearch, hlt, heq, hrec] at h
        | inr i =>
          simp only [binarySearch, if_neg hlt, if_neg heq, hrec, Sum.inr.injEq] at h
          subst h
          obtain ⟨h1, h2, h3⟩ := ih key i hrec
          refine ⟨by simp; omega, ?_, ?_⟩
          · intro j hj
            cases j with
            | zero => simpa using by omega
            | succ j => simpa using h2 j (by omega)
          · intro hp
            have : i < ks.length := by simpa using hp
            simpa using h3 this
  -- end

theorem binarySearch_take_inr : ∀ (ss : List Nat) (key pos n : Nat),
    binarySearch ss key = .inr pos → pos ≤ n →
    binarySearch (ss.take n) key = .inr pos := by
  intro ss
  induction ss with
  | nil =>
    intro key pos n h hn
    simpa using h
  | cons k ks ih =>
    intro key pos n h hn
    cases n with
    | zero =>
      have hp0 : pos = 0 := by omega
      subst hp0
      rfl
    | succ n =>
      rw [List.take_succ_cons]
      by_cases hlt : key < k
      · simp only [binarySearch, if_pos hlt, Sum.inr.injEq] at h ⊢
        omega
      · by_cases heq : key = k
        · simp [binarySearch, hlt, heq] at h
        · cases hrec : binarySearch ks key with
          | inl i => simp [binarySearch, hlt, heq, hrec] at h
          | inr i =>
            simp only [binarySearch, if_neg hlt, if_neg heq, hrec, Sum.inr.injEq] at h
            subst h
            simp only [binarySearch, if_neg hlt, if_neg heq]
            rw [ih key i n hrec (by omega)]

theorem binarySearch_drop_inr : ∀ (n : Nat) (ss : List Nat) (key pos : Nat),
    binarySearch ss key = .inr pos → n ≤ pos →
    binarySearch (ss.drop n) key = .inr (pos - n) := by
  intro n
  induction n with
  | zero =>
    intro ss key pos h _
    simpa using h
  | succ n ih =>
    intro ss key pos h hn
    cases ss with
    | nil =>
      simp only [binarySearch, Sum.inr.injEq] at h
      omega
    | cons k ks =>
      by_cases hlt : key < k
      · simp only [binarySearch, if_pos hlt, Sum.inr.injEq] at h
        omega
      · by_cases heq : key = k
        · simp [binarySearch, hlt, heq] at h
        · cases hrec : binarySearch ks key with
          | inl i => simp [binarySearch, hlt, heq, hrec] at h
          | inr i =>
            simp only [binarySearch, if_neg hlt, if_neg heq, hrec, Sum.inr.injEq] at h
            subst h
            rw [List.drop_succ_cons, ih ks key i hrec (by omega)]
            congr 1
            omega

theorem sorted_getD_mono {ss : List Nat} (hs : ss.Sorted (· < ·)) {i j : Nat}
    (hij : i ≤ j) (hj : j < ss.length) : ss.getD i 0 ≤ ss.getD j 0 := by
  rcases Nat.eq_or_lt_of_le hij with rfl | hlt
  · exact le_refl _
  · have hi : i < ss.length := by omega
    rw [List.getD_eq_getElem _ _ hi, List.getD_eq_getElem _ _ hj]
    exact le_of_lt (List.pairwise_iff_get.mp hs ⟨i, hi⟩ ⟨j, hj⟩ hlt)

theorem take_insertIdx_le {α : Type} : ∀ (l : List α) (pos n : Nat) (a : α), pos ≤ n →
    (l.insertIdx pos a).take (n + 1) = (l.take n).insertIdx pos a := by
  intro l
  induction l with
  | nil =>
    intro pos n a hpn
    cases pos with
    | zero => simp
    | succ p => simp
  | cons x xs ih =>
    intro pos n a hpn
    cases pos with
    | zero => simp
    | succ p =>
      cases n with
      | zero => omega
      | succ m =>
        rw [List.insertIdx_succ_cons, List.take_succ_cons, List.take_succ_cons,
          List.insertIdx_succ_cons, ih p m a (by omega)]

theorem take_insertIdx_ge {α : Type} : ∀ (l : List α) (pos n : Nat) (a : α), n ≤ pos →
    (l.insertIdx pos a).take n = l.take n := by
  intro l
  induction l with
  | nil =>
    intro pos n a hnp
    cases pos <;> cases n <;> simp_all
  | cons x xs ih =>
    intro pos n a hnp
    cases n with
    | zero => simp
    | succ m =>
      cases pos with
      | zero => omega
      | succ p =>
        rw [List.insertIdx_succ_cons, List.take_succ_cons, List.take_succ_cons,
          ih p m a (by omega)]

theorem drop_insertIdx_le {α : Type} : ∀ (l : List α) (pos n : Nat) (a : α), pos ≤ n →
    (l.insertIdx pos a).drop (n + 1) = l.drop n := by
  intro l
  induction l with
  | nil =>
    intro pos n a hpn
    cases pos with
    | zero => simp
    | succ p => simp
  | cons x xs ih =>
    intro pos n a hpn
    cases pos with
    | zero =>
      rw [List.insertIdx_zero, List.drop_succ_cons]
    | succ p =>
      cases n with
      | zero => omega
      | succ m =>
        rw [List.insertIdx_succ_cons, List.drop_succ_cons, List.drop_succ_cons]
        exact ih p m a (by omega)

theorem drop_insertIdx_ge {α : Type} : ∀ (n : Nat) (l : List α) (pos : Nat) (a : α),
    n ≤ pos → pos ≤ l.length →
    (l.insertIdx pos a).drop n = (l.drop n).insertIdx (pos - n) a := by
  intro n
  induction n with
  | zero =>
    intro l pos a _ _
    simp
  | succ n ih =>
    intro l pos a hnp hpl
    cases l with
    | nil =>
      simp at hpl
      omega
    | cons x xs =>
      cases pos with
      | zero => omega
      | succ p =>
        rw [List.insertIdx_succ_cons, List.drop_succ_cons, List.drop_succ_cons,
          ih xs p a (by omega) (by simpa using hpl)]
        congr 1
        omega

theorem getD_insertIdx_lt {α : Type} (d : α) : ∀ (l : List α) (pos n : Nat) (a : α),
    n < pos → (l.insertIdx pos a).getD n d = l.getD n d := by
  intro l
  induction l with
  | nil =>
    intro pos n a hnp
    cases pos with
    | zero => omega
    | succ p => simp
  | cons x xs ih =>
    intro pos n a hnp
    cases pos with
    | zero => omega
    | succ p =>
      rw [List.insertIdx_succ_cons]
      cases n with
      | zero => rfl
      | succ m =>
        rw [List.getD_cons_succ, List.getD_cons_succ]
        exact ih p m a (by omega)

theorem getD_insertIdx_succ_ge {α : Type} (d : α) : ∀ (l : List α) (pos n : Nat) (a : α),
    pos ≤ n → (l.insertIdx pos a).getD (n + 1) d = l.getD n d := by
  intro l
  induction l with
  | nil =>
    intro pos n a hpn
    cases pos with
    | zero => simp
    | succ p => simp
  | cons x xs ih =>
    intro pos n a hpn
    cases pos with
    | zero =>
      rw [List.insertIdx_zero, List.getD_cons_succ]
    | succ p =>
      cases n with
      | zero => omega
      | succ m =>
        rw [List.insertIdx_succ_cons, List.getD_cons_succ, List.getD_cons_succ]
        exact ih p m a (by omega)

theorem mem_keys_exists_kv {β : Type} : ∀ (keys : List Nat) (values : List β) (k : Nat),
    values.length = keys.length → k ∈ keys → ∃ v, (k, v) ∈ keys.zip values := by
  intro keys
  induction keys with
  | nil =>
    intro values k _ hk
    cases hk
  | cons k0 ks ih =>
    intro values k hlen hk
    cases values with
    | nil => simp at hlen
    | cons v0 vs =>
      rcases List.mem_cons.mp hk with rfl | hk
      · exact ⟨v0, by rw [List.zip_cons_cons]; exact List.mem_cons_self _ _⟩
      · obtain ⟨v, hv⟩ := ih vs k (by simpa using hlen) hk
        exact ⟨v, by rw [List.zip_cons_cons]; exact List.mem_cons_of_mem _ hv⟩

theorem innerRep_split {pages : List BTreePage} {h : Nat} :
    ∀ (j : Nat) (ss : List Nat) (lo hi : Option Nat) (ps : List Nat)
      (kvs : List (Nat × RecordId)) (used : List Nat),
      InnerRep pages h lo hi ss ps kvs used → j < ss.length →
      ∃ kvs1 kvs2 used1 used2,
        InnerRep pages h lo (some (ss.getD j 0)) (ss.take j) (ps.take (j + 1))
          kvs1 used1 ∧
        InnerRep pages h (some (ss.getD j 0)) hi (ss.drop (j + 1)) (ps.drop (j + 1))
          kvs2 used2 ∧
        kvs = kvs1 ++ kvs2 ∧ used = used1 ++ used2 ∧
        boundedSep lo hi (ss.getD j 0) ∧ used1.Disjoint used2 := by
  intro j
  induction j with
  | zero =>
    intro ss lo hi ps kvs used hc hj
    cases ss with
    | nil => simp at hj
    | cons s ss' =>
      cases hc with
      | cons hbs hrep hrest hdisj =>
        rename_i p ps' kvs1 kvs2 used1 used2
        exact ⟨kvs1, kvs2, used1, used2, .last hrep, hrest, rfl, rfl, hbs, hdisj⟩
  | succ j ih =>
    intro ss lo hi ps kvs used hc hj
    cases ss with
    | nil => simp at hj
    | cons s ss' =>
      cases hc with
      | cons hbs hrep hrest hdisj =>
        rename_i p ps' kvs1 kvs2 used1 used2
        have hj' : j < ss'.length := by simpa using hj
        obtain ⟨kvsA, kvsB, usedA, usedB, hleft, hright, hkv, hus, hbsj, hdAB⟩ :=
          ih ss' (some s) hi ps' kvs2 used2 hrest hj'
        have hssj : s < ss'.getD j 0 := hbsj.1 s rfl
        refine ⟨kvs1 ++ kvsA, kvsB, used1 ++ usedA, usedB, ?_, hright, ?_, ?_, ?_, ?_⟩
        · show InnerRep pages h lo (some (ss'.getD j 0)) (s :: ss'.take j)
            (p :: ps'.take (j + 1)) (kvs1 ++ kvsA) (used1 ++ usedA)
          refine InnerRep.cons ⟨hbs.1, fun h' hh => by cases hh; exact hssj⟩ hrep hleft ?_
          intro q hq1 hq2
          refine hdisj hq1 ?_
          rw [hus]
          exact List.mem_append_left _ hq2
        · rw [hkv, List.append_assoc]
        · rw [hus, List.append_assoc]
        · exact boundedSep_relax_left hbsj hbs
        · intro q hq1 hq2
          rcases List.mem_append.mp hq1 with hq1 | hq1
          · refine hdisj hq1 ?_
            rw [hus]
            exact List.mem_append_right _ hq2
          · exact hdAB hq1 hq2

theorem insertDispatch_inner {s : BTreeState} {pid : Nat} {ip : BTreeInnerPage}
    (hp : s.pages[pid]? = some (BTreePage.inner ip)) (key : Nat) (value : RecordId)
    (fuel : Nat) :
    insertDispatch key value fuel s pid = insertInnerR key value fuel s pid := by
  unfold insertDispatch
  rw [hp]

theorem insertDispatch_leaf {s : BTreeState} {pid : Nat} {lp : BTreeLeafPage}
    (hp : s.pages[pid]? = some (BTreePage.leaf lp)) (key : Nat) (value : RecordId)
    (fuel : Nat) :
    insertDispatch key value fuel s pid = insertLeafAt s pid key value := by
  unfold insertDispatch
  rw [hp]

theorem insertInnerR_step {s : BTreeState} {pid : Nat} {ip : BTreeInnerPage}
    (hp : s.pages[pid]? = some (BTreePage.inner ip)) (key : Nat) (value : RecordId)
    (f : Nat) :
    insertInnerR key value (f + 1) s pid =
      (insertDispatch key value f s (ip.search key)).bind fun (s1, result) =>
        match result with
        | none => some (s1, none)
        | some (split_key, rhs_page_id) =>
          match ip.insert split_key rhs_page_id with
          | InnerInsertResult.inserted ip1 =>
            some (⟨s1.pages.set pid (BTreePage.inner ip1)⟩, none)
          | InnerInsertResult.duplicatePanic => none
          | InnerInsertResult.split =>
            match SplitInner.split ip BTreeInnerPage.initHeader split_key rhs_page_id with
            | none => none
            | some (ipl, ipr, split_key2) =>
              some (⟨(s1.pages.set pid (BTreePage.inner ipl)) ++ [BTreePage.inner ipr]⟩,
                    some (split_key2, s1.pages.length)) := by
  rw [insertInnerR, hp]
  rfl

theorem insertLeafAt_inserted {s : BTreeState} {pid : Nat} {key : Nat}
    {value : RecordId} {lp q : BTreeLeafPage}
    (hp : s.pages[pid]? = some (BTreePage.leaf lp))
    (hins : lp.insert key value = LeafInsertResult.inserted q) :
    insertLeafAt s pid key value = some (⟨s.pages.set pid (BTreePage.leaf q)⟩, none) := by
  unfold insertLeafAt
  rw [hp]
  show (match lp.insert key value with
    | LeafInsertResult.inserted p1 =>
      some ((⟨s.pages.set pid (BTreePage.leaf p1)⟩ : BTreeState),
            (none : Option (Nat × Nat)))
    | LeafInsertResult.duplicatePanic => none
    | LeafInsertResult.split =>
      match SplitLeaf.split lp BTreeLeafPage.init key value with
      | none => none
      | some (lhs1, rhs1, split_key) =>
        some (⟨(s.pages.set pid
            (BTreePage.leaf ⟨lhs1.keys, lhs1.values, s.pages.length⟩)) ++
            [BTreePage.leaf rhs1]⟩,
          some (split_key, s.pages.length))) = _
  rw [hins]

theorem insertLeafAt_split {s : BTreeState} {pid : Nat} {key : Nat}
    {value : RecordId} {lp l1 r1 : BTreeLeafPage} {sep : Nat}
    (hp : s.pages[pid]? = some (BTreePage.leaf lp))
    (hins : lp.insert key value = LeafInsertResult.split)
    (hsp : SplitLeaf.split lp BTreeLeafPage.init key value = some (l1, r1, sep)) :
    insertLeafAt s pid key value =
      some (⟨(s.pages.set pid
          (BTreePage.leaf ⟨l1.keys, l1.values, s.pages.length⟩)) ++
          [BTreePage.leaf r1]⟩,
        some (sep, s.pages.length)) := by
  unfold insertLeafAt
  rw [hp]
  show (match lp.insert key value with
    | LeafInsertResult.inserted p1 =>
      some ((⟨s.pages.set pid (BTreePage.leaf p1)⟩ : BTreeState),
            (none : Option (Nat × Nat)))
    | LeafInsertResult.duplicatePanic => none
    | LeafInsertResult.split =>
      match SplitLeaf.split lp BTreeLeafPage.init key value with
      | none => none
      | some (lhs1, rhs1, split_key) =>
        some (⟨(s.pages.set pid
            (BTreePage.leaf ⟨lhs1.keys, lhs1.values, s.pages.length⟩)) ++
            [BTreePage.leaf rhs1]⟩,
          some (split_key, s.pages.length))) = _
  rw [hins, hsp]

theorem innerPage_insert_eq {ks pts : List Nat} {key rp pos : Nat}
    (hbs : binarySearch ks key = Sum.inr pos) (hroom : ks.length < BTREE_NUM_KEYS) :
    BTreeInnerPage.insert ⟨ks, pts⟩ key rp =
      InnerInsertResult.inserted ⟨ks.insertIdx pos key, pts.insertIdx (pos + 1) rp⟩ := by
  show (match binarySearch ks key with
    | Sum.inl _ => InnerInsertResult.duplicatePanic
    | Sum.inr pos =>
      if ks.length < BTREE_NUM_KEYS then
        InnerInsertResult.inserted ⟨ks.insertIdx pos key, pts.insertIdx (pos + 1) rp⟩
      else InnerInsertResult.split) = _
  rw [hbs]
  simp [hroom]

theorem innerPage_insert_split {ks pts : List Nat} {key rp pos : Nat}
    (hbs : binarySearch ks key = Sum.inr pos)
    (hfull : ¬ ks.length < BTREE_NUM_KEYS) :
    BTreeInnerPage.insert ⟨ks, pts⟩ key rp = InnerInsertResult.split := by
  show (match binarySearch ks key with
    | Sum.inl _ => InnerInsertResult.duplicatePanic
    | Sum.inr pos =>
      if ks.length < BTREE_NUM_KEYS then
        InnerInsertResult.inserted ⟨ks.insertIdx pos key, pts.insertIdx (pos + 1) rp⟩
      else InnerInsertResult.split) = _
  rw [hbs]
  simp [hfull]

theorem innerPage_insertWrite_eq {p : BTreeInnerPage} {key rp : Nat}
    {q : BTreeInnerPage} (h : p.insert key rp = InnerInsertResult.inserted q) :
    p.insertWrite key rp = q := by
  rw [BTreeInnerPage.insertWrite, h]

theorem splitInner_lt_eq (lhs rhs : BTreeInnerPage) (key rp : Nat)
    (hmed : lhs.keys.getD ((lhs.keys.length + 1) / 2 - 1) 0 < key) :
    SplitInner.split lhs rhs key rp =
      some (⟨lhs.keys.take ((lhs.keys.length + 1) / 2 - 1),
             lhs.pointers.take ((lhs.keys.length + 1) / 2 - 1 + 1)⟩,
            BTreeInnerPage.insertWrite
              ⟨lhs.keys.drop ((lhs.keys.length + 1) / 2 - 1 + 1),
               lhs.pointers.drop ((lhs.keys.length + 1) / 2 - 1 + 1)⟩ key rp,
            lhs.keys.getD ((lhs.keys.length + 1) / 2 - 1) 0) := by
  rw [SplitInner.split]
  simp only [if_pos hmed]

theorem splitInner_gt_eq (lhs rhs : BTreeInnerPage) (key rp : Nat)
    (hmed : key < lhs.keys.getD ((lhs.keys.length + 1) / 2 - 1) 0) :
    SplitInner.split lhs rhs key rp =
      some (BTreeInnerPage.insertWrite
              ⟨lhs.keys.take ((lhs.keys.length + 1) / 2 - 1),
               lhs.pointers.take ((lhs.keys.length + 1) / 2 - 1 + 1)⟩ key rp,
            ⟨lhs.keys.drop ((lhs.keys.length + 1) / 2 - 1 + 1),
             lhs.pointers.drop ((lhs.keys.length + 1) / 2 - 1 + 1)⟩,
            lhs.keys.getD ((lhs.keys.length + 1) / 2 - 1) 0) := by
  have hneg : ¬ lhs.keys.getD ((lhs.keys.length + 1) / 2 - 1) 0 < key := by omega
  rw [SplitInner.split]
  simp only [if_neg hneg, if_pos hmed]

theorem getElem?_append_length {α : Type} (l1 l2 : List α) (a : α) (n : Nat)
    (h : l1.length = n) : (l1 ++ a :: l2)[n]? = some a := by
  subst h
  rw [List.getElem?_append_right (le_refl _)]
  simp

/-- Correctness of the recursive insert descent (`insert_leaf` at a leaf,
`insert_inner_r` at an inner page): on a represented subtree whose window
admits the fresh key, the call succeeds, touches no page outside the
subtree, and either absorbs the insert (result `none`) or hands back a
separator and a freshly allocated right sibling whose two subtrees
partition the inserted content. -/
theorem rep_insert_go : ∀ (h : Nat) (pages : List BTreePage) (pid : Nat)
    (lo hi : Option Nat) (kvs : List (Nat × RecordId)) (used : List Nat)
    (key : Nat) (value : RecordId) (fuel : Nat),
    SubtreeRep pages h pid lo hi kvs used →
    boundedKey lo hi key →
    (∀ q ∈ kvs, q.1 ≠ key) →
    h < fuel →
    ∃ s1 r,
      insertDispatch key value fuel ⟨pages⟩ pid = some (s1, r) ∧
      pages.length ≤ s1.pages.length ∧
      (∀ q, q < pages.length → q ∉ used → s1.pages[q]? = pages[q]?) ∧
      ((r = none ∧ ∃ usedN,
          SubtreeRep s1.pages h pid lo hi (kvInsert kvs key value) usedN ∧
          (∀ q ∈ usedN, q ∈ used ∨ (pages.length ≤ q ∧ q < s1.pages.length))) ∨
       (∃ sk rid kvsA kvsB usedA usedB,
         r = some (sk, rid) ∧
         SubtreeRep s1.pages h pid lo (some sk) kvsA usedA ∧
         SubtreeRep s1.pages h rid (some sk) hi kvsB usedB ∧
         kvsA ++ kvsB = kvInsert kvs key value ∧
         boundedSep lo hi sk ∧
         pages.length ≤ rid ∧ rid < s1.pages.length ∧
         (∀ q ∈ usedA, q ∈ used ∨ (pages.length ≤ q ∧ q < s1.pages.length)) ∧
         (∀ q ∈ usedB, q ∈ used ∨ (pages.length ≤ q ∧ q < s1.pages.length)) ∧
         List.Disjoint usedA usedB)) := by
  intro h
  induction h with
  | zero =>
    intro pages pid lo hi kvs used key value fuel hrep hb hfresh hfuel
    cases hrep with
    | leaf hp hsort hlen hcap hbk =>
      rename_i lp
      have hdp : insertDispatch key value fuel ⟨pages⟩ pid =
          insertLeafAt ⟨pages⟩ pid key value := insertDispatch_leaf hp key value fuel
      have hpidlt : pid < pages.length := (List.getElem?_eq_some.mp hp).1
      have hnot : key ∉ lp.keys := by
        intro hmem
        obtain ⟨v, hv⟩ := mem_keys_exists_kv lp.keys lp.values key hlen hmem
        exact hfresh (key, v) hv rfl
      have hins_bound : ∀ q ∈ kvInsert lp.kvs key value, boundedKey lo hi q.1 := by
        intro q hq
        rcases mem_kvInsert.mp hq with rfl | hq
        · exact hb
        · obtain ⟨qk, qv⟩ := q
          exact hbk qk (List.of_mem_zip hq).1
      by_cases hroom : lp.keys.length < BTREE_NUM_KEYS
      · -- room in the leaf: in-place sorted insert
        obtain ⟨q, hins, hqkvs, hqnext, hqklen, hqvlen⟩ := leaf_insert_inserted hnot hroom hlen
        refine ⟨⟨pages.set pid (BTreePage.leaf q)⟩, none, ?_, ?_, ?_,
          Or.inl ⟨rfl, [pid], ?_, ?_⟩⟩
        · rw [hdp]
          exact insertLeafAt_inserted hp hins
        · show pages.length ≤ (pages.set pid (BTreePage.leaf q)).length
          rw [List.length_set]
        · intro q2 hq2 hq2used
          have hne : pid ≠ q2 := fun hc => hq2used (by rw [← hc]; exact List.mem_cons_self _ _)
          exact List.getElem?_set_ne hne
        · have hpage : (pages.set pid (BTreePage.leaf q))[pid]? = some (BTreePage.leaf q) :=
            List.getElem?_set_self hpidlt
          have hqsort : q.keys.Sorted (· < ·) := by
            refine (kvSorted_zip hqvlen).mp ?_
            show KvSorted q.kvs
            rw [hqkvs]
            exact kvInsert_sorted ((kvSorted_zip hlen).mpr hsort) hfresh
          have hqcap : q.keys.length ≤ BTREE_NUM_KEYS := by omega
          have hqbnd : ∀ k ∈ q.keys, boundedKey lo hi k := by
            intro k hk
            obtain ⟨v, hv⟩ := mem_keys_exists_kv q.keys q.values k hqvlen hk
            refine hins_bound (k, v) ?_
            rw [← hqkvs]
            exact hv
          have hval := SubtreeRep.leaf hpage hqsort hqvlen hqcap hqbnd
          rw [← hqkvs]
          exact hval
        · intro q2 hq2
          exact Or.inl hq2
      · -- full leaf: split and distribute
        have hfull : lp.keys.length = BTREE_NUM_KEYS := by omega
        have hsplit : lp.insert key value = LeafInsertResult.split :=
          leaf_insert_split_full hnot hfull
        obtain ⟨l1, r1, sep, hspliteq, hkvscat, hl1lt, hr1ge, hl1s, hr1s, hr1head,
          hl1next, hr1next, hl1len, hr1len, hl1ge1, hl1le, hr1ge1, hr1le, hside⟩ :=
          splitLeaf_spec lp BTreeLeafPage.init key value hsort hnot hfull hlen
        refine ⟨⟨(pages.set pid (BTreePage.leaf ⟨l1.keys, l1.values, pages.length⟩)) ++
            [BTreePage.leaf r1]⟩, some (sep, pages.length), ?_, ?_, ?_, ?_⟩
        · rw [hdp]
          exact insertLeafAt_split hp hsplit hspliteq
        · show pages.length ≤ ((pages.set pid (BTreePage.leaf
              ⟨l1.keys, l1.values, pages.length⟩)) ++ [BTreePage.leaf r1]).length
          rw [List.length_append, List.length_set]
          omega
        · intro q2 hq2 hq2used
          have hne : pid ≠ q2 := fun hc => hq2used (by rw [← hc]; exact List.mem_cons_self _ _)
          show ((pages.set pid (BTreePage.leaf ⟨l1.keys, l1.values, pages.length⟩)) ++
              [BTreePage.leaf r1])[q2]? = pages[q2]?
          rw [List.getElem?_append_left (by rw [List.length_set]; exact hq2),
            List.getElem?_set_ne hne]
        · have happl : ((pages.set pid (BTreePage.leaf ⟨l1.keys, l1.values, pages.length⟩)) ++
              [BTreePage.leaf r1])[pid]? =
              some (BTreePage.leaf ⟨l1.keys, l1.values, pages.length⟩) := by
            rw [List.getElem?_append_left (by rw [List.length_set]; exact hpidlt)]
            exact List.getElem?_set_self hpidlt
          have happr : ((pages.set pid (BTreePage.leaf ⟨l1.keys, l1.values, pages.length⟩)) ++
              [BTreePage.leaf r1])[pages.length]? = some (BTreePage.leaf r1) :=
            getElem?_append_length _ _ _ _ (by rw [List.length_set])
          have hlbound : ∀ q2 ∈ l1.kvs, boundedKey lo hi q2.1 := by
            intro q2 hq2
            refine hins_bound q2 ?_
            rw [← hkvscat]
            exact List.mem_append_left _ hq2
          have hrbound : ∀ q2 ∈ r1.kvs, boundedKey lo hi q2.1 := by
            intro q2 hq2
            refine hins_bound q2 ?_
            rw [← hkvscat]
            exact List.mem_append_right _ hq2
          have hsep_mem : sep ∈ r1.keys := by
            cases hr : r1.keys with
            | nil => rw [hr] at hr1head; simp at hr1head
            | cons a as =>
              rw [hr] at hr1head
              simp only [List.head?_cons, Option.some.injEq] at hr1head
              rw [hr1head]
              exact List.mem_cons_self _ _
          obtain ⟨sv, hsv⟩ := mem_keys_exists_kv r1.keys r1.values sep hr1len hsep_mem
          have hbsep : boundedSep lo hi sep := by
            constructor
            · intro l0 hl0
              have hne : l1.keys ≠ [] := by
                intro hc
                rw [hc] at hl1ge1
                simp at hl1ge1
              obtain ⟨k0, hk0⟩ := List.exists_mem_of_ne_nil _ hne
              obtain ⟨v0, hv0⟩ := mem_keys_exists_kv l1.keys l1.values k0 hl1len hk0
              have h1 := (hlbound (k0, v0) hv0).1 l0 hl0
              have h2 := hl1lt (k0, v0) hv0
              omega
            · intro h0 hh0
              exact (hrbound (sep, sv) hsv).2 h0 hh0
          refine Or.inr ⟨sep, pages.length,
            (⟨l1.keys, l1.values, pages.length⟩ : BTreeLeafPage).kvs, r1.kvs,
            [pid], [pages.length], rfl,
            ?_, ?_, hkvscat, hbsep, le_refl _, ?_, ?_, ?_, ?_⟩
          · have hbl : ∀ k2 ∈ l1.keys, boundedKey lo (some sep) k2 := by
              intro k2 hk2
              obtain ⟨v2, hv2⟩ := mem_keys_exists_kv l1.keys l1.values k2 hl1len hk2
              refine ⟨(hlbound (k2, v2) hv2).1, ?_⟩
              intro hv heq
              injection heq with heq2
              subst heq2
              exact hl1lt (k2, v2) hv2
            exact SubtreeRep.leaf happl hl1s hl1len hl1le hbl
          · have hbr : ∀ k2 ∈ r1.keys, boundedKey (some sep) hi k2 := by
              intro k2 hk2
              obtain ⟨v2, hv2⟩ := mem_keys_exists_kv r1.keys r1.values k2 hr1len hk2
              refine ⟨?_, (hrbound (k2, v2) hv2).2⟩
              intro l2 heq
              injection heq with heq2
              subst heq2
              exact hr1ge (k2, v2) hv2
            exact SubtreeRep.leaf happr hr1s hr1len hr1le hbr
          · have hlen2 : ((pages.set pid (BTreePage.leaf
                ⟨l1.keys, l1.values, pages.length⟩)) ++
                [BTreePage.leaf r1]).length = pages.length + 1 := by
              simp [List.length_set]
            show pages.length < ((pages.set pid (BTreePage.leaf
                ⟨l1.keys, l1.values, pages.length⟩)) ++ [BTreePage.leaf r1]).length
            omega
          · intro q2 hq2
            simp only [List.mem_singleton] at hq2
            subst hq2
            exact Or.inl (List.mem_cons_self _ _)
          · intro q2 hq2
            simp only [List.mem_singleton] at hq2
            subst hq2
            refine Or.inr ⟨le_refl _, ?_⟩
            have hlen2 : ((pages.set pid (BTreePage.leaf
                ⟨l1.keys, l1.values, pages.length⟩)) ++
                [BTreePage.leaf r1]).length = pages.length + 1 := by
              simp [List.length_set]
            show pages.length < ((pages.set pid (BTreePage.leaf
                ⟨l1.keys, l1.values, pages.length⟩)) ++ [BTreePage.leaf r1]).length
            omega
          · intro a ha hb2
            simp only [List.mem_singleton] at ha hb2
            omega
  | succ h ih =>
    intro pages pid lo hi kvs used key value fuel hrep hb hfresh hfuel
    cases hrep with
    | inner hp hchain hk1 hk2 hnotin =>
      rename_i used2 ip
      obtain ⟨f, rfl⟩ : ∃ f, fuel = f + 1 := ⟨fuel - 1, by omega⟩
      have hpidlt : pid < pages.length := (List.getElem?_eq_some.mp hp).1
      obtain ⟨hkvsort, hkvbnd, hu2nodup, hu2node, hu2len, hsepbnd, hsortss, hpslen⟩ :=
        chain_wf (rep_wf h) ip.keys lo hi ip.pointers kvs used2 hchain
      have hused2lt : ∀ q ∈ used2, q < pages.length := fun q hq => nodePage_lt (hu2node q hq)
      obtain ⟨c, clo, chi, ckvs, cused, kvsL, kvsR, usedL, usedR, hroute, hcrep, hcb,
        hkvseq, huseq, hkL, hkR, hclo, hrebuild, hrebuildS⟩ :=
        innerRep_route ip.keys lo ip.pointers kvs used2 hchain hb
      have hsearch : ip.search key = c := hroute
      have hcused_sub : ∀ q ∈ cused, q ∈ used2 := by
        intro q hq
        rw [huseq]
        exact List.mem_append_right _ (List.mem_append_left _ hq)
      have hcfresh : ∀ q ∈ ckvs, q.1 ≠ key := by
        intro q hq
        refine hfresh q ?_
        rw [hkvseq]
        exact List.mem_append_right _ (List.mem_append_left _ hq)
      obtain ⟨s1, r, hcall, hlen1, hframe1, houtcome⟩ :=
        ih pages c clo chi ckvs cused key value f hcrep hcb hcfresh (by omega)
      have hframe2 : ∀ q ∈ used2, q ∉ cused → s1.pages[q]? = pages[q]? := fun q hq hq2 =>
        hframe1 q (hused2lt q hq) hq2
      have hkvins : kvInsert kvs key value = kvsL ++ (kvInsert ckvs key value ++ kvsR) := by
        rw [hkvseq, kvInsert_append_right (ckvs ++ kvsR) hkL, kvInsert_append_left ckvs hkR]
      have hdp : insertDispatch key value (f + 1) ⟨pages⟩ pid =
          insertInnerR key value (f + 1) ⟨pages⟩ pid :=
        insertDispatch_inner hp key value (f + 1)
      have hstep := insertInnerR_step (s := ⟨pages⟩) hp key value f
      rw [hsearch, hcall] at hstep
      rcases houtcome with ⟨rfl, usedC, hsubC, hcondC⟩ |
        ⟨sk0, rid0, kvsA, kvsB, usedA, usedB, rfl, hsubA, hsubB, hkvAB, hbsep0,
          hridge, hridlt, hcondA, hcondB, hdAB⟩
      · -- the child absorbed the insert in place
        have hcondC2 : ∀ q ∈ usedC, q ∈ cused ∨ q ∉ used2 := by
          intro q hq
          rcases hcondC q hq with hc | hc
          · exact Or.inl hc
          · exact Or.inr fun hq2 => by have := hused2lt q hq2; omega
        have hchain2 := hrebuild s1.pages (kvInsert ckvs key value) usedC hsubC
          hframe2 hcondC2
        refine ⟨s1, none, ?_, hlen1, ?_,
          Or.inl ⟨rfl, pid :: (usedL ++ (usedC ++ usedR)), ?_, ?_⟩⟩
        · rw [hdp, hstep]
          rfl
        · intro q hq hqused
          refine hframe1 q hq fun hqc => hqused ?_
          exact List.mem_cons_of_mem _ (hcused_sub q hqc)
        · have hpage1 : s1.pages[pid]? = some (BTreePage.inner ip) := by
            rw [hframe1 pid hpidlt fun hc => hnotin (hcused_sub pid hc)]
            exact hp
          have hnotin2 : pid ∉ usedL ++ (usedC ++ usedR) := by
            intro hc
            rcases List.mem_append.mp hc with hc1 | hc1
            · exact hnotin (by rw [huseq]; exact List.mem_append_left _ hc1)
            · rcases List.mem_append.mp hc1 with hc2 | hc2
              · rcases hcondC pid hc2 with hc3 | hc3
                · exact hnotin (hcused_sub pid hc3)
                · omega
              · exact hnotin (by
                  rw [huseq]
                  exact List.mem_append_right _ (List.mem_append_right _ hc2))
          rw [hkvins]
          exact SubtreeRep.inner hpage1 hchain2 hk1 hk2 hnotin2
        · intro q hq
          rcases List.mem_cons.mp hq with rfl | hq
          · exact Or.inl (List.mem_cons_self _ _)
          · rcases List.mem_append.mp hq with hc1 | hc1
            · exact Or.inl (List.mem_cons_of_mem _
                (by rw [huseq]; exact List.mem_append_left _ hc1))
            · rcases List.mem_append.mp hc1 with hc2 | hc2
              · rcases hcondC q hc2 with hc3 | hc3
                · exact Or.inl (List.mem_cons_of_mem _ (hcused_sub q hc3))
                · exact Or.inr hc3
              · exact Or.inl (List.mem_cons_of_mem _
                  (by rw [huseq]; exact List.mem_append_right _ (List.mem_append_right _ hc2)))
      · -- the child split: absorb (sk0, rid0) into this inner page
        have hcondA2 : ∀ q ∈ usedA, q ∈ cused ∨ q ∉ used2 := by
          intro q hq
          rcases hcondA q hq with hc | hc
          · exact Or.inl hc
          · exact Or.inr fun hq2 => by have := hused2lt q hq2; omega
        have hcondB2 : ∀ q ∈ usedB, q ∈ cused ∨ q ∉ used2 := by
          intro q hq
          rcases hcondB q hq with hc | hc
          · exact Or.inl hc
          · exact Or.inr fun hq2 => by have := hused2lt q hq2; omega
        obtain ⟨pos, hbspos, hchain2⟩ := hrebuildS s1.pages sk0 rid0 kvsA kvsB usedA usedB
          hsubA hsubB hbsep0 hframe2 hcondA2 hcondB2 hdAB
        obtain ⟨hposle, hbelow, habove⟩ := binarySearch_inr_facts ip.keys sk0 pos hbspos
        have hbigkvs : kvsL ++ ((kvsA ++ kvsB) ++ kvsR) = kvInsert kvs key value := by
          rw [hkvins, ← hkvAB]
        have hbigcond : ∀ q ∈ usedL ++ ((usedA ++ usedB) ++ usedR),
            q ∈ used2 ∨ (pages.length ≤ q ∧ q < s1.pages.length) := by
          intro q hq
          rcases List.mem_append.mp hq with hc1 | hc1
          · exact Or.inl (by rw [huseq]; exact List.mem_append_left _ hc1)
          · rcases List.mem_append.mp hc1 with hc2 | hc2
            · rcases List.mem_append.mp hc2 with hc3 | hc3
              · rcases hcondA q hc3 with hc4 | hc4
                · exact Or.inl (hcused_sub q hc4)
                · exact Or.inr hc4
              · rcases hcondB q hc3 with hc4 | hc4
                · exact Or.inl (hcused_sub q hc4)
                · exact Or.inr hc4
            · exact Or.inl (by
                rw [huseq]
                exact List.mem_append_right _ (List.mem_append_right _ hc2))
        have hbignotpid : pid ∉ usedL ++ ((usedA ++ usedB) ++ usedR) := by
          intro hc
          rcases hbigcond pid hc with hc1 | hc1
          · exact hnotin hc1
          · omega
        have hbiglt : ∀ q ∈ usedL ++ ((usedA ++ usedB) ++ usedR), q < s1.pages.length := by
          intro q hq
          rcases hbigcond q hq with hc1 | hc1
          · have := hused2lt q hc1
            omega
          · omega
        by_cases hroom : ip.keys.length < BTREE_NUM_KEYS
        · -- room in this inner page: the separator is absorbed here
          have hinseq : ip.insert sk0 rid0 = InnerInsertResult.inserted
              ⟨ip.keys.insertIdx pos sk0, ip.pointers.insertIdx (pos + 1) rid0⟩ :=
            innerPage_insert_eq hbspos hroom
          have hklen2 : (ip.keys.insertIdx pos sk0).length = ip.keys.length + 1 :=
            List.length_insertIdx _ _ (by omega)
          refine ⟨⟨s1.pages.set pid (BTreePage.inner
              ⟨ip.keys.insertIdx pos sk0, ip.pointers.insertIdx (pos + 1) rid0⟩)⟩, none,
            ?_, ?_, ?_, Or.inl ⟨rfl, pid :: (usedL ++ ((usedA ++ usedB) ++ usedR)),
              ?_, ?_⟩⟩
          · rw [hdp, hstep]
            show (match ip.insert sk0 rid0 with
              | InnerInsertResult.inserted ip1 =>
                some ((⟨s1.pages.set pid (BTreePage.inner ip1)⟩ : BTreeState),
                      (none : Option (Nat × Nat)))
              | InnerInsertResult.duplicatePanic => none
              | InnerInsertResult.split =>
                match SplitInner.split ip BTreeInnerPage.initHeader sk0 rid0 with
                | none => none
                | some (ipl2, ipr2, split_key2) =>
                  some (⟨(s1.pages.set pid (BTreePage.inner ipl2)) ++
                      [BTreePage.inner ipr2]⟩,
                    some (split_key2, s1.pages.length))) = _
            rw [hinseq]
          · show pages.length ≤ (s1.pages.set pid (BTreePage.inner
                ⟨ip.keys.insertIdx pos sk0, ip.pointers.insertIdx (pos + 1) rid0⟩)).length
            rw [List.length_set]
            exact hlen1
          · intro q hq hqused
            have hqne : pid ≠ q := fun hc => hqused (by rw [← hc]; exact List.mem_cons_self _ _)
            show (s1.pages.set pid (BTreePage.inner
                ⟨ip.keys.insertIdx pos sk0, ip.pointers.insertIdx (pos + 1) rid0⟩))[q]? =
              pages[q]?
            rw [List.getElem?_set_ne hqne]
            exact hframe1 q hq fun hc => hqused (List.mem_cons_of_mem _ (hcused_sub q hc))
          · have hchain3 : InnerRep (s1.pages.set pid (BTreePage.inner
                ⟨ip.keys.insertIdx pos sk0, ip.pointers.insertIdx (pos + 1) rid0⟩)) h lo hi
                (ip.keys.insertIdx pos sk0) (ip.pointers.insertIdx (pos + 1) rid0)
                (kvsL ++ ((kvsA ++ kvsB) ++ kvsR)) (usedL ++ ((usedA ++ usedB) ++ usedR)) :=
              chain_frame (rep_frame h) (ip.keys.insertIdx pos sk0) lo hi
                (ip.pointers.insertIdx (pos + 1) rid0) (kvsL ++ ((kvsA ++ kvsB) ++ kvsR))
                (usedL ++ ((usedA ++ usedB) ++ usedR)) hchain2
                (fun q hq => List.getElem?_set_ne
                  (fun hc : pid = q => hbignotpid (by rw [hc]; exact hq)))
            have hpage2 : (s1.pages.set pid (BTreePage.inner
                ⟨ip.keys.insertIdx pos sk0, ip.pointers.insertIdx (pos + 1) rid0⟩))[pid]? =
                some (BTreePage.inner ⟨ip.keys.insertIdx pos sk0,
                  ip.pointers.insertIdx (pos + 1) rid0⟩) :=
              List.getElem?_set_self (by omega)
            rw [← hbigkvs]
            refine SubtreeRep.inner hpage2 hchain3 ?_ ?_ hbignotpid
            · show 1 ≤ (ip.keys.insertIdx pos sk0).length
              omega
            · show (ip.keys.insertIdx pos sk0).length ≤ BTREE_NUM_KEYS
              omega
          · intro q hq
            rcases List.mem_cons.mp hq with rfl | hq
            · exact Or.inl (List.mem_cons_self _ _)
            · rcases hbigcond q hq with hc1 | hc1
              · exact Or.inl (List.mem_cons_of_mem _ hc1)
              · refine Or.inr ⟨hc1.1, ?_⟩
                show q < (s1.pages.set pid (BTreePage.inner
                  ⟨ip.keys.insertIdx pos sk0, ip.pointers.insertIdx (pos + 1) rid0⟩)).length
                rw [List.length_set]
                omega
        · -- this inner page is full as well: split it around key 169
          have hfull : ip.keys.length = BTREE_NUM_KEYS := by omega
          have h340 : ip.keys.length = 340 := hfull
          have hpl341 : ip.pointers.length = 341 := by omega
          have e169 : (ip.keys.length + 1) / 2 - 1 = 169 := by rw [h340]
          have hss1len : (ip.keys.insertIdx pos sk0).length = 341 := by
            rw [List.length_insertIdx _ _ (by omega)]
            omega
          have hinsfull : ip.insert sk0 rid0 = InnerInsertResult.split :=
            innerPage_insert_split hbspos hroom
          rcases Nat.lt_trichotomy (ip.keys.getD 169 0) sk0 with hsplt | hspeq | hspgt
          · -- separator goes to the right sibling
            have hpos170 : 170 ≤ pos := by
              by_contra hcon
              push_neg at hcon
              have h2 := habove (by omega)
              have h3 := sorted_getD_mono hsortss (show pos ≤ 169 by omega) (by omega)
              omega
            have hbsdrop : binarySearch (ip.keys.drop 170) sk0 = Sum.inr (pos - 170) :=
              binarySearch_drop_inr 170 ip.keys sk0 pos hbspos hpos170
            have hdroplen : (ip.keys.drop 170).length = 170 := by
              rw [List.length_drop]
              omega
            have hroomdrop : (ip.keys.drop 170).length < BTREE_NUM_KEYS := by
              rw [hdroplen]
              decide
            have hW : BTreeInnerPage.insertWrite ⟨ip.keys.drop 170, ip.pointers.drop 170⟩
                sk0 rid0 = ⟨(ip.keys.drop 170).insertIdx (pos - 170) sk0,
                  (ip.pointers.drop 170).insertIdx (pos - 170 + 1) rid0⟩ :=
              innerPage_insertWrite_eq (innerPage_insert_eq hbsdrop hroomdrop)
            have hspl := splitInner_lt_eq ip BTreeInnerPage.initHeader sk0 rid0
              (by rw [e169]; exact hsplt)
            rw [e169] at hspl
            have hspl2 : SplitInner.split ip BTreeInnerPage.initHeader sk0 rid0 =
                some (⟨ip.keys.take 169, ip.pointers.take 170⟩,
                  BTreeInnerPage.insertWrite ⟨ip.keys.drop 170, ip.pointers.drop 170⟩
                    sk0 rid0,
                  ip.keys.getD 169 0) := hspl
            rw [hW] at hspl2
            obtain ⟨kvs1, kvs2, used1, usedT2, hchL0, hchR0, hkvsplit, husplit, hbs169, hd12⟩ :=
              innerRep_split 169 (ip.keys.insertIdx pos sk0) lo hi
                (ip.pointers.insertIdx (pos + 1) rid0) (kvsL ++ ((kvsA ++ kvsB) ++ kvsR))
                (usedL ++ ((usedA ++ usedB) ++ usedR)) hchain2 (by omega)
            have hchL : InnerRep s1.pages h lo
                (some ((ip.keys.insertIdx pos sk0).getD 169 0))
                ((ip.keys.insertIdx pos sk0).take 169)
                ((ip.pointers.insertIdx (pos + 1) rid0).take 170) kvs1 used1 := hchL0
            have hchR : InnerRep s1.pages h
                (some ((ip.keys.insertIdx pos sk0).getD 169 0)) hi
                ((ip.keys.insertIdx pos sk0).drop 170)
                ((ip.pointers.insertIdx (pos + 1) rid0).drop 170) kvs2 usedT2 := hchR0
            have hgetD : (ip.keys.insertIdx pos sk0).getD 169 0 = ip.keys.getD 169 0 :=
              getD_insertIdx_lt 0 ip.keys pos 169 sk0 (by omega)
            have htakeK : (ip.keys.insertIdx pos sk0).take 169 = ip.keys.take 169 :=
              take_insertIdx_ge ip.keys pos 169 sk0 (by omega)
            have htakeP : (ip.pointers.insertIdx (pos + 1) rid0).take 170 =
                ip.pointers.take 170 :=
              take_insertIdx_ge ip.pointers (pos + 1) 170 rid0 (by omega)
            have hdropK : (ip.keys.insertIdx pos sk0).drop 170 =
                (ip.keys.drop 170).insertIdx (pos - 170) sk0 :=
              drop_insertIdx_ge 170 ip.keys pos sk0 (by omega) (by omega)
            have hdropP : (ip.pointers.insertIdx (pos + 1) rid0).drop 170 =
                (ip.pointers.drop 170).insertIdx (pos - 170 + 1) rid0 := by
              have h1 := drop_insertIdx_ge 170 ip.pointers (pos + 1) rid0 (by omega) (by omega)
              rw [show pos + 1 - 170 = pos - 170 + 1 from by omega] at h1
              exact h1
            rw [htakeK, htakeP, hgetD] at hchL
            rw [hdropK, hdropP, hgetD] at hchR
            rw [hgetD] at hbs169
            have hiprk : ((ip.keys.drop 170).insertIdx (pos - 170) sk0).length = 171 := by
              rw [List.length_insertIdx _ _ (by rw [hdroplen]; omega), hdroplen]
            have hiplk : (ip.keys.take 169).length = 169 := by
              rw [List.length_take]
              omega
            have hframeL2 : ∀ q ∈ usedL ++ ((usedA ++ usedB) ++ usedR),
                ((s1.pages.set pid (BTreePage.inner ⟨ip.keys.take 169, ip.pointers.take 170⟩))
                  ++ [BTreePage.inner ⟨(ip.keys.drop 170).insertIdx (pos - 170) sk0,
                    (ip.pointers.drop 170).insertIdx (pos - 170 + 1) rid0⟩])[q]? =
                s1.pages[q]? := by
              intro q hq
              have hqlt := hbiglt q hq
              have hqne : pid ≠ q := fun hc => hbignotpid (by rw [hc]; exact hq)
              rw [List.getElem?_append_left (by rw [List.length_set]; exact hqlt),
                List.getElem?_set_ne hqne]
            have hchL2 := chain_frame (rep_frame h) (ip.keys.take 169) lo
              (some (ip.keys.getD 169 0)) (ip.pointers.take 170) kvs1 used1 hchL
              (fun q hq => hframeL2 q (by rw [husplit]; exact List.mem_append_left _ hq))
            have hchR2 := chain_frame (rep_frame h)
              ((ip.keys.drop 170).insertIdx (pos - 170) sk0)
              (some (ip.keys.getD 169 0)) hi
              ((ip.pointers.drop 170).insertIdx (pos - 170 + 1) rid0) kvs2 usedT2 hchR
              (fun q hq => hframeL2 q (by rw [husplit]; exact List.mem_append_right _ hq))
            have hpagel : ((s1.pages.set pid (BTreePage.inner
                ⟨ip.keys.take 169, ip.pointers.take 170⟩))
                ++ [BTreePage.inner ⟨(ip.keys.drop 170).insertIdx (pos - 170) sk0,
                  (ip.pointers.drop 170).insertIdx (pos - 170 + 1) rid0⟩])[pid]? =
                some (BTreePage.inner ⟨ip.keys.take 169, ip.pointers.take 170⟩) := by
              rw [List.getElem?_append_left (by rw [List.length_set]; omega)]
              exact List.getElem?_set_self (by omega)
            have hpager : ((s1.pages.set pid (BTreePage.inner
                ⟨ip.keys.take 169, ip.pointers.take 170⟩))
                ++ [BTreePage.inner ⟨(ip.keys.drop 170).insertIdx (pos - 170) sk0,
                  (ip.pointers.drop 170).insertIdx (pos - 170 + 1) rid0⟩])[s1.pages.length]? =
                some (BTreePage.inner ⟨(ip.keys.drop 170).insertIdx (pos - 170) sk0,
                  (ip.pointers.drop 170).insertIdx (pos - 170 + 1) rid0⟩) :=
              getElem?_append_length _ _ _ _ (by rw [List.length_set])
            have hrepL : SubtreeRep ((s1.pages.set pid (BTreePage.inner
                ⟨ip.keys.take 169, ip.pointers.take 170⟩))
                ++ [BTreePage.inner ⟨(ip.keys.drop 170).insertIdx (pos - 170) sk0,
                  (ip.pointers.drop 170).insertIdx (pos - 170 + 1) rid0⟩]) (h + 1) pid lo
                (some (ip.keys.getD 169 0)) kvs1 (pid :: used1) := by
              refine SubtreeRep.inner hpagel hchL2 ?_ ?_ ?_
              · show 1 ≤ (ip.keys.take 169).length
                omega
              · show (ip.keys.take 169).length ≤ BTREE_NUM_KEYS
                have hnum : BTREE_NUM_KEYS = 340 := rfl
                omega
              · intro hc
                exact hbignotpid (by rw [husplit]; exact List.mem_append_left _ hc)
            have hridnew : s1.pages.length ∉ usedT2 := by
              intro hc
              have := hbiglt s1.pages.length
                (by rw [husplit]; exact List.mem_append_right _ hc)
              omega
            have hrepR : SubtreeRep ((s1.pages.set pid (BTreePage.inner
                ⟨ip.keys.take 169, ip.pointers.take 170⟩))
                ++ [BTreePage.inner ⟨(ip.keys.drop 170).insertIdx (pos - 170) sk0,
                  (ip.pointers.drop 170).insertIdx (pos - 170 + 1) rid0⟩]) (h + 1)
                s1.pages.length (some (ip.keys.getD 169 0)) hi kvs2
                (s1.pages.length :: usedT2) := by
              refine SubtreeRep.inner hpager hchR2 ?_ ?_ hridnew
              · show 1 ≤ ((ip.keys.drop 170).insertIdx (pos - 170) sk0).length
                omega
              · show ((ip.keys.drop 170).insertIdx (pos - 170) sk0).length ≤ BTREE_NUM_KEYS
                have hnum : BTREE_NUM_KEYS = 340 := rfl
                omega
            have hlen2 : ((s1.pages.set pid (BTreePage.inner
                ⟨ip.keys.take 169, ip.pointers.take 170⟩))
                ++ [BTreePage.inner ⟨(ip.keys.drop 170).insertIdx (pos - 170) sk0,
                  (ip.pointers.drop 170).insertIdx (pos - 170 + 1) rid0⟩]).length =
                s1.pages.length + 1 := by
              simp [List.length_set]
            refine ⟨⟨(s1.pages.set pid (BTreePage.inner
                ⟨ip.keys.take 169, ip.pointers.take 170⟩))
                ++ [BTreePage.inner ⟨(ip.keys.drop 170).insertIdx (pos - 170) sk0,
                  (ip.pointers.drop 170).insertIdx (pos - 170 + 1) rid0⟩]⟩,
              some (ip.keys.getD 169 0, s1.pages.length), ?_, ?_, ?_,
              Or.inr ⟨ip.keys.getD 169 0, s1.pages.length, kvs1, kvs2,
                pid :: used1, s1.pages.length :: usedT2, rfl, hrepL, hrepR,
                ?_, ?_, hlen1, ?_, ?_, ?_, ?_⟩⟩
            · rw [hdp, hstep]
              show (match ip.insert sk0 rid0 with
                | InnerInsertResult.inserted ip1 =>
                  some ((⟨s1.pages.set pid (BTreePage.inner ip1)⟩ : BTreeState),
                        (none : Option (Nat × Nat)))
                | InnerInsertResult.duplicatePanic => none
                | InnerInsertResult.split =>
                  match SplitInner.split ip BTreeInnerPage.initHeader sk0 rid0 with
                  | none => none
                  | some (ipl2, ipr2, split_key2) =>
                    some (⟨(s1.pages.set pid (BTreePage.inner ipl2)) ++
                        [BTreePage.inner ipr2]⟩,
                      some (split_key2, s1.pages.length))) = _
              rw [hinsfull, hspl2]
            · show pages.length ≤ ((s1.pages.set pid (BTreePage.inner
                  ⟨ip.keys.take 169, ip.pointers.take 170⟩))
                  ++ [BTreePage.inner ⟨(ip.keys.drop 170).insertIdx (pos - 170) sk0,
                    (ip.pointers.drop 170).insertIdx (pos - 170 + 1) rid0⟩]).length
              omega
            · intro q hq hqused
              have hqne : pid ≠ q := fun hc =>
                hqused (by rw [← hc]; exact List.mem_cons_self _ _)
              show ((s1.pages.set pid (BTreePage.inner
                  ⟨ip.keys.take 169, ip.pointers.take 170⟩))
                  ++ [BTreePage.inner ⟨(ip.keys.drop 170).insertIdx (pos - 170) sk0,
                    (ip.pointers.drop 170).insertIdx (pos - 170 + 1) rid0⟩])[q]? = pages[q]?
              rw [List.getElem?_append_left (by rw [List.length_set]; omega),
                List.getElem?_set_ne hqne]
              exact hframe1 q hq fun hc => hqused (List.mem_cons_of_mem _ (hcused_sub q hc))
            · rw [← hkvsplit]
              exact hbigkvs
            · exact hbs169
            · show s1.pages.length < ((s1.pages.set pid (BTreePage.inner
                  ⟨ip.keys.take 169, ip.pointers.take 170⟩))
                  ++ [BTreePage.inner ⟨(ip.keys.drop 170).insertIdx (pos - 170) sk0,
                    (ip.pointers.drop 170).insertIdx (pos - 170 + 1) rid0⟩]).length
              omega
            · intro q hq
              rcases List.mem_cons.mp hq with rfl | hq
              · exact Or.inl (List.mem_cons_self _ _)
              · rcases hbigcond q (by rw [husplit]; exact List.mem_append_left _ hq)
                  with hc1 | hc1
                · exact Or.inl (List.mem_cons_of_mem _ hc1)
                · refine Or.inr ⟨hc1.1, ?_⟩
                  show q < ((s1.pages.set pid (BTreePage.inner
                    ⟨ip.keys.take 169, ip.pointers.take 170⟩))
                    ++ [BTreePage.inner ⟨(ip.keys.drop 170).insertIdx (pos - 170) sk0,
                      (ip.pointers.drop 170).insertIdx (pos - 170 + 1) rid0⟩]).length
                  omega
            · intro q hq
              rcases List.mem_cons.mp hq with rfl | hq
              · refine Or.inr ⟨hlen1, ?_⟩
                show s1.pages.length < ((s1.pages.set pid (BTreePage.inner
                  ⟨ip.keys.take 169, ip.pointers.take 170⟩))
                  ++ [BTreePage.inner ⟨(ip.keys.drop 170).insertIdx (pos - 170) sk0,
                    (ip.pointers.drop 170).insertIdx (pos - 170 + 1) rid0⟩]).length
                omega
              · rcases hbigcond q (by rw [husplit]; exact List.mem_append_right _ hq)
                  with hc1 | hc1
                · exact Or.inl (List.mem_cons_of_mem _ hc1)
                · refine Or.inr ⟨hc1.1, ?_⟩
                  show q < ((s1.pages.set pid (BTreePage.inner
                    ⟨ip.keys.take 169, ip.pointers.take 170⟩))
                    ++ [BTreePage.inner ⟨(ip.keys.drop 170).insertIdx (pos - 170) sk0,
                      (ip.pointers.drop 170).insertIdx (pos - 170 + 1) rid0⟩]).length
                  omega
            · intro a ha hb2
              rcases List.mem_cons.mp ha with rfl | ha
              · rcases List.mem_cons.mp hb2 with heq | hb2
                · omega
                · exact hbignotpid (by rw [husplit]; exact List.mem_append_right _ hb2)
              · rcases List.mem_cons.mp hb2 with heq | hb2
                · have := hbiglt a (by rw [husplit]; exact List.mem_append_left _ ha)
                  omega
                · exact hd12 ha hb2
          · -- sk0 can never equal the median key
            exfalso
            rcases Nat.lt_or_ge pos 170 with hc | hc
            · have h2 := habove (by omega)
              have h3 := sorted_getD_mono hsortss (show pos ≤ 169 by omega) (by omega)
              omega
            · have h2 := hbelow 169 (by omega)
              omega
          · -- separator goes to the left sibling
            have hpos169 : pos ≤ 169 := by
              by_contra hcon
              push_neg at hcon
              have h2 := hbelow 169 (by omega)
              omega
            have hbstake : binarySearch (ip.keys.take 169) sk0 = Sum.inr pos :=
              binarySearch_take_inr ip.keys sk0 pos 169 hbspos hpos169
            have htakelen : (ip.keys.take 169).length = 169 := by
              rw [List.length_take]
              omega
            have hroomtake : (ip.keys.take 169).length < BTREE_NUM_KEYS := by
              rw [htakelen]
              decide
            have hW : BTreeInnerPage.insertWrite ⟨ip.keys.take 169, ip.pointers.take 170⟩
                sk0 rid0 = ⟨(ip.keys.take 169).insertIdx pos sk0,
                  (ip.pointers.take 170).insertIdx (pos + 1) rid0⟩ :=
              innerPage_insertWrite_eq (innerPage_insert_eq hbstake hroomtake)
            have hspl := splitInner_gt_eq ip BTreeInnerPage.initHeader sk0 rid0
              (by rw [e169]; exact hspgt)
            rw [e169] at hspl
            have hspl2 : SplitInner.split ip BTreeInnerPage.initHeader sk0 rid0 =
                some (BTreeInnerPage.insertWrite
                    ⟨ip.keys.take 169, ip.pointers.take 170⟩ sk0 rid0,
                  ⟨ip.keys.drop 170, ip.pointers.drop 170⟩,
                  ip.keys.getD 169 0) := hspl
            rw [hW] at hspl2
            obtain ⟨kvs1, kvs2, used1, usedT2, hchL0, hchR0, hkvsplit, husplit, hbs170, hd12⟩ :=
              innerRep_split 170 (ip.keys.insertIdx pos sk0) lo hi
                (ip.pointers.insertIdx (pos + 1) rid0) (kvsL ++ ((kvsA ++ kvsB) ++ kvsR))
                (usedL ++ ((usedA ++ usedB) ++ usedR)) hchain2 (by omega)
            have hchL : InnerRep s1.pages h lo
                (some ((ip.keys.insertIdx pos sk0).getD 170 0))
                ((ip.keys.insertIdx pos sk0).take 170)
                ((ip.pointers.insertIdx (pos + 1) rid0).take 171) kvs1 used1 := hchL0
            have hchR : InnerRep s1.pages h
                (some ((ip.keys.insertIdx pos sk0).getD 170 0)) hi
                ((ip.keys.insertIdx pos sk0).drop 171)
                ((ip.pointers.insertIdx (pos + 1) rid0).drop 171) kvs2 usedT2 := hchR0
            have hgetD : (ip.keys.insertIdx pos sk0).getD 170 0 = ip.keys.getD 169 0 := by
              have h1 := getD_insertIdx_succ_ge 0 ip.keys pos 169 sk0 hpos169
              simpa using h1
            have htakeK : (ip.keys.insertIdx pos sk0).take 170 =
                (ip.keys.take 169).insertIdx pos sk0 := by
              have h1 := take_insertIdx_le ip.keys pos 169 sk0 hpos169
              simpa using h1
            have htakeP : (ip.pointers.insertIdx (pos + 1) rid0).take 171 =
                (ip.pointers.take 170).insertIdx (pos + 1) rid0 := by
              have h1 := take_insertIdx_le ip.pointers (pos + 1) 170 rid0 (by omega)
              simpa using h1
            have hdropK : (ip.keys.insertIdx pos sk0).drop 171 = ip.keys.drop 170 := by
              have h1 := drop_insertIdx_le ip.keys pos 170 sk0 (by omega)
              simpa using h1
            have hdropP : (ip.pointers.insertIdx (pos + 1) rid0).drop 171 =
                ip.pointers.drop 170 := by
              have h1 := drop_insertIdx_le ip.pointers (pos + 1) 170 rid0 (by omega)
              simpa using h1
            rw [htakeK, htakeP, hgetD] at hchL
            rw [hdropK, hdropP, hgetD] at hchR
            rw [hgetD] at hbs170
            have hiplk : ((ip.keys.take 169).insertIdx pos sk0).length = 170 := by
              rw [List.length_insertIdx _ _ (by rw [htakelen]; omega), htakelen]
            have hiprk : (ip.keys.drop 170).length = 170 := by
              rw [List.length_drop]
              omega
            have hframeL2 : ∀ q ∈ usedL ++ ((usedA ++ usedB) ++ usedR),
                ((s1.pages.set pid (BTreePage.inner
                  ⟨(ip.keys.take 169).insertIdx pos sk0,
                   (ip.pointers.take 170).insertIdx (pos + 1) rid0⟩))
                  ++ [BTreePage.inner ⟨ip.keys.drop 170, ip.pointers.drop 170⟩])[q]? =
                s1.pages[q]? := by
              intro q hq
              have hqlt := hbiglt q hq
              have hqne : pid ≠ q := fun hc => hbignotpid (by rw [hc]; exact hq)
              rw [List.getElem?_append_left (by rw [List.length_set]; exact hqlt),
                List.getElem?_set_ne hqne]
            have hchL2 := chain_frame (rep_frame h) ((ip.keys.take 169).insertIdx pos sk0) lo
              (some (ip.keys.getD 169 0)) ((ip.pointers.take 170).insertIdx (pos + 1) rid0)
              kvs1 used1 hchL
              (fun q hq => hframeL2 q (by rw [husplit]; exact List.mem_append_left _ hq))
            have hchR2 := chain_frame (rep_frame h) (ip.keys.drop 170)
              (some (ip.keys.getD 169 0)) hi (ip.pointers.drop 170) kvs2 usedT2 hchR
              (fun q hq => hframeL2 q (by rw [husplit]; exact List.mem_append_right _ hq))
            have hpagel : ((s1.pages.set pid (BTreePage.inner
                ⟨(ip.keys.take 169).insertIdx pos sk0,
                 (ip.pointers.take 170).insertIdx (pos + 1) rid0⟩))
                ++ [BTreePage.inner ⟨ip.keys.drop 170, ip.pointers.drop 170⟩])[pid]? =
                some (BTreePage.inner ⟨(ip.keys.take 169).insertIdx pos sk0,
                  (ip.pointers.take 170).insertIdx (pos + 1) rid0⟩) := by
              rw [List.getElem?_append_left (by rw [List.length_set]; omega)]
              exact List.getElem?_set_self (by omega)
            have hpager : ((s1.pages.set pid (BTreePage.inner
                ⟨(ip.keys.take 169).insertIdx pos sk0,
                 (ip.pointers.take 170).insertIdx (pos + 1) rid0⟩))
                ++ [BTreePage.inner ⟨ip.keys.drop 170,
                  ip.pointers.drop 170⟩])[s1.pages.length]? =
                some (BTreePage.inner ⟨ip.keys.drop 170, ip.pointers.drop 170⟩) :=
              getElem?_append_length _ _ _ _ (by rw [List.length_set])
            have hrepL : SubtreeRep ((s1.pages.set pid (BTreePage.inner
                ⟨(ip.keys.take 169).insertIdx pos sk0,
                 (ip.pointers.take 170).insertIdx (pos + 1) rid0⟩))
                ++ [BTreePage.inner ⟨ip.keys.drop 170, ip.pointers.drop 170⟩]) (h + 1) pid lo
                (some (ip.keys.getD 169 0)) kvs1 (pid :: used1) := by
              refine SubtreeRep.inner hpagel hchL2 ?_ ?_ ?_
              · show 1 ≤ ((ip.keys.take 169).insertIdx pos sk0).length
                omega
              · show ((ip.keys.take 169).insertIdx pos sk0).length ≤ BTREE_NUM_KEYS
                have hnum : BTREE_NUM_KEYS = 340 := rfl
                omega
              · intro hc
                exact hbignotpid (by rw [husplit]; exact List.mem_append_left _ hc)
            have hridnew : s1.pages.length ∉ usedT2 := by
              intro hc
              have := hbiglt s1.pages.length
                (by rw [husplit]; exact List.mem_append_right _ hc)
              omega
            have hrepR : SubtreeRep ((s1.pages.set pid (BTreePage.inner
                ⟨(ip.keys.take 169).insertIdx pos sk0,
                 (ip.pointers.take 170).insertIdx (pos + 1) rid0⟩))
                ++ [BTreePage.inner ⟨ip.keys.drop 170, ip.pointers.drop 170⟩]) (h + 1)
                s1.pages.length (some (ip.keys.getD 169 0)) hi kvs2
                (s1.pages.length :: usedT2) := by
              refine SubtreeRep.inner hpager hchR2 ?_ ?_ hridnew
              · show 1 ≤ (ip.keys.drop 170).length
                omega
              · show (ip.keys.drop 170).length ≤ BTREE_NUM_KEYS
                have hnum : BTREE_NUM_KEYS = 340 := rfl
                omega
            have hlen2 : ((s1.pages.set pid (BTreePage.inner
                ⟨(ip.keys.take 169).insertIdx pos sk0,
                 (ip.pointers.take 170).insertIdx (pos + 1) rid0⟩))
                ++ [BTreePage.inner ⟨ip.keys.drop 170, ip.pointers.drop 170⟩]).length =
                s1.pages.length + 1 := by
              simp [List.length_set]
            refine ⟨⟨(s1.pages.set pid (BTreePage.inner
                ⟨(ip.keys.take 169).insertIdx pos sk0,
                 (ip.pointers.take 170).insertIdx (pos + 1) rid0⟩))
                ++ [BTreePage.inner ⟨ip.keys.drop 170, ip.pointers.drop 170⟩]⟩,
              some (ip.keys.getD 169 0, s1.pages.length), ?_, ?_, ?_,
              Or.inr ⟨ip.keys.getD 169 0, s1.pages.length, kvs1, kvs2,
                pid :: used1, s1.pages.length :: usedT2, rfl, hrepL, hrepR,
                ?_, ?_, hlen1, ?_, ?_, ?_, ?_⟩⟩
            · rw [hdp, hstep]
              show (match ip.insert sk0 rid0 with
                | InnerInsertResult.inserted ip1 =>
                  some ((⟨s1.pages.set pid (BTreePage.inner ip1)⟩ : BTreeState),
                        (none : Option (Nat × Nat)))
                | InnerInsertResult.duplicatePanic => none
                | InnerInsertResult.split =>
                  match SplitInner.split ip BTreeInnerPage.initHeader sk0 rid0 with
                  | none => none
                  | some (ipl2, ipr2, split_key2) =>
                    some (⟨(s1.pages.set pid (BTreePage.inner ipl2)) ++
                        [BTreePage.inner ipr2]⟩,
                      some (split_key2, s1.pages.length))) = _
              rw [hinsfull, hspl2]
            · show pages.length ≤ ((s1.pages.set pid (BTreePage.inner
                  ⟨(ip.keys.take 169).insertIdx pos sk0,
                   (ip.pointers.take 170).insertIdx (pos + 1) rid0⟩))
                  ++ [BTreePage.inner ⟨ip.keys.drop 170, ip.pointers.drop 170⟩]).length
              omega
            · intro q hq hqused
              have hqne : pid ≠ q := fun hc =>
                hqused (by rw [← hc]; exact List.mem_cons_self _ _)
              show ((s1.pages.set pid (BTreePage.inner
                  ⟨(ip.keys.take 169).insertIdx pos sk0,
                   (ip.pointers.take 170).insertIdx (pos + 1) rid0⟩))
                  ++ [BTreePage.inner ⟨ip.keys.drop 170, ip.pointers.drop 170⟩])[q]? =
                pages[q]?
              rw [List.getElem?_append_left (by rw [List.length_set]; omega),
                List.getElem?_set_ne hqne]
              exact hframe1 q hq fun hc => hqused (List.mem_cons_of_mem _ (hcused_sub q hc))
            · rw [← hkvsplit]
              exact hbigkvs
            · exact hbs170
            · show s1.pages.length < ((s1.pages.set pid (BTreePage.inner
                  ⟨(ip.keys.take 169).insertIdx pos sk0,
                   (ip.pointers.take 170).insertIdx (pos + 1) rid0⟩))
                  ++ [BTreePage.inner ⟨ip.keys.drop 170, ip.pointers.drop 170⟩]).length
              omega
            · intro q hq
              rcases List.mem_cons.mp hq with rfl | hq
              · exact Or.inl (List.mem_cons_self _ _)
              · rcases hbigcond q (by rw [husplit]; exact List.mem_append_left _ hq)
                  with hc1 | hc1
                · exact Or.inl (List.mem_cons_of_mem _ hc1)
                · refine Or.inr ⟨hc1.1, ?_⟩
                  show q < ((s1.pages.set pid (BTreePage.inner
                    ⟨(ip.keys.take 169).insertIdx pos sk0,
                     (ip.pointers.take 170).insertIdx (pos + 1) rid0⟩))
                    ++ [BTreePage.inner ⟨ip.keys.drop 170, ip.pointers.drop 170⟩]).length
                  omega
            · intro q hq
              rcases List.mem_cons.mp hq with rfl | hq
              · refine Or.inr ⟨hlen1, ?_⟩
                show s1.pages.length < ((s1.pages.set pid (BTreePage.inner
                  ⟨(ip.keys.take 169).insertIdx pos sk0,
                   (ip.pointers.take 170).insertIdx (pos + 1) rid0⟩))
                  ++ [BTreePage.inner ⟨ip.keys.drop 170, ip.pointers.drop 170⟩]).length
                omega
              · rcases hbigcond q (by rw [husplit]; exact List.mem_append_right _ hq)
                  with hc1 | hc1
                · exact Or.inl (List.mem_cons_of_mem _ hc1)
                · refine Or.inr ⟨hc1.1, ?_⟩
                  show q < ((s1.pages.set pid (BTreePage.inner
                    ⟨(ip.keys.take 169).insertIdx pos sk0,
                     (ip.pointers.take 170).insertIdx (pos + 1) rid0⟩))
                    ++ [BTreePage.inner ⟨ip.keys.drop 170, ip.pointers.drop 170⟩]).length
                  omega
            · intro a ha hb2
              rcases List.mem_cons.mp ha with rfl | ha
              · rcases List.mem_cons.mp hb2 with heq | hb2
                · omega
                · exact hbignotpid (by rw [husplit]; exact List.mem_append_right _ hb2)
              · rcases List.mem_cons.mp hb2 with heq | hb2
                · have := hbiglt a (by rw [husplit]; exact List.mem_append_left _ ha)
                  omega
                · exact hd12 ha hb2

theorem insertSlowPath_step {s : BTreeState} {root : Nat}
    (hsuper : s.pages[PAGE_RESERVED]? = some (BTreePage.super root))
    (key : Nat) (value : RecordId) :
    insertSlowPath s key value =
      (insertDispatch key value s.pages.length s root).bind fun (s1, result) =>
        match result with
        | none => some s1
        | some (split_key, rhs_page_id) =>
          some ⟨(s1.pages ++ [BTreePage.inner
              (BTreeInnerPage.init split_key root rhs_page_id)]).set PAGE_RESERVED
            (BTreePage.super s1.pages.length)⟩ := by
  rw [insertSlowPath, hsuper]
  rfl

/-- insert_slow_path on a represented tree: the insert lands, and on a root
split the freshly allocated root recorded in the superblock re-establishes
the invariant one level higher. -/
theorem insertSlowPath_rep {s : BTreeState} {root h : Nat}
    {kvs : List (Nat × RecordId)} {used : List Nat} {key : Nat} {value : RecordId}
    (hsuper : s.pages[PAGE_RESERVED]? = some (BTreePage.super root))
    (hsub : SubtreeRep s.pages h root none none kvs used)
    (hfresh : ∀ q ∈ kvs, q.1 ≠ key) :
    ∃ s1, insertSlowPath s key value = some s1 ∧
      BTreeRep s1 (kvInsert kvs key value) := by
  have hwf := rep_wf h root none none kvs used hsub
  have husedlt : ∀ q ∈ used, q < s.pages.length := fun q hq =>
    nodePage_lt (hwf.2.2.2.2.1 q hq)
  have husedne0 : ∀ q ∈ used, q ≠ PAGE_RESERVED := fun q hq =>
    nodePage_ne_super (hwf.2.2.2.2.1 q hq) hsuper
  have hplen0 : 0 < s.pages.length := by
    have := husedlt root hwf.2.2.1
    omega
  obtain ⟨s1, r, hcall, hlen1, hframe1, houtcome⟩ :=
    rep_insert_go h s.pages root none none kvs used key value s.pages.length hsub
      (boundedKey_none key) hfresh (rep_fuel hsub)
  have hstep := insertSlowPath_step hsuper key value
  have hcall2 : insertDispatch key value s.pages.length s root = some (s1, r) := hcall
  rw [hcall2] at hstep
  rcases houtcome with ⟨rfl, usedN, hsubN, hcondN⟩ |
    ⟨sk, rid, kvsA, kvsB, usedA, usedB, rfl, hsubA, hsubB, hkvAB, hbsep, hridge,
      hridlt, hcondA, hcondB, hdAB⟩
  · refine ⟨s1, ?_, root, h, usedN, ?_, hsubN⟩
    · rw [hstep]
      rfl
    · rw [hframe1 PAGE_RESERVED hplen0 fun hc => husedne0 PAGE_RESERVED hc rfl]
      exact hsuper
  · have hpagesB : ∀ q ∈ usedA ++ usedB, q < s1.pages.length ∧ q ≠ PAGE_RESERVED := by
      intro q hq
      rcases List.mem_append.mp hq with hq1 | hq1
      · rcases hcondA q hq1 with hc | hc
        · exact ⟨by have := husedlt q hc; omega, husedne0 q hc⟩
        · refine ⟨hc.2, ?_⟩
          show q ≠ 0
          omega
      · rcases hcondB q hq1 with hc | hc
        · exact ⟨by have := husedlt q hc; omega, husedne0 q hc⟩
        · refine ⟨hc.2, ?_⟩
          show q ≠ 0
          omega
    refine ⟨⟨(s1.pages ++ [BTreePage.inner (BTreeInnerPage.init sk root rid)]).set
        PAGE_RESERVED (BTreePage.super s1.pages.length)⟩, ?_, s1.pages.length, h + 1,
      s1.pages.length :: (usedA ++ usedB), ?_, ?_⟩
    · rw [hstep]
      rfl
    · show ((s1.pages ++ [BTreePage.inner (BTreeInnerPage.init sk root rid)]).set
          PAGE_RESERVED (BTreePage.super s1.pages.length))[PAGE_RESERVED]? =
        some (BTreePage.super s1.pages.length)
      refine List.getElem?_set_self ?_
      show 0 < (s1.pages ++ [BTreePage.inner (BTreeInnerPage.init sk root rid)]).length
      rw [List.length_append]
      omega
    · have hfr : ∀ q ∈ usedA ++ usedB,
          ((s1.pages ++ [BTreePage.inner (BTreeInnerPage.init sk root rid)]).set
            PAGE_RESERVED (BTreePage.super s1.pages.length))[q]? = s1.pages[q]? := by
        intro q hq
        obtain ⟨hqlt, hqne⟩ := hpagesB q hq
        rw [List.getElem?_set_ne fun hc => hqne hc.symm,
          List.getElem?_append_left hqlt]
      have hsubA2 := rep_frame h root none (some sk) kvsA usedA hsubA
        (fun q hq => hfr q (List.mem_append_left _ hq))
      have hsubB2 := rep_frame h rid (some sk) none kvsB usedB hsubB
        (fun q hq => hfr q (List.mem_append_right _ hq))
      have hpageroot : ((s1.pages ++ [BTreePage.inner
          (BTreeInnerPage.init sk root rid)]).set PAGE_RESERVED
          (BTreePage.super s1.pages.length))[s1.pages.length]? =
          some (BTreePage.inner (BTreeInnerPage.init sk root rid)) := by
        rw [List.getElem?_set_ne (show PAGE_RESERVED ≠ s1.pages.length by
          show (0 : Nat) ≠ s1.pages.length
          omega)]
        exact getElem?_append_length _ _ _ _ rfl
      rw [← hkvAB]
      refine SubtreeRep.inner hpageroot ?_ ?_ ?_ ?_
      · show InnerRep ((s1.pages ++ [BTreePage.inner
            (BTreeInnerPage.init sk root rid)]).set PAGE_RESERVED
            (BTreePage.super s1.pages.length)) h none none [sk] [root, rid]
          (kvsA ++ kvsB) (usedA ++ usedB)
        refine InnerRep.cons ?_ hsubA2 (InnerRep.last hsubB2) hdAB
        exact ⟨fun l hl => Option.noConfusion hl, fun h0 hh => Option.noConfusion hh⟩
      · show 1 ≤ ([sk] : List Nat).length
        simp
      · show ([sk] : List Nat).length ≤ BTREE_NUM_KEYS
        norm_num [BTREE_NUM_KEYS, BTREE_BRANCHING_FACTOR]
      · intro hc
        have := (hpagesB _ hc).1
        omega

/-- BTree::insert on a represented tree with a fresh key: the fast path
performs the in-place leaf insert when the leaf has room, otherwise the
slow path runs; either way the new pair lands in the content. -/
theorem insert_rep {s : BTreeState} {kvs : List (Nat × RecordId)} {key : Nat}
    {value : RecordId} (hrep : BTreeRep s kvs) (hfresh : ∀ q ∈ kvs, q.1 ≠ key) :
    ∃ s1, s.insert key value = some s1 ∧ BTreeRep s1 (kvInsert kvs key value) := by
  obtain ⟨root, h, used, hsuper, hsub⟩ := hrep
  obtain ⟨lpid, lp, llo, lhi, kvsL, kvsR, hfind, hlp, hlpmem, hlps, hlpl, hlpc, hlbk,
    hlb, hkvseq, hkL, hkR, hrepl⟩ :=
    rep_descend h s.pages root none none kvs used key s.pages.length hsub
      (boundedKey_none key) (rep_fuel hsub)
  have hwf := rep_wf h root none none kvs used hsub
  have hfl : s.findLeaf key = some lpid := by
    unfold BTreeState.findLeaf BTreeState.rootPageId
    rw [hsuper]
    exact hfind
  have hnot : key ∉ lp.keys := by
    intro hmem
    obtain ⟨v, hv⟩ := mem_keys_exists_kv lp.keys lp.values key hlpl hmem
    refine hfresh (key, v) ?_ rfl
    rw [hkvseq]
    exact List.mem_append_right _ (List.mem_append_left _ hv)
  have hlpfresh : ∀ q ∈ lp.kvs, q.1 ≠ key := by
    intro q hq
    refine hfresh q ?_
    rw [hkvseq]
    exact List.mem_append_right _ (List.mem_append_left _ hq)
  have hkvins : kvInsert kvs key value = kvsL ++ (kvInsert lp.kvs key value ++ kvsR) := by
    rw [hkvseq, kvInsert_append_right (lp.kvs ++ kvsR) hkL, kvInsert_append_left lp.kvs hkR]
  by_cases hroom : lp.keys.length < BTREE_NUM_KEYS
  · obtain ⟨q, hins, hqkvs, hqnext, hqklen, hqvlen⟩ := leaf_insert_inserted hnot hroom hlpl
    have hstep : s.insert key value = some (⟨s.pages.set lpid (BTreePage.leaf q)⟩ :
        BTreeState) := by
      unfold BTreeState.insert
      rw [hfl]
      show (match s.pages[lpid]? with
        | some (BTreePage.leaf lp2) =>
          match lp2.insert key value with
          | LeafInsertResult.inserted p1 =>
            some (⟨s.pages.set lpid (BTreePage.leaf p1)⟩ : BTreeState)
          | LeafInsertResult.duplicatePanic => none
          | LeafInsertResult.split => insertSlowPath s key value
        | _ => none) = _
      rw [hlp]
      show (match lp.insert key value with
        | LeafInsertResult.inserted p1 =>
          some (⟨s.pages.set lpid (BTreePage.leaf p1)⟩ : BTreeState)
        | LeafInsertResult.duplicatePanic => none
        | LeafInsertResult.split => insertSlowPath s key value) = _
      rw [hins]
    have hqsort : q.keys.Sorted (· < ·) := by
      refine (kvSorted_zip hqvlen).mp ?_
      show KvSorted q.kvs
      rw [hqkvs]
      exact kvInsert_sorted ((kvSorted_zip hlpl).mpr hlps) hlpfresh
    have hqcap : q.keys.length ≤ BTREE_NUM_KEYS := by omega
    have hqbnd : ∀ k2 ∈ q.keys, boundedKey llo lhi k2 := by
      intro k2 hk2
      obtain ⟨v2, hv2⟩ := mem_keys_exists_kv q.keys q.values k2 hqvlen hk2
      have hv3 : (k2, v2) ∈ kvInsert lp.kvs key value := by
        rw [← hqkvs]
        exact hv2
      rcases mem_kvInsert.mp hv3 with heq | hv4
      · injection heq with h1 h2
        subst h1
        exact hlb
      · obtain ⟨hk1, _⟩ := List.of_mem_zip hv4
        exact hlbk k2 hk1
    have hrep2 := hrepl q hqsort hqvlen hqcap hqbnd
    refine ⟨⟨s.pages.set lpid (BTreePage.leaf q)⟩, hstep, root, h, used, ?_, ?_⟩
    · have hlpid0 : lpid ≠ PAGE_RESERVED :=
        nodePage_ne_super (hwf.2.2.2.2.1 lpid hlpmem) hsuper
      show (s.pages.set lpid (BTreePage.leaf q))[PAGE_RESERVED]? = _
      rw [List.getElem?_set_ne hlpid0]
      exact hsuper
    · rw [hkvins, ← hqkvs]
      exact hrep2
  · have hfull : lp.keys.length = BTREE_NUM_KEYS := by omega
    have hsplit : lp.insert key value = LeafInsertResult.split :=
      leaf_insert_split_full hnot hfull
    have hstep : s.insert key value = insertSlowPath s key value := by
      unfold BTreeState.insert
      rw [hfl]
      show (match s.pages[lpid]? with
        | some (BTreePage.leaf lp2) =>
          match lp2.insert key value with
          | LeafInsertResult.inserted p1 =>
            some (⟨s.pages.set lpid (BTreePage.leaf p1)⟩ : BTreeState)
          | LeafInsertResult.duplicatePanic => none
          | LeafInsertResult.split => insertSlowPath s key value
        | _ => none) = _
      rw [hlp]
      show (match lp.insert key value with
        | LeafInsertResult.inserted p1 =>
          some (⟨s.pages.set lpid (BTreePage.leaf p1)⟩ : BTreeState)
        | LeafInsertResult.duplicatePanic => none
        | LeafInsertResult.split => insertSlowPath s key value) = _
      rw [hsplit]
    obtain ⟨s2, hsp, hrep2⟩ := insertSlowPath_rep hsuper hsub hfresh
    exact ⟨s2, hstep.trans hsp, hrep2⟩

/-- Folding BTree::insert over a list of fresh, pairwise-distinct keys keeps
the representation, accumulating the sorted inserts. -/
theorem insertSeq_rep : ∀ (ops : List (Nat × RecordId)) (s : BTreeState)
    (kvs : List (Nat × RecordId)),
    BTreeRep s kvs →
    (∀ p ∈ ops, ∀ q ∈ kvs, q.1 ≠ p.1) →
    (ops.map Prod.fst).Nodup →
    ∃ s', insertSeq s ops = some s' ∧
      BTreeRep s' (List.foldl (fun acc p => kvInsert acc p.1 p.2) kvs ops) := by
  intro ops
  induction ops with
  | nil =>
    intro s kvs hrep _ _
    exact ⟨s, rfl, hrep⟩
  | cons p rest ih =>
    obtain ⟨k0, v0⟩ := p
    intro s kvs hrep hfr hnd
    obtain ⟨s1, hins, hrep1⟩ := insert_rep hrep
      (fun q hq => hfr (k0, v0) (List.mem_cons_self _ _) q hq)
    simp only [List.map_cons] at hnd
    have hnd2 := List.nodup_cons.mp hnd
    have hfr1 : ∀ p2 ∈ rest, ∀ q ∈ kvInsert kvs k0 v0, q.1 ≠ p2.1 := by
      intro p2 hp2 q hq
      rcases mem_kvInsert.mp hq with rfl | hq2
      · intro hc
        have hc2 : k0 = p2.1 := hc
        refine hnd2.1 ?_
        rw [hc2]
        exact List.mem_map_of_mem _ hp2
      · exact hfr p2 (List.mem_cons_of_mem _ hp2) q hq2
    obtain ⟨s2, hseq, hrep2⟩ := ih s1 (kvInsert kvs k0 v0) hrep1 hfr1 hnd2.2
    refine ⟨s2, ?_, hrep2⟩
    show (s.insert k0 v0).bind (insertSeq · rest) = some s2
    rw [hins]
    show insertSeq s1 rest = some s2
    exact hseq

theorem kvLookup_foldl_not_mem : ∀ (ops : List (Nat × RecordId))
    (kvs : List (Nat × RecordId)) (k : Nat), k ∉ ops.map Prod.fst →
    kvLookup (List.foldl (fun acc p => kvInsert acc p.1 p.2) kvs ops) k =
      kvLookup kvs k := by
  intro ops
  induction ops with
  | nil =>
    intro kvs k _
    rfl
  | cons p rest ih =>
    intro kvs k hk
    obtain ⟨k0, v0⟩ := p
    simp only [List.map_cons, List.mem_cons] at hk
    push_neg at hk
    show kvLookup (List.foldl (fun acc p => kvInsert acc p.1 p.2)
      (kvInsert kvs k0 v0) rest) k = kvLookup kvs k
    rw [ih (kvInsert kvs k0 v0) k hk.2, kvLookup_kvInsert_ne kvs k0 v0 hk.1]

theorem kvLookup_foldl_mem : ∀ (ops : List (Nat × RecordId))
    (kvs : List (Nat × RecordId)) (k : Nat) (v : RecordId),
    (k, v) ∈ ops → (ops.map Prod.fst).Nodup →
    (∀ q ∈ kvs, q.1 ≠ k) →
    kvLookup (List.foldl (fun acc p => kvInsert acc p.1 p.2) kvs ops) k = some v := by
  intro ops
  induction ops with
  | nil =>
    intro kvs k v hm _ _
    cases hm
  | cons p rest ih =>
    intro kvs k v hm hnd hf
    obtain ⟨k0, v0⟩ := p
    simp only [List.map_cons] at hnd
    have hnd2 := List.nodup_cons.mp hnd
    show kvLookup (List.foldl (fun acc p => kvInsert acc p.1 p.2)
      (kvInsert kvs k0 v0) rest) k = some v
    rcases List.mem_cons.mp hm with heq | hm2
    · injection heq with h1 h2
      subst h1
      subst h2
      rw [kvLookup_foldl_not_mem rest (kvInsert kvs k v) k hnd2.1]
      exact kvLookup_kvInsert_self hf
    · have hkne : k ≠ k0 := by
        intro hc
        refine hnd2.1 ?_
        rw [← hc]
        exact List.mem_map_of_mem _ hm2
      refine ih (kvInsert kvs k0 v0) k v hm2 hnd2.2 ?_
      intro q hq
      rcases mem_kvInsert.mp hq with rfl | hq2
      · exact fun hc => hkne hc.symm
      · exact hf q hq2

/-- C1: for every sequence of B+ tree inserts with pairwise-distinct keys
and no intervening delete, every insert succeeds, a subsequent
`BTree::search(k)` for an inserted key `k` returns `some rid` where `rid`
is the RecordId passed to the insert of `k`, and `search` of any key never
inserted returns `none`. -/
theorem btree_insert_search_correct (ops : List (Nat × RecordId))
    (hnd : (ops.map Prod.fst).Nodup) :
    ∃ s', insertSeq BTreeState.tryNew ops = some s' ∧
      (∀ k v, (k, v) ∈ ops → s'.search k = some v) ∧
      (∀ k, k ∉ ops.map Prod.fst → s'.search k = none) := by
  obtain ⟨s', hseq, hrep⟩ := insertSeq_rep ops BTreeState.tryNew [] tryNew_rep
    (fun p _ q hq => absurd hq (List.not_mem_nil q)) hnd
  refine ⟨s', hseq, ?_, ?_⟩
  · intro k v hm
    rw [btreeRep_search hrep k]
    exact kvLookup_foldl_mem ops [] k v hm hnd
      (fun q hq => absurd hq (List.not_mem_nil q))
  · intro k hk
    rw [btreeRep_search hrep k, kvLookup_foldl_not_mem ops [] k hk]
    rfl

theorem btree_insert_search_correct_witness :
    (([(5, (⟨1, 2⟩ : RecordId)), (3, ⟨4, 7⟩)].map Prod.fst).Nodup) ∧
    (∃ s', insertSeq BTreeState.tryNew [(5, (⟨1, 2⟩ : RecordId)), (3, ⟨4, 7⟩)] =
        some s' ∧
      (∀ k v, (k, v) ∈ [(5, (⟨1, 2⟩ : RecordId)), (3, ⟨4, 7⟩)] → s'.search k = some v) ∧
      (∀ k, k ∉ [(5, (⟨1, 2⟩ : RecordId)), (3, ⟨4, 7⟩)].map Prod.fst →
        s'.search k = none)) :=
  ⟨by decide, btree_insert_search_correct _ (by decide)⟩

/-- C5: after a successful `BTree::insert(key, value)` on a tree not
containing `key` followed by a successful `BTree::delete(key)`,
`search key` returns `none`; `delete` of any key whose lookup in the
content fails returns the KeyNotFound error; and on the freshly created
empty tree, `search 42` is `none` while `delete 42` errors with
KeyNotFound. -/
theorem btree_insert_delete_roundtrip (s : BTreeState) (kvs : List (Nat × RecordId))
    (key : Nat) (value : RecordId) (hrep : BTreeRep s kvs)
    (hfresh : ∀ q ∈ kvs, q.1 ≠ key) :
    (∃ s1 s2, s.insert key value = some s1 ∧
      s1.delete key = some (Except.ok s2) ∧ s2.search key = none) ∧
    (∀ k, kvLookup kvs k = none →
      s.delete k = some (Except.error BTreePageError.keyNotFound)) ∧
    BTreeState.tryNew.search 42 = none ∧
    BTreeState.tryNew.delete 42 = some (Except.error BTreePageError.keyNotFound) := by
  have hks : KvSorted kvs := by
    obtain ⟨root, h, used, hsuper, hsub⟩ := hrep
    exact (rep_wf h root none none kvs used hsub).1
  obtain ⟨s1, hins, hrep1⟩ := insert_rep hrep hfresh
  have hlook : kvLookup (kvInsert kvs key value) key = some value :=
    kvLookup_kvInsert_self hfresh
  obtain ⟨s2, hdel, hrep2⟩ := (btreeRep_delete hrep1).2 value hlook
  refine ⟨⟨s1, s2, hins, hdel, ?_⟩, ?_, ?_, ?_⟩
  · rw [btreeRep_search hrep2 key]
    exact kvLookup_kvErase_self (kvInsert_sorted hks hfresh)
  · intro k hk
    exact (btreeRep_delete hrep).1 hk
  · rfl
  · rfl

theorem btree_insert_delete_roundtrip_witness :
    (∃ s1 s2, BTreeState.tryNew.insert 9 ⟨3, 4⟩ = some s1 ∧
      s1.delete 9 = some (Except.ok s2) ∧ s2.search 9 = none) ∧
    (∀ k, kvLookup ([] : List (Nat × RecordId)) k = none →
      BTreeState.tryNew.delete k = some (Except.error BTreePageError.keyNotFound)) ∧
    BTreeState.tryNew.search 42 = none ∧
    BTreeState.tryNew.delete 42 = some (Except.error BTreePageError.keyNotFound) :=
  btree_insert_delete_roundtrip BTreeState.tryNew [] 9 ⟨3, 4⟩ tryNew_rep
    (fun q hq => absurd hq (List.not_mem_nil q))

end JoujouDB
